import Mathlib

/-!
Verification of the streaming adapter core of the `foundry` repository.

The development shallowly embeds the Python sources of the streaming
adapter core:

  * `src/foundry/core/adapters/toolbridge.py` (tool specs, tool-call
    payload conversion, JSON freezing/thawing),
  * `src/foundry/core/message.py` (the `ToolCall` schema object),
  * `src/foundry/adapters/base.py` and `src/foundry/adapters/openai_adapter.py`
    (the canonical event schema with `seq_id`/`ts`, the per-stream
    normalizer `_OpenAINormalizer`, the async iterator `_OpenAIStream`
    and the adapter facade `OpenAIAdapter.__init__`),
  * `src/foundry/core/adapters/openai.py` (the legacy
    `OpenAIStreamNormalizer._normalize_tool_calls` accumulator logic).

Python's dynamically typed JSON-like values are embedded as the mutual
inductive `PyVal`/`PyArr`/`PyObj` below, distinguishing plain `dict`/`list`
values from frozen `MappingProxyType`/`tuple` values, because the
freeze/thaw behaviour of the source depends on exactly that distinction.
Numbers are embedded as integers: the sources treat numbers as atoms
everywhere that matters here, and float-specific behaviour (non-finite
rejection) is outside the verified claims.  Python `str` is embedded as
Lean `String`.
-/

namespace Foundry

mutual

/-- Embedding of the Python JSON-like values manipulated by the tool
bridge: `pnone`/`pbool`/`pint`/`pstr` are the atoms, `plist`/`pdict` the
mutable containers, and `ptuple`/`pproxy` the frozen containers produced
by `_freeze_json_structure` (`tuple` and `types.MappingProxyType`).
Mapping keys are strings (non-string keys are rejected by
`_ensure_json_compatible` before any code verified here can see them). -/
inductive PyVal where
  | pnone : PyVal
  | pbool (b : Bool) : PyVal
  | pint (n : Int) : PyVal
  | pstr (s : String) : PyVal
  | plist (xs : PyArr) : PyVal
  | ptuple (xs : PyArr) : PyVal
  | pdict (xs : PyObj) : PyVal
  | pproxy (xs : PyObj) : PyVal
  deriving DecidableEq

/-- A sequence of embedded Python values (elements of a `list`/`tuple`). -/
inductive PyArr where
  | nil : PyArr
  | cons (hd : PyVal) (tl : PyArr) : PyArr
  deriving DecidableEq

/-- String-keyed entries of an embedded Python mapping, in insertion
order. -/
inductive PyObj where
  | nil : PyObj
  | cons (key : String) (val : PyVal) (tl : PyObj) : PyObj
  deriving DecidableEq
end

/-- `mapping.get(key)`: the first value stored under `key` (Python dict
keys are unique, so first-match lookup agrees with dict lookup). -/
def PyObj.get : PyObj → String → Option PyVal
  | .nil, _ => none
  | .cons k v tl, key => if k = key then some v else PyObj.get tl key

/-- Number of entries of an embedded mapping. -/
def PyObj.length : PyObj → Nat
  | .nil => 0
  | .cons _ _ tl => 1 + PyObj.length tl

/-- `dict(value)` applied to a value known to be a `Mapping`
(`dict` or `MappingProxyType`): a shallow copy of the entries.
Returns `none` for non-mappings (where Python `dict(...)` would fail). -/
def shallow_dict : PyVal → Option PyObj
  | .pdict xs => some xs
  | .pproxy xs => some xs
  | _ => none

/-- `isinstance(value, Mapping)`. -/
def PyVal.isMapping : PyVal → Bool
  | .pdict _ => true
  | .pproxy _ => true
  | _ => false

/-- `isinstance(value, dict)` (a `MappingProxyType` is *not* a `dict`). -/
def PyVal.isDict : PyVal → Bool
  | .pdict _ => true
  | _ => false

mutual

/-- `_ensure_json_compatible` from `toolbridge.py` / `message.py`:
`true` iff the traversal returns without raising.  Mappings recurse with
non-empty string keys, non-string sequences (`list` and `tuple`) recurse
elementwise, and `bool`/`None`/`str`/`int` atoms pass (the float
non-finiteness branch has no counterpart here because numbers are
embedded as integers). -/
def ensure_json_compatible : PyVal → Bool
  | .pdict xs => ensure_json_obj xs
  | .pproxy xs => ensure_json_obj xs
  | .plist xs => ensure_json_arr xs
  | .ptuple xs => ensure_json_arr xs
  | .pbool _ => true
  | .pnone => true
  | .pstr _ => true
  | .pint _ => true

def ensure_json_arr : PyArr → Bool
  | .nil => true
  | .cons v tl => ensure_json_compatible v && ensure_json_arr tl

def ensure_json_obj : PyObj → Bool
  | .nil => true
  | .cons k v tl =>
      decide (k ≠ "") && ensure_json_compatible v && ensure_json_obj tl

end

mutual

/-- `json.loads(json.dumps(value, allow_nan=False))`: serialization
through JSON and re-materialization.  `json.dumps` serializes `dict`,
`list` and `tuple` containers and the atoms, and raises `TypeError` on a
`MappingProxyType` (it is not a `dict`); `json.loads` re-materializes
every JSON array as a `list` and every JSON object as a `dict`, so the
composite canonicalizes tuples to lists and fails on any nested proxy. -/
def loads_dumps : PyVal → Except String PyVal
  | .pnone => .ok .pnone
  | .pbool b => .ok (.pbool b)
  | .pint n => .ok (.pint n)
  | .pstr s => .ok (.pstr s)
  | .plist xs => do .ok (.plist (← loads_dumps_arr xs))
  | .ptuple xs => do .ok (.plist (← loads_dumps_arr xs))
  | .pdict xs => do .ok (.pdict (← loads_dumps_obj xs))
  | .pproxy _ => .error "Object of type mappingproxy is not JSON serializable"

def loads_dumps_arr : PyArr → Except String PyArr
  | .nil => .ok .nil
  | .cons v tl => do .ok (.cons (← loads_dumps v) (← loads_dumps_arr tl))

def loads_dumps_obj : PyObj → Except String PyObj
  | .nil => .ok .nil
  | .cons k v tl => do .ok (.cons k (← loads_dumps v) (← loads_dumps_obj tl))

end

mutual

/-- `_freeze_nested_json` from `toolbridge.py`: `dict` becomes a
`MappingProxyType` of frozen entries, `list` becomes a `tuple` of frozen
elements, everything else (atoms, and already-frozen proxies/tuples,
which are neither `dict` nor `list`) passes through unchanged.
`message.py`'s `_freeze_json_structure` computes the same function. -/
def freeze_nested_json : PyVal → PyVal
  | .pdict xs => .pproxy (freeze_obj xs)
  | .plist xs => .ptuple (freeze_arr xs)
  | v => v

def freeze_arr : PyArr → PyArr
  | .nil => .nil
  | .cons v tl => .cons (freeze_nested_json v) (freeze_arr tl)

def freeze_obj : PyObj → PyObj
  | .nil => .nil
  | .cons k v tl => .cons k (freeze_nested_json v) (freeze_obj tl)

end

/-- `_freeze_json_structure` from `toolbridge.py`: requires a `dict` and
returns the read-only deep-frozen mapping. -/
def freeze_json_structure : PyVal → Except String PyVal
  | .pdict xs => .ok (.pproxy (freeze_obj xs))
  | _ => .error "expected a dictionary to freeze"

mutual

/-- `_thaw_json_structure` from `toolbridge.py`: any `Mapping` becomes a
plain `dict` of thawed entries, a `tuple` becomes a `list` of thawed
elements, and everything else — including a plain `list` and its
contents — passes through unchanged. -/
def thaw_json_structure : PyVal → PyVal
  | .pdict xs => .pdict (thaw_obj xs)
  | .pproxy xs => .pdict (thaw_obj xs)
  | .ptuple xs => .plist (thaw_arr xs)
  | v => v

def thaw_arr : PyArr → PyArr
  | .nil => .nil
  | .cons v tl => .cons (thaw_json_structure v) (thaw_arr tl)

def thaw_obj : PyObj → PyObj
  | .nil => .nil
  | .cons k v tl => .cons k (thaw_json_structure v) (thaw_obj tl)

end

mutual

/-- `_thaw_json_structure` from `message.py` (a distinct function): any
`Mapping` becomes a plain `dict` of thawed entries and any non-string
`Sequence` — `list` as well as `tuple` — becomes a `list` of thawed
elements. -/
def thaw_message : PyVal → PyVal
  | .pdict xs => .pdict (thaw_msg_obj xs)
  | .pproxy xs => .pdict (thaw_msg_obj xs)
  | .ptuple xs => .plist (thaw_msg_arr xs)
  | .plist xs => .plist (thaw_msg_arr xs)
  | v => v

def thaw_msg_arr : PyArr → PyArr
  | .nil => .nil
  | .cons v tl => .cons (thaw_message v) (thaw_msg_arr tl)

def thaw_msg_obj : PyObj → PyObj
  | .nil => .nil
  | .cons k v tl => .cons k (thaw_message v) (thaw_msg_obj tl)

end

mutual

/-- A value is *plain* when it contains no frozen container: no `tuple`
and no `MappingProxyType` anywhere.  `json.loads` only ever produces
plain values. -/
def isPlain : PyVal → Bool
  | .pdict xs => isPlainObj xs
  | .plist xs => isPlainArr xs
  | .ptuple _ => false
  | .pproxy _ => false
  | _ => true

def isPlainArr : PyArr → Bool
  | .nil => true
  | .cons v tl => isPlain v && isPlainArr tl

def isPlainObj : PyObj → Bool
  | .nil => true
  | .cons _ v tl => isPlain v && isPlainObj tl

end

mutual

theorem loads_dumps_plain : ∀ v : PyVal, isPlain v = true → loads_dumps v = .ok v
  | .pnone, _ => rfl
  | .pbool _, _ => rfl
  | .pint _, _ => rfl
  | .pstr _, _ => rfl
  | .plist xs, h => by
      simp only [loads_dumps, loads_dumps_arr_plain xs (by simpa [isPlain] using h)]
      rfl
  | .pdict xs, h => by
      simp only [loads_dumps, loads_dumps_obj_plain xs (by simpa [isPlain] using h)]
      rfl

theorem loads_dumps_arr_plain :
    ∀ xs : PyArr, isPlainArr xs = true → loads_dumps_arr xs = .ok xs
  | .nil, _ => rfl
  | .cons v tl, h => by
      have hv : isPlain v = true := by
        have := h; simp [isPlainArr, Bool.and_eq_true] at this; exact this.1
      have ht : isPlainArr tl = true := by
        have := h; simp [isPlainArr, Bool.and_eq_true] at this; exact this.2
      simp only [loads_dumps_arr, loads_dumps_plain v hv, loads_dumps_arr_plain tl ht]
      rfl

theorem loads_dumps_obj_plain :
    ∀ xs : PyObj, isPlainObj xs = true → loads_dumps_obj xs = .ok xs
  | .nil, _ => rfl
  | .cons k v tl, h => by
      have hv : isPlain v = true := by
        have := h; simp [isPlainObj, Bool.and_eq_true] at this; exact this.1
      have ht : isPlainObj tl = true := by
        have := h; simp [isPlainObj, Bool.and_eq_true] at this; exact this.2
      simp only [loads_dumps_obj, loads_dumps_plain v hv, loads_dumps_obj_plain tl ht]
      rfl

end

mutual

theorem loads_dumps_isPlain :
    ∀ v w : PyVal, loads_dumps v = .ok w → isPlain w = true
  | .pnone, _, h => by cases h; rfl
  | .pbool _, _, h => by cases h; rfl
  | .pint _, _, h => by cases h; rfl
  | .pstr _, _, h => by cases h; rfl
  | .plist xs, w, h => by
      simp only [loads_dumps, bind, Except.bind] at h
      cases hx : loads_dumps_arr xs with
      | error e => rw [hx] at h; cases h
      | ok ys => rw [hx] at h; cases h; simpa [isPlain] using loads_dumps_arr_isPlain xs ys hx
  | .ptuple xs, w, h => by
      simp only [loads_dumps, bind, Except.bind] at h
      cases hx : loads_dumps_arr xs with
      | error e => rw [hx] at h; cases h
      | ok ys => rw [hx] at h; cases h; simpa [isPlain] using loads_dumps_arr_isPlain xs ys hx
  | .pdict xs, w, h => by
      simp only [loads_dumps, bind, Except.bind] at h
      cases hx : loads_dumps_obj xs with
      | error e => rw [hx] at h; cases h
      | ok ys => rw [hx] at h; cases h; simpa [isPlain] using loads_dumps_obj_isPlain xs ys hx
  | .pproxy _, _, h => by cases h

theorem loads_dumps_arr_isPlain :
    ∀ xs ys : PyArr, loads_dumps_arr xs = .ok ys → isPlainArr ys = true
  | .nil, _, h => by cases h; rfl
  | .cons v tl, ys, h => by
      simp only [loads_dumps_arr, bind, Except.bind] at h
      cases hv : loads_dumps v with
      | error e => rw [hv] at h; cases h
      | ok w =>
        rw [hv] at h
        cases ht : loads_dumps_arr tl with
        | error e => rw [ht] at h; cases h
        | ok ws =>
          rw [ht] at h
          cases h
          simp [isPlainArr, loads_dumps_isPlain v w hv, loads_dumps_arr_isPlain tl ws ht]

theorem loads_dumps_obj_isPlain :
    ∀ xs ys : PyObj, loads_dumps_obj xs = .ok ys → isPlainObj ys = true
  | .nil, _, h => by cases h; rfl
  | .cons k v tl, ys, h => by
      simp only [loads_dumps_obj, bind, Except.bind] at h
      cases hv : loads_dumps v with
      | error e => rw [hv] at h; cases h
      | ok w =>
        rw [hv] at h
        cases ht : loads_dumps_obj tl with
        | error e => rw [ht] at h; cases h
        | ok ws =>
          rw [ht] at h
          cases h
          simp [isPlainObj, loads_dumps_isPlain v w hv, loads_dumps_obj_isPlain tl ws ht]

end

mutual

theorem thaw_freeze_plain :
    ∀ v : PyVal, isPlain v = true → thaw_json_structure (freeze_nested_json v) = v
  | .pnone, _ => rfl
  | .pbool _, _ => rfl
  | .pint _, _ => rfl
  | .pstr _, _ => rfl
  | .plist xs, h => by
      simp only [freeze_nested_json, thaw_json_structure]
      rw [thaw_freeze_arr_plain xs (by simpa [isPlain] using h)]
  | .pdict xs, h => by
      simp only [freeze_nested_json, thaw_json_structure]
      rw [thaw_freeze_obj_plain xs (by simpa [isPlain] using h)]

theorem thaw_freeze_arr_plain :
    ∀ xs : PyArr, isPlainArr xs = true → thaw_arr (freeze_arr xs) = xs
  | .nil, _ => rfl
  | .cons v tl, h => by
      have hv : isPlain v = true := by
        have := h; simp [isPlainArr, Bool.and_eq_true] at this; exact this.1
      have ht : isPlainArr tl = true := by
        have := h; simp [isPlainArr, Bool.and_eq_true] at this; exact this.2
      simp only [freeze_arr, thaw_arr]
      rw [thaw_freeze_plain v hv, thaw_freeze_arr_plain tl ht]

theorem thaw_freeze_obj_plain :
    ∀ xs : PyObj, isPlainObj xs = true → thaw_obj (freeze_obj xs) = xs
  | .nil, _ => rfl
  | .cons k v tl, h => by
      have hv : isPlain v = true := by
        have := h; simp [isPlainObj, Bool.and_eq_true] at this; exact this.1
      have ht : isPlainObj tl = true := by
        have := h; simp [isPlainObj, Bool.and_eq_true] at this; exact this.2
      simp only [freeze_obj, thaw_obj]
      rw [thaw_freeze_plain v hv, thaw_freeze_obj_plain tl ht]

end

mutual

theorem thaw_message_freeze_plain :
    ∀ v : PyVal, isPlain v = true → thaw_message (freeze_nested_json v) = v
  | .pnone, _ => rfl
  | .pbool _, _ => rfl
  | .pint _, _ => rfl
  | .pstr _, _ => rfl
  | .plist xs, h => by
      simp only [freeze_nested_json, thaw_message]
      rw [thaw_message_freeze_arr_plain xs (by simpa [isPlain] using h)]
  | .pdict xs, h => by
      simp only [freeze_nested_json, thaw_message]
      rw [thaw_message_freeze_obj_plain xs (by simpa [isPlain] using h)]

theorem thaw_message_freeze_arr_plain :
    ∀ xs : PyArr, isPlainArr xs = true → thaw_msg_arr (freeze_arr xs) = xs
  | .nil, _ => rfl
  | .cons v tl, h => by
      have hv : isPlain v = true := by
        have := h; simp [isPlainArr, Bool.and_eq_true] at this; exact this.1
      have ht : isPlainArr tl = true := by
        have := h; simp [isPlainArr, Bool.and_eq_true] at this; exact this.2
      simp only [freeze_arr, thaw_msg_arr]
      rw [thaw_message_freeze_plain v hv, thaw_message_freeze_arr_plain tl ht]

theorem thaw_message_freeze_obj_plain :
    ∀ xs : PyObj, isPlainObj xs = true → thaw_msg_obj (freeze_obj xs) = xs
  | .nil, _ => rfl
  | .cons k v tl, h => by
      have hv : isPlain v = true := by
        have := h; simp [isPlainObj, Bool.and_eq_true] at this; exact this.1
      have ht : isPlainObj tl = true := by
        have := h; simp [isPlainObj, Bool.and_eq_true] at this; exact this.2
      simp only [freeze_obj, thaw_msg_obj]
      rw [thaw_message_freeze_plain v hv, thaw_message_freeze_obj_plain tl ht]

end

mutual

theorem ensure_loads_dumps :
    ∀ v w : PyVal, ensure_json_compatible v = true → loads_dumps v = .ok w →
      ensure_json_compatible w = true
  | .pnone, _, _, h => by cases h; rfl
  | .pbool _, _, _, h => by cases h; rfl
  | .pint _, _, _, h => by cases h; rfl
  | .pstr _, _, _, h => by cases h; rfl
  | .plist xs, w, he, h => by
      simp only [loads_dumps, bind, Except.bind] at h
      cases hx : loads_dumps_arr xs with
      | error e => rw [hx] at h; cases h
      | ok ys =>
        rw [hx] at h; cases h
        simpa [ensure_json_compatible] using
          ensure_loads_dumps_arr xs ys (by simpa [ensure_json_compatible] using he) hx
  | .ptuple xs, w, he, h => by
      simp only [loads_dumps, bind, Except.bind] at h
      cases hx : loads_dumps_arr xs with
      | error e => rw [hx] at h; cases h
      | ok ys =>
        rw [hx] at h; cases h
        simpa [ensure_json_compatible] using
          ensure_loads_dumps_arr xs ys (by simpa [ensure_json_compatible] using he) hx
  | .pdict xs, w, he, h => by
      simp only [loads_dumps, bind, Except.bind] at h
      cases hx : loads_dumps_obj xs with
      | error e => rw [hx] at h; cases h
      | ok ys =>
        rw [hx] at h; cases h
        simpa [ensure_json_compatible] using
          ensure_loads_dumps_obj xs ys (by simpa [ensure_json_compatible] using he) hx
  | .pproxy _, _, _, h => by cases h

theorem ensure_loads_dumps_arr :
    ∀ xs ys : PyArr, ensure_json_arr xs = true → loads_dumps_arr xs = .ok ys →
      ensure_json_arr ys = true
  | .nil, _, _, h => by cases h; rfl
  | .cons v tl, ys, he, h => by
      simp only [loads_dumps_arr, bind, Except.bind] at h
      cases hv : loads_dumps v with
      | error e => rw [hv] at h; cases h
      | ok w =>
        rw [hv] at h
        cases ht : loads_dumps_arr tl with
        | error e => rw [ht] at h; cases h
        | ok ws =>
          rw [ht] at h; cases h
          have he' := he
          simp [ensure_json_arr, Bool.and_eq_true] at he'
          simp [ensure_json_arr, ensure_loads_dumps v w he'.1 hv,
            ensure_loads_dumps_arr tl ws he'.2 ht]

theorem ensure_loads_dumps_obj :
    ∀ xs ys : PyObj, ensure_json_obj xs = true → loads_dumps_obj xs = .ok ys →
      ensure_json_obj ys = true
  | .nil, _, _, h => by cases h; rfl
  | .cons k v tl, ys, he, h => by
      simp only [loads_dumps_obj, bind, Except.bind] at h
      cases hv : loads_dumps v with
      | error e => rw [hv] at h; cases h
      | ok w =>
        rw [hv] at h
        cases ht : loads_dumps_obj tl with
        | error e => rw [ht] at h; cases h
        | ok ws =>
          rw [ht] at h; cases h
          have he' := he
          simp [ensure_json_obj, Bool.and_eq_true] at he'
          simp [ensure_json_obj, he'.1.1, ensure_loads_dumps v w he'.1.2 hv,
            ensure_loads_dumps_obj tl ws he'.2 ht]

end

/-- `str.lstrip()` on character lists: drop leading whitespace. -/
def lstrip_chars (l : List Char) : List Char := l.dropWhile Char.isWhitespace

/-- `str.rstrip()` on character lists: drop trailing whitespace. -/
def rstrip_chars (l : List Char) : List Char :=
  ((l.reverse.dropWhile Char.isWhitespace)).reverse

/-- `str.strip()`: drop leading and trailing whitespace.  Python strips
Unicode whitespace; `Char.isWhitespace` covers the whitespace characters
that can actually occur in the verified flows. -/
def py_strip (s : String) : String :=
  String.mk (rstrip_chars (lstrip_chars s.toList))

theorem dropWhile_idem (p : Char → Bool) :
    ∀ l : List Char, (l.dropWhile p).dropWhile p = l.dropWhile p := by
  intro l
  induction l with
  | nil => rfl
  | cons a t ih =>
      by_cases h : p a
      · simp [List.dropWhile, h, ih]
      · simp [List.dropWhile, h]

theorem lstrip_rstrip_head (a : Char) (t : List Char)
    (ha : Char.isWhitespace a = false) :
    lstrip_chars (rstrip_chars (a :: t)) = rstrip_chars (a :: t) := by
  have hsplit : rstrip_chars (a :: t) =
      if (t.reverse.dropWhile Char.isWhitespace).isEmpty then [a]
      else a :: (t.reverse.dropWhile Char.isWhitespace).reverse := by
    unfold rstrip_chars
    rw [List.reverse_cons, List.dropWhile_append]
    by_cases he : (t.reverse.dropWhile Char.isWhitespace).isEmpty
    · simp [he, List.dropWhile, ha]
    · simp [he, List.dropWhile, ha, List.reverse_append]
  rw [hsplit]
  by_cases he : (t.reverse.dropWhile Char.isWhitespace).isEmpty
  · simp [he, lstrip_chars, List.dropWhile, ha]
  · simp [he, lstrip_chars, List.dropWhile, ha]

theorem lstrip_rstrip_lstrip (l : List Char) :
    lstrip_chars (rstrip_chars (lstrip_chars l)) = rstrip_chars (lstrip_chars l) := by
  cases hy : lstrip_chars l with
  | nil => simp [rstrip_chars, lstrip_chars, List.dropWhile]
  | cons a t =>
      have ha : Char.isWhitespace a = false := by
        have := List.head?_dropWhile_not Char.isWhitespace l
        rw [show l.dropWhile Char.isWhitespace = a :: t from hy] at this
        simpa using this
      exact lstrip_rstrip_head a t ha

theorem rstrip_idem (m : List Char) : rstrip_chars (rstrip_chars m) = rstrip_chars m := by
  unfold rstrip_chars
  rw [List.reverse_reverse, dropWhile_idem]

theorem py_strip_idem (s : String) : py_strip (py_strip s) = py_strip s := by
  unfold py_strip
  have htl : (String.mk (rstrip_chars (lstrip_chars s.toList))).toList =
      rstrip_chars (lstrip_chars s.toList) := rfl
  rw [htl, lstrip_rstrip_lstrip, rstrip_idem]

/-- The tool-name pattern `^[a-zA-Z0-9_-]\x7b1,64\x7d$` checked with
`re.fullmatch` in `ToolSpec.__post_init__`. -/
def is_valid_tool_name (s : String) : Bool :=
  decide (1 ≤ s.toList.length) && decide (s.toList.length ≤ 64) &&
    s.toList.all (fun c => c.isAlphanum || c = '_' || c = '-')

/-- All keys of a mapping are non-empty strings (the `for key in
properties` loop of `ToolSpec.__post_init__`; keys are strings by
construction of the embedding). -/
def keys_valid : PyObj → Bool
  | .nil => true
  | .cons k _ tl => decide (k ≠ "") && keys_valid tl

/-- The `required` validation loop of `ToolSpec.__post_init__`: every
item must be a non-empty string naming a defined property. -/
def required_valid : PyArr → PyObj → Bool
  | .nil, _ => true
  | .cons (.pstr s) tl, props =>
      decide (s ≠ "") && (PyObj.get props s).isSome && required_valid tl props
  | .cons _ _, _ => false

/-- `ToolSpec` from `toolbridge.py`: the dataclass after a successful
`__post_init__` (description already stripped, parameters deep-frozen). -/
structure ToolSpec where
  name : String
  parameters : PyVal
  description : Option String
  deriving DecidableEq

/-- `ToolSpec(name=..., parameters=..., description=...)`, i.e. the
dataclass constructor running `__post_init__` from `toolbridge.py`.
Returns `Except.error` where the source raises `AdapterError`.  The
steps mirror the source in order: name pattern, description strip,
`Mapping` check, `dict()` shallow copy, `_ensure_json_compatible`,
`json.loads(json.dumps(..., allow_nan=False))`, top-level `type`,
`properties`, property-key and `required` validation, then
`_freeze_json_structure`. -/
def makeToolSpec (name : String) (parameters : PyVal) (description : Option String) :
    Except String ToolSpec :=
  if ¬ is_valid_tool_name name then
    .error "tool name must match ^[a-zA-Z0-9_-]\x7b1,64\x7d$"
  else
    match (match description with
      | none => Except.ok (none : Option String)
      | some d =>
          if py_strip d = "" then .error "tool description cannot be empty"
          else .ok (some (py_strip d))) with
    | .error e => .error e
    | .ok normalized_description =>
      match parameters with
      | .pdict raw => makeToolSpecCore name raw normalized_description
      | .pproxy raw => makeToolSpecCore name raw normalized_description
      | _ => .error "tool parameters must be a mapping"
where
  /-- The tail of `__post_init__` once `raw_parameters = dict(self.parameters)`
  has been formed. -/
  makeToolSpecCore (name : String) (raw : PyObj) (normalized_description : Option String) :
      Except String ToolSpec :=
    if ¬ ensure_json_compatible (.pdict raw) then
      .error "ToolSpec parameters are not JSON compatible"
    else
      match loads_dumps_obj raw with
      | .error _ => .error "tool parameters must be JSON serializable"
      | .ok sanitized =>
        if PyObj.get sanitized "type" ≠ some (.pstr "object") then
          .error "tool parameters must describe a JSON object"
        else
          match PyObj.get sanitized "properties" with
          | some (.pdict props) =>
            if ¬ keys_valid props then
              .error "tool parameter names must be non-empty strings"
            else
              match PyObj.get sanitized "required" with
              | some (.plist req) =>
                  if ¬ required_valid req props then
                    .error "required parameter names are invalid"
                  else
                    .ok ⟨name, .pproxy (freeze_obj sanitized), normalized_description⟩
              | some _ => .error "tool parameter 'required' must be a list of strings"
              | none => .ok ⟨name, .pproxy (freeze_obj sanitized), normalized_description⟩
          | some _ => .error "tool parameters must include an object 'properties' mapping"
          | none => .error "tool parameters must include an object 'properties' mapping"

/-- `true` iff the computation returned normally (did not raise). -/
def exceptOk {α : Type} : Except String α → Bool
  | .ok _ => true
  | .error _ => false

/-- C7, counterexample input: a minimal valid parameters mapping. -/
def c7_params : PyVal :=
  .pdict (.cons "type" (.pstr "object") (.cons "properties" (.pdict .nil) .nil))

/-- C7, the spec produced from `c7_params` (parameters deep-frozen: the
nested `properties` dict has become a `MappingProxyType`). -/
def c7_spec : ToolSpec :=
  ⟨"t", .pproxy (.cons "type" (.pstr "object") (.cons "properties" (.pproxy .nil) .nil)),
    none⟩

/-- **C7, counterexample.**  The claim says that, for every valid
`ToolSpec` `s`, constructing a new `ToolSpec` from `s.name`,
`s.description` and the already-frozen `s.parameters` succeeds and
yields a spec equal to `s`.  It fails on every valid spec: the frozen
parameters contain a nested `MappingProxyType` (at least under
`"properties"`), and `json.dumps` inside `__post_init__` cannot
serialize a `MappingProxyType`, so re-construction raises
`AdapterError("tool parameters must be JSON serializable")`.  Here the
concrete spec built from `c7_params` is re-frozen and the construction
raises instead of succeeding. -/
theorem c7_counterexample :
    makeToolSpec "t" c7_params none = .ok c7_spec ∧
      exceptOk (makeToolSpec c7_spec.name c7_spec.parameters c7_spec.description) = false := by
  constructor
  · rfl
  · rfl

/-- The conditions `__post_init__` checks on the sanitized parameters
mapping (top-level `type`, `properties`, property keys, `required`). -/
def sanitized_ok (sanitized : PyObj) : Prop :=
  PyObj.get sanitized "type" = some (.pstr "object") ∧
  ∃ props, PyObj.get sanitized "properties" = some (.pdict props) ∧
    keys_valid props = true ∧
    (PyObj.get sanitized "required" = none ∨
      ∃ req, PyObj.get sanitized "required" = some (.plist req) ∧
        required_valid req props = true)

theorem makeToolSpecCore_ok_inv (n : String) (raw : PyObj) (nd : Option String)
    (s : ToolSpec) (hc : makeToolSpec.makeToolSpecCore n raw nd = .ok s) :
    ensure_json_obj raw = true ∧
      ∃ sanitized, loads_dumps_obj raw = .ok sanitized ∧ sanitized_ok sanitized ∧
        s = ⟨n, .pproxy (freeze_obj sanitized), nd⟩ := by
  unfold makeToolSpec.makeToolSpecCore at hc
  split at hc
  · cases hc
  next he =>
    have he' : ensure_json_obj raw = true := by
      have := not_not.mp he
      simpa [ensure_json_compatible] using this
    refine ⟨he', ?_⟩
    revert hc
    split
    · intro hc; cases hc
    next sanitized hld =>
      intro hc
      refine ⟨sanitized, hld, ?_⟩
      split at hc
      · cases hc
      next hty =>
        have hty' : PyObj.get sanitized "type" = some (.pstr "object") := not_not.mp hty
        split at hc
        next props hprops =>
          split at hc
          · cases hc
          next hkeys =>
            have hkeys' : keys_valid props = true := not_not.mp hkeys
            split at hc
            next req hreq =>
              split at hc
              · cases hc
              next hrv =>
                cases hc
                exact ⟨⟨hty', props, hprops, hkeys', Or.inr ⟨req, hreq, not_not.mp hrv⟩⟩, rfl⟩
            next hother => cases hc
            next hnone =>
              cases hc
              exact ⟨⟨hty', props, hprops, hkeys', Or.inl hnone⟩, rfl⟩
        next => cases hc
        next => cases hc

theorem makeToolSpecCore_sanitized (n : String) (sanitized : PyObj) (nd : Option String)
    (hens : ensure_json_obj sanitized = true)
    (hld : loads_dumps_obj sanitized = .ok sanitized)
    (hok : sanitized_ok sanitized) :
    makeToolSpec.makeToolSpecCore n sanitized nd =
      .ok ⟨n, .pproxy (freeze_obj sanitized), nd⟩ := by
  obtain ⟨hty, props, hprops, hkeys, hreq⟩ := hok
  unfold makeToolSpec.makeToolSpecCore
  rw [if_neg (by simp [ensure_json_compatible, hens])]
  simp only [hld]
  rw [if_neg (by simp [hty])]
  simp only [hprops]
  rw [if_neg (by simp [hkeys])]
  rcases hreq with hnone | ⟨req, hreqs, hrv⟩
  · simp only [hnone]
  · simp only [hreqs]
    rw [if_neg (by simp [hrv])]

/-- **C7, amended.**  Tool-spec construction is idempotent under freeze
once the frozen parameters are thawed back to plain JSON: for every
successfully constructed `ToolSpec` `s`, constructing a new `ToolSpec`
from `s.name`, `s.description` and `thaw_json_structure s.parameters`
succeeds and yields a spec equal to `s`.  (Passing the still-frozen
`s.parameters` directly raises `AdapterError`, because `json.dumps`
cannot serialize the nested `MappingProxyType` values — see the
counterexample.) -/
theorem c7_amended (n : String) (p : PyVal) (d : Option String) (s : ToolSpec)
    (h : makeToolSpec n p d = .ok s) :
    makeToolSpec s.name (thaw_json_structure s.parameters) s.description = .ok s := by
  unfold makeToolSpec at h
  split at h
  · cases h
  next hn =>
    have hn' : is_valid_tool_name n = true := by
      have := not_not.mp hn; simpa using this
    -- the normalized description and its fixed-point property
    revert h
    split
    · intro h; cases h
    next nd hndeq =>
      intro h
      have hnd : nd = none ∨ ∃ t, nd = some t ∧ t ≠ "" ∧ py_strip t = t := by
        cases d with
        | none =>
            simp at hndeq
            exact Or.inl hndeq.symm
        | some d' =>
            by_cases hz : py_strip d' = ""
            · simp [hz] at hndeq
            · simp [hz] at hndeq
              exact Or.inr ⟨py_strip d', hndeq.symm, hz, py_strip_idem d'⟩
      -- the parameters branch
      have main : ∀ raw : PyObj, makeToolSpec.makeToolSpecCore n raw nd = .ok s →
          makeToolSpec s.name (thaw_json_structure s.parameters) s.description = .ok s := by
        intro raw hc
        obtain ⟨hens, sanitized, hld, hok, hs⟩ := makeToolSpecCore_ok_inv n raw nd s hc
        have hplain : isPlainObj sanitized = true := loads_dumps_obj_isPlain raw sanitized hld
        have hens2 : ensure_json_obj sanitized = true := ensure_loads_dumps_obj raw sanitized hens hld
        have hld2 : loads_dumps_obj sanitized = .ok sanitized := loads_dumps_obj_plain sanitized hplain
        have hthaw : thaw_json_structure s.parameters = .pdict sanitized := by
          rw [hs]
          show thaw_json_structure (.pproxy (freeze_obj sanitized)) = _
          simp only [thaw_json_structure]
          rw [thaw_freeze_obj_plain sanitized hplain]
        have hname : s.name = n := by rw [hs]
        have hdesc : s.description = nd := by rw [hs]
        rw [hthaw, hname, hdesc]
        unfold makeToolSpec
        rw [if_neg (by simp [hn'])]
        have hdescnorm :
            (match nd with
              | none => Except.ok (none : Option String)
              | some d =>
                  if py_strip d = "" then .error "tool description cannot be empty"
                  else .ok (some (py_strip d))) = Except.ok nd := by
          rcases hnd with hnone | ⟨t, hteq, htne, htfix⟩
          · rw [hnone]
          · rw [hteq]
            simp only [htfix, if_neg htne]
        rw [hdescnorm]
        have := makeToolSpecCore_sanitized n sanitized nd hens2 hld2 hok
        simp [this, hs]
      cases p with
      | pdict raw => exact main raw h
      | pproxy raw => exact main raw h
      | pnone => exact Except.noConfusion h
      | pbool b => exact Except.noConfusion h
      | pint m => exact Except.noConfusion h
      | pstr t => exact Except.noConfusion h
      | plist xs => exact Except.noConfusion h
      | ptuple xs => exact Except.noConfusion h

/-- Witness for the amended C7 theorem at the concrete spec built from
`c7_params`. -/
theorem c7_amended_witness :
    makeToolSpec c7_spec.name (thaw_json_structure c7_spec.parameters)
      c7_spec.description = .ok c7_spec :=
  c7_amended "t" c7_params none c7_spec (by rfl)

/-- The four JSON whitespace characters skipped by `json.loads`. -/
def json_ws (c : Char) : Bool :=
  c = ' ' || c = '\t' || c = '\n' || c = '\r'

/-- Integer literal of a JSON text (sign and digits).  `json.loads` also
accepts floats; the embedding restricts numbers to integers (a fragment
whose concatenation contains a float never occurs in the verified
claims), so a trailing `.`/`e`/`E` fails the parse. -/
def parse_nat_token (cs : List Char) : Option (Nat × List Char) :=
  let ds := cs.takeWhile Char.isDigit
  let rest := cs.dropWhile Char.isDigit
  if ds.isEmpty then none
  else match rest with
    | '.' :: _ => none
    | 'e' :: _ => none
    | 'E' :: _ => none
    | _ => some (ds.foldl (fun a c => a * 10 + (c.toNat - 48)) 0, rest)

/-- Signed integer literal. -/
def parse_int_token : List Char → Option (PyVal × List Char)
  | '-' :: cs1 =>
      match parse_nat_token cs1 with
      | some (n, rest) => some (.pint (-(n : Int)), rest)
      | none => none
  | cs =>
      match parse_nat_token cs with
      | some (n, rest) => some (.pint (n : Int), rest)
      | none => none

/-- Body of a JSON string literal after the opening quote, handling the
single-character escapes (`\u` escapes do not occur in the verified
flows and fail the parse). -/
def parse_string_body : List Char → Option (List Char × List Char)
  | [] => none
  | '"' :: rest => some ([], rest)
  | '\\' :: c :: rest =>
      match (match c with
        | '"' => some '"'
        | '\\' => some '\\'
        | '/' => some '/'
        | 'n' => some '\n'
        | 't' => some '\t'
        | 'r' => some '\r'
        | 'b' => some (Char.ofNat 8)
        | 'f' => some (Char.ofNat 12)
        | _ => none) with
      | none => none
      | some esc =>
          match parse_string_body rest with
          | none => none
          | some (s, r) => some (esc :: s, r)
  | c :: rest =>
      match parse_string_body rest with
      | none => none
      | some (s, r) => some (c :: s, r)

mutual

/-- Recursive-descent JSON value parser modelling `json.loads`; the
fuel argument dominates the recursion depth. -/
def parse_value : Nat → List Char → Option (PyVal × List Char)
  | 0, _ => none
  | fuel + 1, cs =>
    match cs.dropWhile json_ws with
    | 'n' :: 'u' :: 'l' :: 'l' :: rest => some (.pnone, rest)
    | 't' :: 'r' :: 'u' :: 'e' :: rest => some (.pbool true, rest)
    | 'f' :: 'a' :: 'l' :: 's' :: 'e' :: rest => some (.pbool false, rest)
    | '"' :: rest =>
        (parse_string_body rest).bind fun sr => some (.pstr (String.mk sr.1), sr.2)
    | '[' :: rest =>
        (parse_arr_items fuel rest).bind fun ar => some (.plist ar.1, ar.2)
    | '\x7b' :: rest =>
        (parse_obj_items fuel rest).bind fun br => some (.pdict br.1, br.2)
    | other => parse_int_token other

/-- Array items after `[`: either an immediate `]` or a first value
followed by `,`-separated values. -/
def parse_arr_items : Nat → List Char → Option (PyArr × List Char)
  | 0, _ => none
  | fuel + 1, cs =>
    match cs.dropWhile json_ws with
    | ']' :: rest => some (.nil, rest)
    | other =>
        (parse_value fuel other).bind fun vr =>
          (parse_arr_more fuel vr.2).bind fun ar =>
            some (.cons vr.1 ar.1, ar.2)

/-- Continuation of an array after an item: `]` ends it, `,` expects
another item. -/
def parse_arr_more : Nat → List Char → Option (PyArr × List Char)
  | 0, _ => none
  | fuel + 1, cs =>
    match cs.dropWhile json_ws with
    | ']' :: rest => some (.nil, rest)
    | ',' :: rest =>
        (parse_value fuel rest).bind fun vr =>
          (parse_arr_more fuel vr.2).bind fun ar =>
            some (.cons vr.1 ar.1, ar.2)
    | _ => none

/-- Object entries after the opening brace: either an immediate closing
brace or a first `"key": value` entry. -/
def parse_obj_items : Nat → List Char → Option (PyObj × List Char)
  | 0, _ => none
  | fuel + 1, cs =>
    match cs.dropWhile json_ws with
    | '\x7d' :: rest => some (.nil, rest)
    | other => parse_obj_entry fuel other

/-- One `"key": value` entry followed by the continuation of the
object. -/
def parse_obj_entry : Nat → List Char → Option (PyObj × List Char)
  | 0, _ => none
  | fuel + 1, cs =>
    match cs.dropWhile json_ws with
    | '"' :: rest =>
        (parse_string_body rest).bind fun kr =>
          match kr.2.dropWhile json_ws with
          | ':' :: r2 =>
              (parse_value fuel r2).bind fun vr =>
                (parse_obj_more fuel vr.2).bind fun br =>
                  some (.cons (String.mk kr.1) vr.1 br.1, br.2)
          | _ => none
    | _ => none

/-- Continuation of an object after an entry: closing brace ends it,
`,` expects another entry. -/
def parse_obj_more : Nat → List Char → Option (PyObj × List Char)
  | 0, _ => none
  | fuel + 1, cs =>
    match cs.dropWhile json_ws with
    | '\x7d' :: rest => some (.nil, rest)
    | ',' :: rest => parse_obj_entry fuel rest
    | _ => none

end

/-- `json.loads(s)`: parse a whole JSON document; trailing garbage
fails (as strict `json.loads` does).  Returns `none` where the source
raises `json.JSONDecodeError`. -/
def json_loads (s : String) : Option PyVal :=
  match parse_value (2 * s.toList.length + 4) s.toList with
  | some (v, rest) => if (rest.dropWhile json_ws).isEmpty then some v else none
  | none => none

theorem parse_int_token_plain (cs : List Char) (v : PyVal) (r : List Char)
    (h : parse_int_token cs = some (v, r)) : isPlain v = true := by
  unfold parse_int_token at h
  split at h
  · split at h
    next n rest _ => cases h; rfl
    next => cases h
  · split at h
    next n rest _ => cases h; rfl
    next => cases h

mutual

theorem parse_value_plain :
    ∀ (fuel : Nat) (cs : List Char) (v : PyVal) (r : List Char),
      parse_value fuel cs = some (v, r) → isPlain v = true
  | 0, _, _, _, h => by cases h
  | fuel + 1, cs, v, r, h => by
      unfold parse_value at h
      split at h
      · cases h; rfl
      · cases h; rfl
      · cases h; rfl
      · simp only [Option.bind_eq_some] at h
        obtain ⟨sr, _, h⟩ := h
        cases h; rfl
      · simp only [Option.bind_eq_some] at h
        obtain ⟨ar, har, h⟩ := h
        cases h
        simpa [isPlain] using parse_arr_items_plain fuel _ ar.1 ar.2 har
      · simp only [Option.bind_eq_some] at h
        obtain ⟨br, hbr, h⟩ := h
        cases h
        simpa [isPlain] using parse_obj_items_plain fuel _ br.1 br.2 hbr
      · exact parse_int_token_plain _ v r h

theorem parse_arr_items_plain :
    ∀ (fuel : Nat) (cs : List Char) (xs : PyArr) (r : List Char),
      parse_arr_items fuel cs = some (xs, r) → isPlainArr xs = true
  | 0, _, _, _, h => by cases h
  | fuel + 1, cs, xs, r, h => by
      unfold parse_arr_items at h
      split at h
      · cases h; rfl
      · simp only [Option.bind_eq_some] at h
        obtain ⟨vr, hvr, ar, har, h⟩ := h
        cases h
        simp only [isPlainArr, Bool.and_eq_true]
        exact ⟨parse_value_plain fuel _ vr.1 vr.2 (by simpa using hvr),
          parse_arr_more_plain fuel vr.2 ar.1 ar.2 har⟩

theorem parse_arr_more_plain :
    ∀ (fuel : Nat) (cs : List Char) (xs : PyArr) (r : List Char),
      parse_arr_more fuel cs = some (xs, r) → isPlainArr xs = true
  | 0, _, _, _, h => by cases h
  | fuel + 1, cs, xs, r, h => by
      unfold parse_arr_more at h
      split at h
      · cases h; rfl
      · simp only [Option.bind_eq_some] at h
        obtain ⟨vr, hvr, ar, har, h⟩ := h
        cases h
        simp only [isPlainArr, Bool.and_eq_true]
        exact ⟨parse_value_plain fuel _ vr.1 vr.2 (by simpa using hvr),
          parse_arr_more_plain fuel vr.2 ar.1 ar.2 har⟩
      · cases h

theorem parse_obj_items_plain :
    ∀ (fuel : Nat) (cs : List Char) (xs : PyObj) (r : List Char),
      parse_obj_items fuel cs = some (xs, r) → isPlainObj xs = true
  | 0, _, _, _, h => by cases h
  | fuel + 1, cs, xs, r, h => by
      unfold parse_obj_items at h
      split at h
      · cases h; rfl
      · exact parse_obj_entry_plain fuel _ xs r h

theorem parse_obj_entry_plain :
    ∀ (fuel : Nat) (cs : List Char) (xs : PyObj) (r : List Char),
      parse_obj_entry fuel cs = some (xs, r) → isPlainObj xs = true
  | 0, _, _, _, h => by cases h
  | fuel + 1, cs, xs, r, h => by
      unfold parse_obj_entry at h
      split at h
      · simp only [Option.bind_eq_some] at h
        obtain ⟨kr, hkr, h⟩ := h
        split at h
        · simp only [Option.bind_eq_some] at h
          obtain ⟨vr, hvr, br, hbr, h⟩ := h
          cases h
          simp only [isPlainObj, Bool.and_eq_true]
          exact ⟨parse_value_plain fuel _ vr.1 vr.2 hvr,
            parse_obj_more_plain fuel vr.2 br.1 br.2 hbr⟩
        · cases h
      · cases h

theorem parse_obj_more_plain :
    ∀ (fuel : Nat) (cs : List Char) (xs : PyObj) (r : List Char),
      parse_obj_more fuel cs = some (xs, r) → isPlainObj xs = true
  | 0, _, _, _, h => by cases h
  | fuel + 1, cs, xs, r, h => by
      unfold parse_obj_more at h
      split at h
      · cases h; rfl
      · exact parse_obj_entry_plain fuel _ xs r h
      · cases h

end

theorem json_loads_plain (s : String) (v : PyVal) (h : json_loads s = some v) :
    isPlain v = true := by
  unfold json_loads at h
  split at h
  next w rest hw =>
    split at h
    · cases h
      exact parse_value_plain _ _ _ _ hw
    · cases h
  next => cases h

/-- `ToolCall` from `core/message.py`: the frozen dataclass after a
successful `__post_init__` (arguments deep-frozen). -/
structure ToolCall where
  id : String
  name : String
  arguments : PyVal
  deriving DecidableEq

/-- `ToolCall(id=..., name=..., arguments=...)`: the dataclass
constructor running `message.py`'s `__post_init__`: non-empty `id` and
`name`, `arguments` a `Mapping`; then
`plain = _thaw_json_structure(dict(arguments))`,
`_ensure_json_compatible(plain)`,
`sanitized = json.loads(json.dumps(plain, allow_nan=False))` and
`_freeze_json_structure(sanitized)`.  `Except.error` stands for the
`ValueError`/`TypeError` raised on the corresponding paths. -/
def makeToolCall (id name : String) (arguments : PyVal) : Except String ToolCall :=
  if id = "" then .error "tool call id must be a non-empty string"
  else if name = "" then .error "tool call name must be a non-empty string"
  else
    match shallow_dict arguments with
    | none => .error "tool call arguments must be a mapping"
    | some xs =>
      let plain := thaw_message (.pdict xs)
      if ¬ ensure_json_compatible plain then
        .error "ToolCall.arguments keys or values are not JSON compatible"
      else
        match loads_dumps plain with
        | .error _ => .error "ToolCall.arguments must be JSON serializable"
        | .ok sanitized => .ok ⟨id, name, freeze_nested_json sanitized⟩

/-- The `arguments` member of a provider tool-call payload as consumed
by `normalize_tool_calls`: a JSON-encoded string, an already-decoded
mapping, absent (Python `dict.get` default `"\x7b\x7d"`), or a value of
any other type (rejected). -/
inductive ArgsWire where
  | strArg (s : String) : ArgsWire
  | mapArg (xs : PyObj) : ArgsWire
  | absent : ArgsWire
  | badArg : ArgsWire
  deriving DecidableEq

/-- The `function` member of a provider tool-call payload. -/
structure WireFunction where
  name : Option String
  args : ArgsWire
  deriving DecidableEq

/-- One entry of a provider `tool_calls` payload, as a mapping with
optional `id`, `type` and `function` members (members of a type other
than the one required are rejected by the source and are not
representable). -/
structure WireToolCall where
  id : Option String
  typ : Option String
  function : Option WireFunction
  deriving DecidableEq

/-- The common tail of `_coerce_arguments` once `mapping = dict(...)`
has been formed: `_ensure_json_compatible`, the JSON round-trip with
`allow_nan=False`, the `isinstance(sanitized, dict)` check and
`_freeze_json_structure`. -/
def coerce_arguments_core (mapping : PyVal) : Except String PyVal :=
  if ¬ ensure_json_compatible mapping then
    .error "arguments keys or values are not JSON compatible"
  else
    match loads_dumps mapping with
    | .error _ => .error "arguments must contain JSON serializable data"
    | .ok sanitized =>
        match sanitized with
        | .pdict xs => .ok (.pproxy (freeze_obj xs))
        | _ => .error "arguments must decode to a JSON object"

/-- `_coerce_arguments` from `toolbridge.py`.  A `Mapping` is shallow
copied; a string is parsed with `json.loads(raw or "\x7b\x7d")` and must
decode to a mapping; anything else is rejected.  The `absent` case is
resolved by the caller (`function_mapping.get("arguments", "\x7b\x7d")`). -/
def coerce_arguments : ArgsWire → Except String PyVal
  | .mapArg xs => coerce_arguments_core (.pdict xs)
  | .strArg s =>
      match json_loads (if s = "" then "\x7b\x7d" else s) with
      | none => .error "arguments must contain valid JSON"
      | some parsed =>
          match shallow_dict parsed with
          | some xs => coerce_arguments_core (.pdict xs)
          | none => .error "arguments must decode to a JSON object"
  | .absent =>
      match json_loads "\x7b\x7d" with
      | none => .error "arguments must contain valid JSON"
      | some parsed =>
          match shallow_dict parsed with
          | some xs => coerce_arguments_core (.pdict xs)
          | none => .error "arguments must decode to a JSON object"
  | .badArg => .error "arguments must be a mapping or JSON string"

/-- `normalize_tool_calls` from `toolbridge.py`: validate each entry
(`id` non-empty, `type == "function"`, a `function` mapping with a
non-empty `name`), coerce the arguments and build the canonical
`ToolCall` objects (whose own `__post_init__` runs as well). -/
def normalize_tool_calls : List WireToolCall → Except String (List ToolCall)
  | [] => .ok []
  | e :: rest =>
    match e.id with
    | none => .error "tool call is missing a valid id"
    | some cid =>
      if cid = "" then .error "tool call is missing a valid id"
      else if e.typ ≠ some "function" then .error "tool call must have type 'function'"
      else
        match e.function with
        | none => .error "tool_calls function must be a mapping"
        | some f =>
          match f.name with
          | none => .error "tool call is missing a valid function name"
          | some nm =>
            if nm = "" then .error "tool call is missing a valid function name"
            else
              match coerce_arguments (match f.args with | .absent => .strArg "\x7b\x7d" | a => a) with
              | .error m => .error m
              | .ok argsv =>
                  match makeToolCall cid nm argsv with
                  | .error m => .error m
                  | .ok tc =>
                      match normalize_tool_calls rest with
                      | .error m => .error m
                      | .ok tcs => .ok (tc :: tcs)

/-- The provider-form record emitted by `tool_call_to_openai`:
`\x7bid, type: "function", function: \x7bname, arguments: <JSON string>\x7d\x7d`.
The emitted `arguments` JSON string is embedded by the JSON value it
denotes (`argsDen`), which is exactly what
`json.loads(json.dumps(thawed, allow_nan=False))` yields. -/
structure OpenAIToolCallWire where
  id : String
  typ : String
  fname : String
  argsDen : PyVal
  deriving DecidableEq

/-- `tool_call_to_openai` from `toolbridge.py`: thaw the arguments and
encode them with `json.dumps(..., allow_nan=False)`; the `Except.error`
is the `AdapterError` raised when the encoding fails. -/
def tool_call_to_openai (tc : ToolCall) : Except String OpenAIToolCallWire :=
  match loads_dumps (thaw_json_structure tc.arguments) with
  | .error _ => .error "tool call arguments must be JSON serializable"
  | .ok den => .ok ⟨tc.id, "function", tc.name, den⟩

theorem loads_dumps_pdict (xs : PyObj) :
    loads_dumps (.pdict xs) =
      (match loads_dumps_obj xs with
        | .ok s => .ok (.pdict s)
        | .error e => .error e) := by
  cases h : loads_dumps_obj xs <;> simp [loads_dumps, h, bind, Except.bind]

theorem coerce_core_inv (xs0 : PyObj) (argsv : PyVal)
    (h : coerce_arguments_core (.pdict xs0) = .ok argsv) :
    ∃ sxs, loads_dumps_obj xs0 = .ok sxs ∧ argsv = .pproxy (freeze_obj sxs) := by
  unfold coerce_arguments_core at h
  split at h
  · cases h
  · rw [loads_dumps_pdict] at h
    cases hl : loads_dumps_obj xs0 with
    | error e => rw [hl] at h; cases h
    | ok sxs =>
        rw [hl] at h
        cases h
        exact ⟨sxs, rfl, rfl⟩

/-- The JSON value the original `arguments` member denotes: for a
JSON-encoded string its parse (the empty string is replaced by
`"\x7b\x7d"` by the source's `raw or "\x7b\x7d"` idiom, and an absent
member defaults the same way); for an already-decoded mapping, the
value its JSON encoding denotes. -/
def wire_args_meaning : ArgsWire → Except String PyVal
  | .strArg s =>
      if s = "" then .ok (.pdict .nil)
      else
        match json_loads s with
        | some v => .ok v
        | none => .error "the original arguments string is not valid JSON"
  | .mapArg xs => loads_dumps (.pdict xs)
  | .absent => .ok (.pdict .nil)
  | .badArg => .error "the original arguments have no JSON denotation"

/-- One provider-form entry round-trips through the canonical
`ToolCall`: converting back yields the same `id`, type `"function"`,
the same function name, and an `arguments` string denoting the same
JSON object as the original arguments. -/
def wire_roundtrips (e : WireToolCall) (tc : ToolCall) : Prop :=
  ∃ w, tool_call_to_openai tc = .ok w ∧
    e.id = some w.id ∧ w.typ = "function" ∧
    ∃ f, e.function = some f ∧ f.name = some w.fname ∧
      wire_args_meaning f.args = .ok w.argsDen

theorem makeToolCall_frozen (cid nm : String) (sxs : PyObj) (tc : ToolCall)
    (hplain : isPlainObj sxs = true)
    (hmk : makeToolCall cid nm (.pproxy (freeze_obj sxs)) = .ok tc) :
    tc = ⟨cid, nm, .pproxy (freeze_obj sxs)⟩ := by
  have hthaw : thaw_message (.pdict (freeze_obj sxs)) = .pdict sxs := by
    simp only [thaw_message]
    rw [thaw_message_freeze_obj_plain sxs hplain]
  have hld : loads_dumps (.pdict sxs) = .ok (.pdict sxs) := by
    rw [loads_dumps_pdict, loads_dumps_obj_plain sxs hplain]
  unfold makeToolCall at hmk
  simp only [shallow_dict, hthaw, hld] at hmk
  split at hmk
  · cases hmk
  · split at hmk
    · cases hmk
    · split at hmk
      · cases hmk
      · cases hmk
        simp [freeze_nested_json]

theorem normalize_one_roundtrip (e : WireToolCall) (cid nm : String) (f : WireFunction)
    (argsv : PyVal) (tc : ToolCall)
    (hid : e.id = some cid) (hf : e.function = some f) (hnm : f.name = some nm)
    (hco : coerce_arguments
      (match f.args with | .absent => .strArg "\x7b\x7d" | a => a) = .ok argsv)
    (hmk : makeToolCall cid nm argsv = .ok tc) :
    wire_roundtrips e tc := by
  -- in every accepted case the coerced arguments are a frozen image of a
  -- plain sanitized object `sxs`, and the original arguments denote `pdict sxs`
  have main : ∀ sxs : PyObj, isPlainObj sxs = true →
      argsv = .pproxy (freeze_obj sxs) →
      wire_args_meaning f.args = .ok (.pdict sxs) →
      wire_roundtrips e tc := by
    intro sxs hplain hargs hden
    subst hargs
    have htc := makeToolCall_frozen cid nm sxs tc hplain hmk
    have hthaw : thaw_json_structure (.pproxy (freeze_obj sxs)) = .pdict sxs := by
      simp only [thaw_json_structure]
      rw [thaw_freeze_obj_plain sxs hplain]
    have hout : tool_call_to_openai tc = .ok ⟨cid, "function", nm, .pdict sxs⟩ := by
      rw [htc]
      unfold tool_call_to_openai
      simp only [hthaw]
      rw [loads_dumps_pdict, loads_dumps_obj_plain sxs hplain]
    exact ⟨_, hout, hid, rfl, f, hf, hnm, hden⟩
  cases harg : f.args with
  | mapArg xs0 =>
      rw [harg] at hco
      obtain ⟨sxs, hld0, hargs⟩ := coerce_core_inv xs0 argsv hco
      refine main sxs (loads_dumps_obj_isPlain xs0 sxs hld0) hargs ?_
      rw [harg]
      show loads_dumps (.pdict xs0) = _
      rw [loads_dumps_pdict, hld0]
  | strArg s =>
      rw [harg] at hco
      have hco' : coerce_arguments (.strArg s) = .ok argsv := hco
      by_cases hs : s = ""
      · subst hs
        have hval : coerce_arguments (.strArg "") = .ok (.pproxy .nil) := by rfl
        rw [hval] at hco'
        have hargs : argsv = .pproxy (freeze_obj .nil) := (Except.ok.inj hco').symm
        refine main .nil rfl hargs ?_
        rw [harg]
        rfl
      · simp only [coerce_arguments] at hco'
        rw [if_neg hs] at hco'
        cases hjl : json_loads s with
        | none => rw [hjl] at hco'; cases hco'
        | some parsed =>
          rw [hjl] at hco'
          have hplainp : isPlain parsed = true := json_loads_plain s parsed hjl
          cases parsed with
          | pdict xs0 =>
            simp only [shallow_dict] at hco'
            obtain ⟨sxs, hld0, hargs⟩ := coerce_core_inv xs0 argsv hco'
            have hplain0 : isPlainObj xs0 = true := by simpa [isPlain] using hplainp
            have hsxs : sxs = xs0 := by
              have := loads_dumps_obj_plain xs0 hplain0
              rw [this] at hld0
              exact (Except.ok.inj hld0).symm
            subst hsxs
            refine main sxs hplain0 hargs ?_
            rw [harg]
            simp only [wire_args_meaning]
            rw [if_neg hs, hjl]
          | pproxy xs0 => simp [isPlain] at hplainp
          | pnone => simp [shallow_dict] at hco'
          | pbool b => simp [shallow_dict] at hco'
          | pint n => simp [shallow_dict] at hco'
          | pstr t => simp [shallow_dict] at hco'
          | plist xs => simp [shallow_dict] at hco'
          | ptuple xs => simp [shallow_dict] at hco'
  | absent =>
      rw [harg] at hco
      have hco' : coerce_arguments (.strArg "\x7b\x7d") = .ok argsv := hco
      have hval : coerce_arguments (.strArg "\x7b\x7d") = .ok (.pproxy .nil) := by rfl
      rw [hval] at hco'
      have hargs : argsv = .pproxy (freeze_obj .nil) := (Except.ok.inj hco').symm
      refine main .nil rfl hargs ?_
      rw [harg]
      rfl
  | badArg =>
      rw [harg] at hco
      have hco' : (Except.error "arguments must be a mapping or JSON string" :
        Except String PyVal) = .ok argsv := hco
      cases hco'

/-- **C9.**  For every provider-form tool-call payload accepted by
`normalize_tool_calls`, converting the canonical `ToolCall`s back with
`tool_call_to_openai` yields JSON-equivalent output entrywise: the same
`id`, type `"function"`, the same function name, and an `arguments`
JSON string denoting the same JSON object as the original arguments —
whether the original was a JSON-encoded string or an already-decoded
mapping. -/
theorem c9_roundtrip (es : List WireToolCall) (tcs : List ToolCall)
    (h : normalize_tool_calls es = .ok tcs) : List.Forall₂ wire_roundtrips es tcs := by
  induction es generalizing tcs with
  | nil => cases h; exact List.Forall₂.nil
  | cons e rest ih =>
      unfold normalize_tool_calls at h
      cases hid : e.id with
      | none => simp only [hid] at h; cases h
      | some cid =>
        simp only [hid] at h
        by_cases hcid : cid = ""
        · simp only [if_pos hcid] at h; cases h
        simp only [if_neg hcid] at h
        by_cases htyp : e.typ = some "function"
        case neg =>
          simp only [if_pos (show (e.typ ≠ some "function") by simpa using htyp)] at h; cases h
        simp only [if_neg (show ¬ (e.typ ≠ some "function") by simpa using htyp)] at h
        cases hf : e.function with
        | none => simp only [hf] at h; cases h
        | some f =>
          simp only [hf] at h
          cases hnm : f.name with
          | none => simp only [hnm] at h; cases h
          | some nm =>
            simp only [hnm] at h
            by_cases hnm0 : nm = ""
            · simp only [if_pos hnm0] at h; cases h
            simp only [if_neg hnm0] at h
            cases hco : coerce_arguments
                (match f.args with | .absent => .strArg "\x7b\x7d" | a => a) with
            | error m => simp only [hco] at h; cases h
            | ok argsv =>
              simp only [hco] at h
              cases hmk : makeToolCall cid nm argsv with
              | error m => simp only [hmk] at h; cases h
              | ok tc0 =>
                simp only [hmk] at h
                cases hrest : normalize_tool_calls rest with
                | error m => simp only [hrest] at h; cases h
                | ok tcs0 =>
                  simp only [hrest] at h
                  cases h
                  exact List.Forall₂.cons
                    (normalize_one_roundtrip e cid nm f argsv tc0 hid hf hnm hco hmk)
                    (ih tcs0 hrest)

/-- C9, witness payload: one provider-form entry whose arguments arrive
as a JSON-encoded string. -/
def c9_entry : WireToolCall :=
  ⟨some "call_abc", some "function",
    some ⟨some "get_weather", .strArg "\x7b\"a\": 1\x7d"⟩⟩

/-- Witness for C9 at `c9_entry`. -/
theorem c9_roundtrip_witness :
    List.Forall₂ wire_roundtrips [c9_entry]
      [⟨"call_abc", "get_weather", .pproxy (.cons "a" (.pint 1) .nil)⟩] :=
  c9_roundtrip [c9_entry] [⟨"call_abc", "get_weather", .pproxy (.cons "a" (.pint 1) .nil)⟩]
    (by rfl)

/-- Canonical streaming events from `adapters/base.py`.  Every event
carries `seq_id` (the value of the injected `monotonic_seq()` counter)
and `ts`; `ts` is embedded as the index `k` of the injected
`stable_ts()` counter — the wall-clock value is
`TS_ORIGIN + k · TS_STEP` with `TS_STEP = 1ms > 0`, so comparisons of
timestamps coincide with comparisons of these indices.  The `usage`
member of a `FinalEvent` is `\x7b"total_tokens": n\x7d` or `None`,
embedded as `Option Int`. -/
inductive Event where
  | token (seq_id : Nat) (ts : Nat) (content : String) (index : Nat) : Event
  | toolCall (seq_id : Nat) (ts : Nat) (call_id : String) (name : String)
      (args : PyVal) : Event
  | toolResult (seq_id : Nat) (ts : Nat) (call_id : String) (output : String) : Event
  | final (seq_id : Nat) (ts : Nat) (output : String) (finish_reason : Option String)
      (usage : Option Int) : Event
  deriving DecidableEq

/-- The `seq_id` member of an event. -/
def Event.seq : Event → Nat
  | .token s _ _ _ => s
  | .toolCall s _ _ _ _ => s
  | .toolResult s _ _ _ => s
  | .final s _ _ _ _ => s

/-- The `ts` member of an event (as the `stable_ts` index). -/
def Event.tsv : Event → Nat
  | .token _ t _ _ => t
  | .toolCall _ t _ _ _ => t
  | .toolResult _ t _ _ => t
  | .final _ t _ _ _ => t

/-- Position of an event's variant in the per-chunk emission order:
ToolResult, then Tokens, then ToolCalls, then Final. -/
def Event.rank : Event → Nat
  | .toolResult _ _ _ _ => 0
  | .token _ _ _ _ => 1
  | .toolCall _ _ _ _ _ => 2
  | .final _ _ _ _ _ => 3

/-- `isinstance(event, FinalEvent)`. -/
def Event.isFinal : Event → Bool
  | .final _ _ _ _ _ => true
  | _ => false

/-- `isinstance(event, ToolCallEvent)` with the given `call_id`. -/
def Event.isToolCallFor (v : String) : Event → Bool
  | .toolCall _ _ cid _ _ => cid = v
  | _ => false

/-- `_ToolCallState` from `adapters/openai_adapter.py`: the per-index
accumulator for a streaming tool call. -/
structure ToolCallState where
  call_id : Option String
  name : Option String
  fragments : List String
  deriving DecidableEq

/-- The fresh accumulator `_ToolCallState()`. -/
def ToolCallState.fresh : ToolCallState := ⟨none, none, []⟩

/-- First-match lookup in the `_tool_states` mapping (Python dict keys
are unique under the operations used here). -/
def lookupTS (l : List (Int × ToolCallState)) (i : Int) : Option ToolCallState :=
  (l.find? (fun p => p.1 = i)).map (·.2)

/-- Remove the entry under key `i` (`dict.pop(i, None)`). -/
def eraseTS (l : List (Int × ToolCallState)) (i : Int) : List (Int × ToolCallState) :=
  l.filter (fun p => ¬ p.1 = i)

/-- Store `v` under key `i` (both `dict.setdefault` writes and in-place
mutation of the stored accumulator object). -/
def putTS (l : List (Int × ToolCallState)) (i : Int) (v : ToolCallState) :
    List (Int × ToolCallState) :=
  eraseTS l i ++ [(i, v)]

/-- The mutable per-stream state of `_OpenAINormalizer`.  `seqCounter`
and `tsCounter` are the next values of the injected `monotonic_seq()`
and `stable_ts()` closures (each is invoked exactly once per
constructed event). -/
structure NormState where
  seqCounter : Nat
  tsCounter : Nat
  token_index : Nat
  text_fragments : List String
  tool_states : List (Int × ToolCallState)
  final_emitted : Bool
  last_total_tokens : Option Int
  last_tool_result_output : Option String
  deriving DecidableEq

/-- The state of a freshly constructed `_OpenAINormalizer` (both
injected counters start at zero). -/
def NormState.start : NormState := ⟨0, 0, 0, [], [], false, none, none⟩

/-- Draw one `seq_id` and one `ts` (one call to each injected
counter). -/
def NormState.tick (st : NormState) : Nat × Nat × NormState :=
  (st.seqCounter, st.tsCounter,
    {st with seqCounter := st.seqCounter + 1, tsCounter := st.tsCounter + 1})

/-- `function` member of a tool-call delta entry. -/
structure ToolDeltaFunction where
  name : Option String
  arguments : Option String
  deriving DecidableEq

/-- One entry of `choices[0].delta.tool_calls` (members of a type other
than the required one are rejected by the source and not
representable; the `index` member is `none` when absent, standing for
the non-integer-index rejection). -/
structure ToolDelta where
  index : Option Int
  id : Option String
  typ : Option String
  function : Option ToolDeltaFunction
  deriving DecidableEq

/-- `choices[0].delta`. -/
structure Delta where
  content : Option String
  tool_calls : Option (List ToolDelta)
  deriving DecidableEq

/-- One element of `choices`. -/
structure Choice where
  delta : Option Delta
  finish_reason : Option String
  deriving DecidableEq

/-- The out-of-band `tool_result` payload. -/
structure ToolResultPayload where
  id : Option String
  output : Option String
  deriving DecidableEq

/-- The `usage` payload. -/
structure UsagePayload where
  total_tokens : Option Int
  deriving DecidableEq

/-- One provider chunk, already coerced to a mapping. -/
structure Chunk where
  choices : Option (List Choice)
  usage : Option UsagePayload
  tool_result : Option ToolResultPayload
  deriving DecidableEq

/-- `_ToolCallState.build_arguments`: join the fragments, parse the
concatenation as JSON (empty concatenation yields `\x7b\x7d`), and
require a JSON object.  The returned mapping is the plain `dict` that
`json.loads` produced. -/
def build_arguments (fragments : List String) : Except String PyVal :=
  let raw := String.join fragments
  if raw = "" then .ok (.pdict .nil)
  else
    match json_loads raw with
    | none => .error "tool call returned invalid JSON arguments"
    | some parsed =>
        if parsed.isDict then .ok parsed
        else .error "tool call arguments must decode to an object"

/-- `_ToolCallState.update_from_payload`: validate and record the
entry's `id`, `type` and `function.name`.  Returns the accumulator as
mutated so far together with the error raised, if any (the mutations
made before a raise persist, because the accumulator object is already
stored in `_tool_states`). -/
def update_from_payload (st0 : ToolCallState) (e : ToolDelta) :
    ToolCallState × Option String :=
  match e.id with
  | some cid =>
      if cid = "" then (st0, some "tool call is missing a valid id")
      else update_typ {st0 with call_id := some cid} e
  | none => update_typ st0 e
where
  /-- The `type` validation step. -/
  update_typ (st1 : ToolCallState) (e : ToolDelta) : ToolCallState × Option String :=
    match e.typ with
    | some t =>
        if t = "function" then update_name st1 e
        else (st1, some "tool call must have type 'function'")
    | none => update_name st1 e
  /-- The `function.name` validation step. -/
  update_name (st1 : ToolCallState) (e : ToolDelta) : ToolCallState × Option String :=
    match e.function with
    | some f =>
        match f.name with
        | some n =>
            if n = "" then (st1, some "tool call is missing a valid function name")
            else ({st1 with name := some n}, none)
        | none => (st1, none)
    | none => (st1, none)

/-- The `finish_reason == "tool_calls"` tail of one iteration of
`_normalize_tool_calls`: require a known id and name, parse the
reassembled arguments, emit the canonical ToolCall event and remove the
accumulator. -/
def finish_tool_call (st : NormState) (i : Int) (cur : ToolCallState)
    (finish_reason : Option String) : NormState × Except String (List Event) :=
  if finish_reason = some "tool_calls" then
    match cur.call_id with
    | none => (st, .error "tool call is missing an id before emitting arguments")
    | some cid =>
      match cur.name with
      | none => (st, .error "tool call is missing a function name before emitting arguments")
      | some nm =>
        match build_arguments cur.fragments with
        | .error m => (st, .error m)
        | .ok args =>
            match st.tick with
            | (sq, tz, st') =>
                ({st' with tool_states := eraseTS st'.tool_states i},
                  .ok [.toolCall sq tz cid nm args])
  else (st, .ok [])

/-- One iteration of the `for index, item in enumerate(payload)` loop of
`_OpenAINormalizer._normalize_tool_calls`: upsert the accumulator for
the entry's provider index, validate the entry, append any argument
fragment, and on `finish_reason == "tool_calls"` emit the ToolCall. -/
def normalize_tool_call_entry (st : NormState) (e : ToolDelta)
    (finish_reason : Option String) : NormState × Except String (List Event) :=
  match e.index with
  | none => (st, .error "tool call delta missing integer index")
  | some i =>
    let cur0 := (lookupTS st.tool_states i).getD ToolCallState.fresh
    match update_from_payload cur0 e with
    | (cur1, uerr) =>
      let st1 := {st with tool_states := putTS st.tool_states i cur1}
      match uerr with
      | some m => (st1, .error m)
      | none =>
        match (match e.function with
          | some f => f.arguments
          | none => none) with
        | some frag =>
            if frag = "" then finish_tool_call st1 i cur1 finish_reason
            else
              let cur2 := {cur1 with fragments := cur1.fragments ++ [frag]}
              let st2 := {st1 with tool_states := putTS st1.tool_states i cur2}
              finish_tool_call st2 i cur2 finish_reason
        | none => finish_tool_call st1 i cur1 finish_reason

/-- `_OpenAINormalizer._normalize_tool_calls`: the loop over the
entries of a `delta.tool_calls` payload. -/
def normalizer_tool_calls (st : NormState) (es : List ToolDelta)
    (finish_reason : Option String) : NormState × Except String (List Event) :=
  match es with
  | [] => (st, .ok [])
  | e :: rest =>
      match normalize_tool_call_entry st e finish_reason with
      | (st1, .error m) => (st1, .error m)
      | (st1, .ok evs1) =>
          match normalizer_tool_calls st1 rest finish_reason with
          | (st2, .error m) => (st2, .error m)
          | (st2, .ok evs2) => (st2, .ok (evs1 ++ evs2))

/-- `_OpenAINormalizer._normalize_delta`: one Token for a non-empty
content fragment (assigning `token_index`, recording the text fragment
and clearing `last_tool_result_output`), followed by the tool-call
entries. -/
def normalize_delta (st : NormState) (delta : Delta) (finish_reason : Option String) :
    NormState × Except String (List Event) :=
  let stEvs :=
    match delta.content with
    | some f =>
        if f = "" then (st, ([] : List Event))
        else
          match st.tick with
          | (sq, tz, st') =>
              ({st' with
                  token_index := st'.token_index + 1
                  text_fragments := st'.text_fragments ++ [f]
                  last_tool_result_output := none},
                [Event.token sq tz f st.token_index])
    | none => (st, [])
  match stEvs with
  | (st1, evs1) =>
    match delta.tool_calls with
    | some entries =>
        match normalizer_tool_calls st1 entries finish_reason with
        | (st2, .error m) => (st2, .error m)
        | (st2, .ok evs2) => (st2, .ok (evs1 ++ evs2))
    | none => (st1, .ok evs1)

/-- `_OpenAINormalizer._normalize_tool_result`. -/
def normalize_tool_result (st : NormState) (p : ToolResultPayload) :
    NormState × Except String Event :=
  match p.id with
  | none => (st, .error "tool_result.id must be a non-empty string")
  | some cid =>
      if cid = "" then (st, .error "tool_result.id must be a non-empty string")
      else
        match p.output with
        | none => (st, .error "tool_result.output must be a string")
        | some o =>
            match ({st with last_tool_result_output := some o} : NormState).tick with
            | (sq, tz, st') => (st', .ok (.toolResult sq tz cid o))

/-- `_OpenAINormalizer._extract_total_tokens`. -/
def extract_total_tokens (c : Chunk) : Except String (Option Int) :=
  match c.usage with
  | none => .ok none
  | some u =>
      match u.total_tokens with
      | none => .ok none
      | some t =>
          if t < 0 then .error "usage.total_tokens cannot be negative"
          else .ok (some t)

/-- `_OpenAINormalizer._render_final_output`. -/
def render_final_output (st : NormState) : String :=
  if st.text_fragments ≠ [] then String.join st.text_fragments
  else
    match st.last_tool_result_output with
    | some o => o
    | none => ""

/-- `_OpenAINormalizer._maybe_build_final_event`: record usage, and on a
terminal finish reason synthesize the single Final event. -/
def maybe_build_final_event (st : NormState) (c : Chunk) (finish_reason : Option String) :
    NormState × Except String (Option Event) :=
  if st.final_emitted then (st, .ok none)
  else
    match extract_total_tokens c with
    | .error m => (st, .error m)
    | .ok tt =>
      let st1 := match tt with
        | some t => {st with last_total_tokens := some t}
        | none => st
      if finish_reason = some "stop" ∨ finish_reason = some "length" ∨
          finish_reason = some "content_filter" then
        match st1.tick with
        | (sq, tz, st') =>
            ({st' with final_emitted := true},
              .ok (some (.final sq tz (render_final_output st1) finish_reason
                st1.last_total_tokens)))
      else (st1, .ok none)

/-- `_OpenAINormalizer._extract_choice`: absent `choices` contribute no
choice, an empty `choices` sequence is rejected, otherwise the first
choice is used. -/
def extract_choice (c : Chunk) : Except String (Option Choice) :=
  match c.choices with
  | none => .ok none
  | some [] => .error "OpenAI stream chunk choices cannot be empty"
  | some (ch :: _) => .ok (some ch)

/-- `_OpenAINormalizer.normalize_chunk`: ToolResult (if any), then the
delta's Tokens and ToolCalls, clearing the text fragments on
`finish_reason == "tool_calls"`, then the Final event (if any).  The
state is returned also on error (the Python object keeps the mutations
made before the raise); the events collected before a raise are
discarded, exactly as the raised exception discards the local `events`
list. -/
def normalize_chunk (st : NormState) (c : Chunk) : NormState × Except String (List Event) :=
  let stTr : NormState × Except String (List Event) :=
    match c.tool_result with
    | some p =>
        match normalize_tool_result st p with
        | (st', .error m) => (st', .error m)
        | (st', .ok ev) => (st', .ok [ev])
    | none => (st, .ok [])
  match stTr with
  | (st1, .error m) => (st1, .error m)
  | (st1, .ok evs0) =>
    match extract_choice c with
    | .error m => (st1, .error m)
    | .ok none => (st1, .ok evs0)
    | .ok (some choice) =>
      let finish := choice.finish_reason
      let delta := choice.delta.getD ⟨none, none⟩
      match normalize_delta st1 delta finish with
      | (st2, .error m) => (st2, .error m)
      | (st2, .ok evs1) =>
        let st3 := if finish = some "tool_calls" then
            {st2 with text_fragments := []} else st2
        match maybe_build_final_event st3 c finish with
        | (st4, .error m) => (st4, .error m)
        | (st4, .ok none) => (st4, .ok (evs0 ++ evs1))
        | (st4, .ok (some fe)) => (st4, .ok (evs0 ++ evs1 ++ [fe]))

/-- The events a persistent consumer receives across a whole stream of
chunks: the normalizer state survives a failed chunk (the raised
exception discards only that chunk's events), so later chunks continue
from the mutated state. -/
def run_normalizer : NormState → List Chunk → NormState × List Event
  | st, [] => (st, [])
  | st, c :: rest =>
      match normalize_chunk st c with
      | (st', .error _) => run_normalizer st' rest
      | (st', .ok evs) =>
          match run_normalizer st' rest with
          | (st'', evs') => (st'', evs ++ evs')

/-- `true` when every chunk of the stream normalizes without raising. -/
def run_clean : NormState → List Chunk → Bool
  | _, [] => true
  | st, c :: rest =>
      match normalize_chunk st c with
      | (_, .error _) => false
      | (st', .ok _) => run_clean st' rest

/-- The events of one batch carry consecutive `seq_id`s from `b` and
consecutive `ts` indices from `t`. -/
def seq_run (b t : Nat) (evs : List Event) : Prop :=
  ∀ idx, (h : idx < evs.length) →
    (evs.get ⟨idx, h⟩).seq = b + idx ∧ (evs.get ⟨idx, h⟩).tsv = t + idx

theorem seq_run_nil (b t : Nat) : seq_run b t [] := by
  intro idx h
  cases h

theorem seq_run_single (b t : Nat) (e : Event) (hs : e.seq = b) (ht : e.tsv = t) :
    seq_run b t [e] := by
  intro idx h
  cases idx with
  | zero => simpa using ⟨hs, ht⟩
  | succ n => simp at h

theorem seq_run_append (b t : Nat) (evs1 evs2 : List Event)
    (h1 : seq_run b t evs1)
    (h2 : seq_run (b + evs1.length) (t + evs1.length) evs2) :
    seq_run b t (evs1 ++ evs2) := by
  intro idx h
  rw [List.get_eq_getElem]
  by_cases hlt : idx < evs1.length
  · have := h1 idx hlt
    rw [List.get_eq_getElem] at this
    rw [List.getElem_append_left hlt]
    exact this
  · have hlen : idx < evs1.length + evs2.length := by
      simpa [List.length_append] using h
    have hlt2 : idx - evs1.length < evs2.length := by omega
    have := h2 (idx - evs1.length) hlt2
    rw [List.get_eq_getElem] at this
    rw [List.getElem_append_right (Nat.le_of_not_lt hlt)]
    obtain ⟨ha, hb⟩ := this
    constructor
    · rw [ha]; omega
    · rw [hb]; omega

/-- The counter discipline of one normalizer step: both injected
counters advance by the same amount, and when the step returns events
they carry exactly the counter values drawn, in order. -/
def CtrStep (st st' : NormState) (r : Except String (List Event)) : Prop :=
  ∃ k, st'.seqCounter = st.seqCounter + k ∧ st'.tsCounter = st.tsCounter + k ∧
    ∀ evs, r = .ok evs → evs.length = k ∧ seq_run st.seqCounter st.tsCounter evs

theorem ctrStep_error (st st' : NormState) (m : String) (k : Nat)
    (hs : st'.seqCounter = st.seqCounter + k)
    (ht : st'.tsCounter = st.tsCounter + k) :
    CtrStep st st' (.error m) :=
  ⟨k, hs, ht, fun _ h => by cases h⟩

theorem ctrStep_pure (st : NormState) : CtrStep st st (.ok []) :=
  ⟨0, rfl, rfl, fun evs h => by cases h; exact ⟨rfl, seq_run_nil _ _⟩⟩

theorem ctrStep_comp (st st1 st2 : NormState) (evs1 : List Event)
    (r : Except String (List Event))
    (hA : CtrStep st st1 (.ok evs1)) (hB : CtrStep st1 st2 r) :
    CtrStep st st2
      (match r with
        | .ok evs2 => .ok (evs1 ++ evs2)
        | .error m => .error m) := by
  obtain ⟨k1, hs1, ht1, hev1⟩ := hA
  obtain ⟨k2, hs2, ht2, hev2⟩ := hB
  obtain ⟨hlen1, hrun1⟩ := hev1 evs1 rfl
  cases r with
  | error m =>
      exact ctrStep_error st st2 m (k1 + k2) (by omega) (by omega)
  | ok evs2 =>
      obtain ⟨hlen2, hrun2⟩ := hev2 evs2 rfl
      refine ⟨k1 + k2, by omega, by omega, ?_⟩
      intro evs h
      cases h
      constructor
      · simp [List.length_append]; omega
      · refine seq_run_append _ _ _ _ hrun1 ?_
        rw [hlen1]
        rw [hs1, ht1] at hrun2
        exact hrun2

theorem ctr_finish_tool_call (st : NormState) (i : Int) (cur : ToolCallState)
    (fin : Option String) (st' : NormState) (r : Except String (List Event))
    (h : finish_tool_call st i cur fin = (st', r)) : CtrStep st st' r := by
  unfold finish_tool_call at h
  split at h
  · split at h
    · cases h; exact ctrStep_error _ _ _ 0 rfl rfl
    · split at h
      · cases h; exact ctrStep_error _ _ _ 0 rfl rfl
      · split at h
        · cases h; exact ctrStep_error _ _ _ 0 rfl rfl
        · cases h
          refine ⟨1, rfl, rfl, ?_⟩
          intro evs h
          cases h
          exact ⟨rfl, seq_run_single _ _ _ rfl rfl⟩
  · cases h; exact ctrStep_pure st

theorem ctr_entry (st : NormState) (e : ToolDelta) (fin : Option String)
    (st' : NormState) (r : Except String (List Event))
    (h : normalize_tool_call_entry st e fin = (st', r)) : CtrStep st st' r := by
  unfold normalize_tool_call_entry at h
  split at h
  · cases h; exact ctrStep_error _ _ _ 0 rfl rfl
  next i hidx =>
    cases hu2 : (update_from_payload ((lookupTS st.tool_states i).getD ToolCallState.fresh) e).2 with
    | some m =>
        simp only [hu2] at h
        cases h
        exact ctrStep_error _ _ _ 0 rfl rfl
    | none =>
        simp only [hu2] at h
        split at h
        next frag _ =>
          split at h
          · have hx := ctr_finish_tool_call _ i _ fin st' r h
            exact hx
          · have hx := ctr_finish_tool_call _ i _ fin st' r h
            exact hx
        next =>
          have hx := ctr_finish_tool_call _ i _ fin st' r h
          exact hx

theorem ctr_calls (es : List ToolDelta) :
    ∀ (st : NormState) (fin : Option String) (st' : NormState)
      (r : Except String (List Event)),
      normalizer_tool_calls st es fin = (st', r) → CtrStep st st' r := by
  induction es with
  | nil => intro st fin st' r h; cases h; exact ctrStep_pure st
  | cons e rest ih =>
      intro st fin st' r h
      unfold normalizer_tool_calls at h
      split at h
      · rename_i x st1 m hfirst
        cases h
        obtain ⟨k, hs, ht, _⟩ := ctr_entry st e fin _ _ hfirst
        exact ctrStep_error _ _ _ k hs ht
      · rename_i x st1 evs1 hfirst
        split at h
        · rename_i x2 st2 m hrest
          cases h
          have := ctrStep_comp st st1 _ evs1 (.error _)
            (ctr_entry st e fin _ _ hfirst) (ih st1 fin _ _ hrest)
          simpa using this
        · rename_i x2 st2 evs2 hrest
          cases h
          have := ctrStep_comp st st1 _ evs1 (.ok _)
            (ctr_entry st e fin _ _ hfirst) (ih st1 fin _ _ hrest)
          simpa using this

theorem ctr_delta (st : NormState) (delta : Delta) (fin : Option String)
    (st' : NormState) (r : Except String (List Event))
    (h : normalize_delta st delta fin = (st', r)) : CtrStep st st' r := by
  unfold normalize_delta at h
  have tail : ∀ (st1 : NormState) (evs1 : List Event),
      CtrStep st st1 (.ok evs1) →
      (match delta.tool_calls with
        | some entries =>
            match normalizer_tool_calls st1 entries fin with
            | (st2, .error m) => (st2, .error m)
            | (st2, .ok evs2) => (st2, .ok (evs1 ++ evs2))
        | none => (st1, .ok evs1)) = (st', r) →
      CtrStep st st' r := by
    intro st1 evs1 hA h
    cases htc : delta.tool_calls with
    | none =>
        simp only [htc] at h
        cases h
        exact hA
    | some entries =>
        simp only [htc] at h
        split at h
        · rename_i x st2 m hcalls
          cases h
          have := ctrStep_comp st st1 _ evs1 (.error _) hA (ctr_calls entries st1 fin _ _ hcalls)
          simpa using this
        · rename_i x st2 evs2 hcalls
          cases h
          have := ctrStep_comp st st1 _ evs1 (.ok _) hA (ctr_calls entries st1 fin _ _ hcalls)
          simpa using this
  cases hc : delta.content with
  | none =>
      simp only [hc] at h
      exact tail st [] (ctrStep_pure st) h
  | some f =>
      simp only [hc] at h
      by_cases hf : f = ""
      · rw [if_pos hf] at h
        exact tail st [] (ctrStep_pure st) h
      · rw [if_neg hf] at h
        refine tail _ [.token st.seqCounter st.tsCounter f st.token_index] ?_ h
        refine ⟨1, rfl, rfl, ?_⟩
        intro evs hevs
        cases hevs
        exact ⟨rfl, seq_run_single _ _ _ rfl rfl⟩

theorem ctr_tool_result (st : NormState) (p : ToolResultPayload)
    (st' : NormState) (re : Except String Event)
    (h : normalize_tool_result st p = (st', re)) :
    CtrStep st st'
      (match re with
        | .error m => .error m
        | .ok ev => .ok [ev]) := by
  unfold normalize_tool_result at h
  split at h
  · cases h; exact ctrStep_error _ _ _ 0 rfl rfl
  · split at h
    · cases h; exact ctrStep_error _ _ _ 0 rfl rfl
    · split at h
      · cases h; exact ctrStep_error _ _ _ 0 rfl rfl
      · cases h
        refine ⟨1, rfl, rfl, ?_⟩
        intro evs hevs
        cases hevs
        exact ⟨rfl, seq_run_single _ _ _ rfl rfl⟩

theorem ctr_final (st : NormState) (c : Chunk) (fin : Option String)
    (st' : NormState) (ro : Except String (Option Event))
    (h : maybe_build_final_event st c fin = (st', ro)) :
    CtrStep st st'
      (match ro with
        | .error m => .error m
        | .ok none => .ok []
        | .ok (some fe) => .ok [fe]) := by
  unfold maybe_build_final_event at h
  split at h
  · cases h; exact ctrStep_pure st
  · split at h
    · cases h; exact ctrStep_error _ _ _ 0 rfl rfl
    next tt hext =>
      cases htt : tt with
      | some t =>
          subst htt
          by_cases hfin : fin = some "stop" ∨ fin = some "length" ∨ fin = some "content_filter"
          · rw [if_pos hfin] at h
            cases h
            refine ⟨1, rfl, rfl, ?_⟩
            intro evs hevs
            cases hevs
            exact ⟨rfl, seq_run_single _ _ _ rfl rfl⟩
          · rw [if_neg hfin] at h
            cases h
            exact ctrStep_pure _
      | none =>
          subst htt
          by_cases hfin : fin = some "stop" ∨ fin = some "length" ∨ fin = some "content_filter"
          · rw [if_pos hfin] at h
            cases h
            refine ⟨1, rfl, rfl, ?_⟩
            intro evs hevs
            cases hevs
            exact ⟨rfl, seq_run_single _ _ _ rfl rfl⟩
          · rw [if_neg hfin] at h
            cases h
            exact ctrStep_pure _

theorem ctrStep_congr_base (st0 st1 st2 : NormState) (r : Except String (List Event))
    (hs : st1.seqCounter = st0.seqCounter) (ht : st1.tsCounter = st0.tsCounter)
    (h : CtrStep st1 st2 r) : CtrStep st0 st2 r := by
  obtain ⟨k, hks, hkt, hev⟩ := h
  exact ⟨k, by rw [hks, hs], by rw [hkt, ht], by
    intro evs hevs
    obtain ⟨hlen, hrun⟩ := hev evs hevs
    rw [hs, ht] at hrun
    exact ⟨hlen, hrun⟩⟩

theorem ctr_chunk (st : NormState) (c : Chunk) (st' : NormState)
    (r : Except String (List Event)) (h : normalize_chunk st c = (st', r)) :
    CtrStep st st' r := by
  unfold normalize_chunk at h
  have tail : ∀ (st1 : NormState) (evs0 : List Event), CtrStep st st1 (.ok evs0) →
      (match extract_choice c with
        | .error m => (st1, .error m)
        | .ok none => (st1, .ok evs0)
        | .ok (some choice) =>
            match normalize_delta st1 (choice.delta.getD ⟨none, none⟩)
                choice.finish_reason with
            | (st2, .error m) => (st2, .error m)
            | (st2, .ok evs1) =>
                match maybe_build_final_event
                    (if choice.finish_reason = some "tool_calls" then
                      {st2 with text_fragments := []} else st2) c
                    choice.finish_reason with
                | (st4, .error m) => (st4, .error m)
                | (st4, .ok none) => (st4, .ok (evs0 ++ evs1))
                | (st4, .ok (some fe)) => (st4, .ok (evs0 ++ evs1 ++ [fe]))) = (st', r) →
      CtrStep st st' r := by
    intro st1 evs0 hA h
    cases hex : extract_choice c with
    | error m =>
        simp only [hex] at h
        cases h
        obtain ⟨k, hs, ht, _⟩ := hA
        exact ctrStep_error _ _ _ k hs ht
    | ok oc =>
      cases oc with
      | none =>
          simp only [hex] at h
          cases h
          exact hA
      | some choice =>
          simp only [hex] at h
          split at h
          · rename_i x st2 m hdelta
            cases h
            have := ctrStep_comp st st1 _ evs0 (.error _) hA
              (ctr_delta st1 _ _ _ _ hdelta)
            simpa using this
          · rename_i x st2 evs1 hdelta
            have hB := ctr_delta st1 _ _ _ _ hdelta
            have hbase :
                (if choice.finish_reason = some "tool_calls" then
                  ({st2 with text_fragments := []} : NormState) else st2).seqCounter =
                  st2.seqCounter ∧
                (if choice.finish_reason = some "tool_calls" then
                  ({st2 with text_fragments := []} : NormState) else st2).tsCounter =
                  st2.tsCounter := by
              constructor <;> (split <;> rfl)
            split at h
            · rename_i x2 st4 m hfin
              cases h
              have hC := ctrStep_congr_base st2 _ _ _ hbase.1 hbase.2
                (by simpa using ctr_final _ c choice.finish_reason _ _ hfin)
              have := ctrStep_comp st st1 _ evs0 (.error _) hA
                (by simpa using ctrStep_comp st1 st2 _ evs1 (.error _) hB hC)
              simpa using this
            · rename_i x2 st4 hfin
              cases h
              have hC := ctrStep_congr_base st2 _ _ _ hbase.1 hbase.2
                (by simpa using ctr_final _ c choice.finish_reason _ _ hfin)
              have := ctrStep_comp st st1 _ evs0 (.ok _) hA
                (by simpa using ctrStep_comp st1 st2 _ evs1 (.ok []) hB hC)
              simpa using this
            · rename_i x2 st4 fe hfin
              cases h
              have hC := ctrStep_congr_base st2 _ _ _ hbase.1 hbase.2
                (by simpa using ctr_final _ c choice.finish_reason _ _ hfin)
              have := ctrStep_comp st st1 _ evs0 (.ok _) hA
                (by simpa using ctrStep_comp st1 st2 _ evs1 (.ok [fe]) hB hC)
              simpa using this
  cases htr : c.tool_result with
  | none =>
      simp only [htr] at h
      exact tail st [] (ctrStep_pure st) h
  | some p =>
      simp only [htr] at h
      split at h
      · rename_i x st1 m heq
        cases h
        split at heq
        · rename_i x2 st0 m0 hres
          cases heq
          have := ctr_tool_result st p _ _ hres
          obtain ⟨k, hs, ht, _⟩ := this
          exact ctrStep_error _ _ _ k hs ht
        · rename_i x2 st0 ev hres
          cases heq
      · rename_i x st1 evs0 heq
        refine tail st1 evs0 ?_ h
        split at heq
        · rename_i x2 st0 m0 hres
          cases heq
        · rename_i x2 st0 ev hres
          cases heq
          have := ctr_tool_result st p _ _ hres
          simpa using this

theorem seq_run_chain (b t : Nat) (evs : List Event) (h : seq_run b t evs) :
    List.Chain' (fun a b => a.seq < b.seq) evs := by
  rw [List.chain'_iff_get]
  intro i hi
  have h1 := h i (by omega)
  have h2 := h (i + 1) (by omega)
  rw [(h1).1, (h2).1]
  omega

theorem seq_run_bounds (b t : Nat) (evs : List Event) (h : seq_run b t evs)
    (e : Event) (he : e ∈ evs) :
    b ≤ e.seq ∧ e.seq < b + evs.length ∧ e.tsv = e.seq + t - b := by
  obtain ⟨i, hi, rfl⟩ := List.mem_iff_get.mp he
  obtain ⟨h1, h2⟩ := h i.1 i.2
  rw [h1, h2]
  have := i.2
  omega

theorem run_normalizer_spec (chunks : List Chunk) :
    ∀ (st st' : NormState) (evs : List Event),
      run_normalizer st chunks = (st', evs) → st.seqCounter = st.tsCounter →
      st'.seqCounter = st'.tsCounter ∧ st.seqCounter ≤ st'.seqCounter ∧
      (∀ e ∈ evs, e.tsv = e.seq ∧ st.seqCounter ≤ e.seq ∧ e.seq < st'.seqCounter) ∧
      List.Chain' (fun a b => a.seq < b.seq) evs := by
  induction chunks with
  | nil =>
      intro st st' evs h hst
      cases h
      refine ⟨hst, Nat.le_refl _, ?_, List.chain'_nil⟩
      intro e he
      cases he
  | cons c rest ih =>
      intro st st' evs h hst
      unfold run_normalizer at h
      split at h
      · rename_i x st1 m hchunk
        obtain ⟨k, hks, hkt, _⟩ := ctr_chunk st c st1 (.error m) hchunk
        have hst1 : st1.seqCounter = st1.tsCounter := by omega
        obtain ⟨ha, hb, hc, hd⟩ := ih st1 st' evs h hst1
        refine ⟨ha, by omega, ?_, hd⟩
        intro e he
        obtain ⟨h1, h2, h3⟩ := hc e he
        exact ⟨h1, by omega, h3⟩
      · rename_i x st1 evs1 hchunk
        obtain ⟨st2, evs2, hrest, heq⟩ :
            ∃ st2 evs2, run_normalizer st1 rest = (st2, evs2) ∧
              (st', evs) = (st2, evs1 ++ evs2) := by
          rcases hr : run_normalizer st1 rest with ⟨st2, evs2⟩
          rw [hr] at h
          exact ⟨st2, evs2, rfl, h.symm⟩
        cases heq
        obtain ⟨k, hks, hkt, hev⟩ := ctr_chunk st c st1 (.ok evs1) hchunk
        obtain ⟨hlen, hrun⟩ := hev evs1 rfl
        have hst1 : st1.seqCounter = st1.tsCounter := by omega
        obtain ⟨ha, hb, hc, hd⟩ := ih st1 st' evs2 hrest hst1
        refine ⟨ha, by omega, ?_, ?_⟩
        · intro e he
          rcases List.mem_append.mp he with he1 | he2
          · obtain ⟨b1, b2, b3⟩ := seq_run_bounds _ _ _ hrun e he1
            refine ⟨by omega, by omega, by omega⟩
          · obtain ⟨h1, h2, h3⟩ := hc e he2
            exact ⟨h1, by omega, by omega⟩
        · rw [List.chain'_append]
          refine ⟨seq_run_chain _ _ _ hrun, hd, ?_⟩
          intro a hlast bb hhead
          have ha1 : a ∈ evs1 := List.mem_of_mem_getLast? hlast
          have hb1 : bb ∈ evs2 := List.mem_of_mem_head? hhead
          obtain ⟨b1, b2, b3⟩ := seq_run_bounds _ _ _ hrun a ha1
          obtain ⟨h1, h2, h3⟩ := hc bb hb1
          omega

theorem run_normalizer_clean_spec (chunks : List Chunk) :
    ∀ (st st' : NormState) (evs : List Event),
      run_normalizer st chunks = (st', evs) → run_clean st chunks = true →
      seq_run st.seqCounter st.tsCounter evs ∧
      st'.seqCounter = st.seqCounter + evs.length ∧
      st'.tsCounter = st.tsCounter + evs.length := by
  induction chunks with
  | nil =>
      intro st st' evs h _
      cases h
      exact ⟨seq_run_nil _ _, rfl, rfl⟩
  | cons c rest ih =>
      intro st st' evs h hcl
      unfold run_normalizer at h
      unfold run_clean at hcl
      split at h
      · rename_i x st1 m hchunk
        simp only [hchunk] at hcl
        cases hcl
      · rename_i x st1 evs1 hchunk
        simp only [hchunk] at hcl
        obtain ⟨st2, evs2, hrest, heq⟩ :
            ∃ st2 evs2, run_normalizer st1 rest = (st2, evs2) ∧
              (st', evs) = (st2, evs1 ++ evs2) := by
          rcases hr : run_normalizer st1 rest with ⟨st2, evs2⟩
          rw [hr] at h
          exact ⟨st2, evs2, rfl, h.symm⟩
        cases heq
        obtain ⟨k, hks, hkt, hev⟩ := ctr_chunk st c st1 (.ok evs1) hchunk
        obtain ⟨hlen, hrun⟩ := hev evs1 rfl
        obtain ⟨ihrun, ihs, iht⟩ := ih st1 st' evs2 hrest hcl
        refine ⟨?_, ?_, ?_⟩
        · refine seq_run_append _ _ _ _ hrun ?_
          rw [hlen]
          rw [← hks, ← hkt]
          exact ihrun
        · rw [List.length_append]; omega
        · rw [List.length_append]; omega

/-- C1, counterexample stream: a token chunk, then a chunk whose delta
carries a token *and* a malformed tool-call entry (no integer
`index`), then another token chunk. -/
def c1_chunks : List Chunk :=
  [⟨some [⟨some ⟨some "x", none⟩, none⟩], none, none⟩,
   ⟨some [⟨some ⟨some "m", some [⟨none, none, none, none⟩]⟩, none⟩], none, none⟩,
   ⟨some [⟨some ⟨some "y", none⟩, none⟩], none, none⟩]

/-- **C1, counterexample.**  The claim says every stream's events have
`e_i.seq_id = i - 1` (dense sequence ids in emission order).  The
injected counters also tick for events that a mid-chunk
`AdapterStreamError` then discards, and the normalizer object survives
the raise, so a consumer that keeps pulling past the error receives a
gap: on `c1_chunks` the delivered events are `seq_id` 0 and 2, not 0
and 1. -/
theorem c1_counterexample :
    (run_normalizer NormState.start c1_chunks).2.map Event.seq = [0, 2] ∧
    ¬ ((run_normalizer NormState.start c1_chunks).2.map Event.seq =
        List.range (run_normalizer NormState.start c1_chunks).2.length) := by
  refine ⟨rfl, ?_⟩
  intro hcontra
  rw [show (run_normalizer NormState.start c1_chunks).2.map Event.seq = [0, 2] from rfl]
    at hcontra
  rw [show List.range (run_normalizer NormState.start c1_chunks).2.length = [0, 1]
    from rfl] at hcontra
  simp at hcontra

/-- **C1, amended.**  Every canonical event carries a `seq_id` and a
`ts`; along any stream — even one a consumer keeps pulling after a
mid-chunk normalization error — both are strictly increasing in
emission order (so `ts` is strictly increasing from event to event);
and when every chunk normalizes without raising, the sequence ids are
dense: the i-th delivered event has `seq_id = i - 1` (counting from 1),
and its `ts` index equals it. -/
theorem c1_amended (chunks : List Chunk) (st' : NormState) (evs : List Event)
    (h : run_normalizer NormState.start chunks = (st', evs)) :
    List.Chain' (fun a b => a.seq < b.seq ∧ a.tsv < b.tsv) evs ∧
    (run_clean NormState.start chunks = true →
      ∀ idx, (hi : idx < evs.length) →
        (evs.get ⟨idx, hi⟩).seq = idx ∧ (evs.get ⟨idx, hi⟩).tsv = idx) := by
  obtain ⟨ha, hb, hc, hd⟩ := run_normalizer_spec chunks NormState.start st' evs h rfl
  constructor
  · rw [List.chain'_iff_get] at hd ⊢
    intro i hi
    have h1 := hd i hi
    have hm1 : evs.get ⟨i, by omega⟩ ∈ evs := evs.get_mem _ _
    have hm2 : evs.get ⟨i + 1, by omega⟩ ∈ evs := evs.get_mem _ _
    obtain ⟨ht1, _, _⟩ := hc _ hm1
    obtain ⟨ht2, _, _⟩ := hc _ hm2
    exact ⟨h1, by omega⟩
  · intro hclean idx hi
    obtain ⟨hrun, _, _⟩ := run_normalizer_clean_spec chunks _ st' evs h hclean
    have := hrun idx hi
    simpa [NormState.start] using this

/-- Witness for the amended C1 theorem: the token-only stream of the
spec's first concrete scenario. -/
theorem c1_amended_witness :
    List.Chain' (fun a b => a.seq < b.seq ∧ a.tsv < b.tsv)
      ([.token 0 0 "Hello" 0, .token 1 1 ", world" 1,
        .final 2 2 "Hello, world" (some "stop") (some 4)] : List Event) ∧
    (run_clean NormState.start
        [⟨some [⟨some ⟨some "Hello", none⟩, none⟩], none, none⟩,
         ⟨some [⟨some ⟨some ", world", none⟩, none⟩], none, none⟩,
         ⟨some [⟨some ⟨none, none⟩, some "stop"⟩], some ⟨some 4⟩, none⟩] = true →
      ∀ idx, (hi : idx < ([.token 0 0 "Hello" 0, .token 1 1 ", world" 1,
          .final 2 2 "Hello, world" (some "stop") (some 4)] : List Event).length) →
        (([.token 0 0 "Hello" 0, .token 1 1 ", world" 1,
          .final 2 2 "Hello, world" (some "stop") (some 4)] : List Event).get
            ⟨idx, hi⟩).seq = idx ∧
        (([.token 0 0 "Hello" 0, .token 1 1 ", world" 1,
          .final 2 2 "Hello, world" (some "stop") (some 4)] : List Event).get
            ⟨idx, hi⟩).tsv = idx) :=
  c1_amended
    [⟨some [⟨some ⟨some "Hello", none⟩, none⟩], none, none⟩,
     ⟨some [⟨some ⟨some ", world", none⟩, none⟩], none, none⟩,
     ⟨some [⟨some ⟨none, none⟩, some "stop"⟩], some ⟨some 4⟩, none⟩]
    ⟨3, 3, 2, ["Hello", ", world"], [], true, some 4, none⟩
    [.token 0 0 "Hello" 0, .token 1 1 ", world" 1,
      .final 2 2 "Hello, world" (some "stop") (some 4)]
    (by rfl)

theorem finish_tool_call_rank (st : NormState) (i : Int) (cur : ToolCallState)
    (fin : Option String) (st' : NormState) (evs : List Event)
    (h : finish_tool_call st i cur fin = (st', .ok evs)) :
    ∀ e ∈ evs, e.rank = 2 := by
  unfold finish_tool_call at h
  split at h
  · split at h
    · cases h
    · split at h
      · cases h
      · split at h
        · cases h
        · cases h
          intro e he
          simp at he
          subst he
          rfl
  · cases h
    intro e he
    cases he

theorem entry_rank (st : NormState) (e : ToolDelta) (fin : Option String)
    (st' : NormState) (evs : List Event)
    (h : normalize_tool_call_entry st e fin = (st', .ok evs)) :
    ∀ ev ∈ evs, ev.rank = 2 := by
  unfold normalize_tool_call_entry at h
  split at h
  · cases h
  next i hidx =>
    cases hu2 : (update_from_payload ((lookupTS st.tool_states i).getD ToolCallState.fresh) e).2 with
    | some m =>
        simp only [hu2] at h
        cases h
    | none =>
        simp only [hu2] at h
        split at h
        next frag _ =>
          split at h
          · exact finish_tool_call_rank _ i _ fin st' evs h
          · exact finish_tool_call_rank _ i _ fin st' evs h
        next => exact finish_tool_call_rank _ i _ fin st' evs h

theorem calls_rank (es : List ToolDelta) :
    ∀ (st : NormState) (fin : Option String) (st' : NormState) (evs : List Event),
      normalizer_tool_calls st es fin = (st', .ok evs) → ∀ ev ∈ evs, ev.rank = 2 := by
  induction es with
  | nil =>
      intro st fin st' evs h
      cases h
      intro ev hev
      cases hev
  | cons e rest ih =>
      intro st fin st' evs h
      unfold normalizer_tool_calls at h
      split at h
      · cases h
      · rename_i x st1 evs1 hfirst
        split at h
        · cases h
        · rename_i x2 st2 evs2 hrest
          cases h
          intro ev hev
          rcases List.mem_append.mp hev with h1 | h2
          · exact entry_rank st e fin st1 evs1 hfirst ev h1
          · exact ih st1 fin _ _ hrest ev h2

theorem delta_shape (st : NormState) (delta : Delta) (fin : Option String)
    (st' : NormState) (evs : List Event)
    (h : normalize_delta st delta fin = (st', .ok evs)) :
    ∃ toks calls, evs = toks ++ calls ∧
      (∀ e ∈ toks, e.rank = 1) ∧ (∀ e ∈ calls, e.rank = 2) := by
  unfold normalize_delta at h
  have tail : ∀ (st1 : NormState) (evs1 : List Event), (∀ e ∈ evs1, e.rank = 1) →
      (match delta.tool_calls with
        | some entries =>
            match normalizer_tool_calls st1 entries fin with
            | (st2, Except.error m) => (st2, Except.error m)
            | (st2, Except.ok evs2) => (st2, Except.ok (evs1 ++ evs2))
        | none => (st1, Except.ok evs1)) = (st', Except.ok evs) →
      ∃ toks calls, evs = toks ++ calls ∧
        (∀ e ∈ toks, e.rank = 1) ∧ (∀ e ∈ calls, e.rank = 2) := by
    intro st1 evs1 h1 h
    cases htc : delta.tool_calls with
    | none =>
        simp only [htc] at h
        cases h
        exact ⟨evs, [], by simp, h1, by intro e he; cases he⟩
    | some entries =>
        simp only [htc] at h
        split at h
        · cases h
        · rename_i x st2 evs2 hcalls
          cases h
          exact ⟨evs1, evs2, rfl, h1, calls_rank entries st1 fin _ _ hcalls⟩
  cases hc : delta.content with
  | none =>
      simp only [hc] at h
      exact tail st [] (by intro e he; cases he) h
  | some f =>
      simp only [hc] at h
      by_cases hf : f = ""
      · rw [if_pos hf] at h
        exact tail st [] (by intro e he; cases he) h
      · rw [if_neg hf] at h
        refine tail _ [.token st.seqCounter st.tsCounter f st.token_index] ?_ h
        intro e he
        simp at he
        subst he
        rfl

theorem final_event_rank (st : NormState) (c : Chunk) (fin : Option String)
    (st' : NormState) (fe : Event)
    (h : maybe_build_final_event st c fin = (st', .ok (some fe))) : fe.rank = 3 := by
  unfold maybe_build_final_event at h
  split at h
  · cases h
  · split at h
    · cases h
    next tt hext =>
      cases htt : tt with
      | some t =>
          subst htt
          by_cases hfincond : fin = some "stop" ∨ fin = some "length" ∨
              fin = some "content_filter"
          · rw [if_pos hfincond] at h
            cases h
            rfl
          · rw [if_neg hfincond] at h
            cases h
      | none =>
          subst htt
          by_cases hfincond : fin = some "stop" ∨ fin = some "length" ∨
              fin = some "content_filter"
          · rw [if_pos hfincond] at h
            cases h
            rfl
          · rw [if_neg hfincond] at h
            cases h

theorem chunk_shape (st : NormState) (c : Chunk) (st' : NormState) (evs : List Event)
    (h : normalize_chunk st c = (st', .ok evs)) :
    ∃ tr toks calls fin, evs = tr ++ (toks ++ calls) ++ fin ∧
      (∀ e ∈ tr, e.rank = 0) ∧ tr.length ≤ 1 ∧
      (∀ e ∈ toks, e.rank = 1) ∧ (∀ e ∈ calls, e.rank = 2) ∧
      (∀ e ∈ fin, e.rank = 3) ∧ fin.length ≤ 1 := by
  unfold normalize_chunk at h
  have tail : ∀ (st1 : NormState) (evs0 : List Event),
      (∀ e ∈ evs0, e.rank = 0) → evs0.length ≤ 1 →
      (match extract_choice c with
        | Except.error m => (st1, Except.error m)
        | Except.ok none => (st1, Except.ok evs0)
        | Except.ok (some choice) =>
            match normalize_delta st1 (choice.delta.getD ⟨none, none⟩)
                choice.finish_reason with
            | (st2, Except.error m) => (st2, Except.error m)
            | (st2, Except.ok evs1) =>
                match maybe_build_final_event
                    (if choice.finish_reason = some "tool_calls" then
                      {st2 with text_fragments := []} else st2) c
                    choice.finish_reason with
                | (st4, Except.error m) => (st4, Except.error m)
                | (st4, Except.ok none) => (st4, Except.ok (evs0 ++ evs1))
                | (st4, Except.ok (some fe)) =>
                    (st4, Except.ok (evs0 ++ evs1 ++ [fe]))) = (st', Except.ok evs) →
      ∃ tr toks calls fin, evs = tr ++ (toks ++ calls) ++ fin ∧
        (∀ e ∈ tr, e.rank = 0) ∧ tr.length ≤ 1 ∧
        (∀ e ∈ toks, e.rank = 1) ∧ (∀ e ∈ calls, e.rank = 2) ∧
        (∀ e ∈ fin, e.rank = 3) ∧ fin.length ≤ 1 := by
    intro st1 evs0 h0 h0len h
    cases hex : extract_choice c with
    | error m =>
        simp only [hex] at h
        cases h
    | ok oc =>
      cases oc with
      | none =>
          simp only [hex] at h
          cases h
          refine ⟨evs, [], [], [], by simp, h0, h0len, ?_, ?_, ?_, by simp⟩
          · intro e he
            cases he
          · intro e he
            cases he
          · intro e he
            cases he
      | some choice =>
          simp only [hex] at h
          split at h
          · cases h
          · rename_i x st2 evs1 hdelta
            obtain ⟨toks, calls, hsplit, htoks, hcalls⟩ :=
              delta_shape st1 _ _ _ _ hdelta
            split at h
            · cases h
            · rename_i x2 st4 hfin
              cases h
              refine ⟨evs0, toks, calls, [], by simp [hsplit], h0, h0len, htoks, hcalls,
                ?_, by simp⟩
              intro e he
              cases he
            · rename_i x2 st4 fe hfin
              cases h
              refine ⟨evs0, toks, calls, [fe], by simp [hsplit], h0, h0len, htoks, hcalls,
                ?_, by simp⟩
              intro e he
              simp at he
              subst he
              exact final_event_rank _ c choice.finish_reason _ _ hfin
  cases htr : c.tool_result with
  | none =>
      simp only [htr] at h
      exact tail st [] (by intro e he; cases he) (by simp) h
  | some p =>
      simp only [htr] at h
      split at h
      · cases h
      · rename_i x st1 evs0 heq
        refine tail st1 evs0 ?_ ?_ h
        · intro e he
          split at heq
          · cases heq
          · rename_i x2 st0 ev hres
            cases heq
            simp at he
            subst he
            unfold normalize_tool_result at hres
            split at hres
            · cases hres
            · split at hres
              · cases hres
              · split at hres
                · cases hres
                · cases hres
                  rfl
        · split at heq
          · cases heq
          · cases heq
            simp

theorem pairwise_rank_const (k : Nat) (l : List Event) (h : ∀ e ∈ l, Event.rank e = k) :
    l.Pairwise (fun a b => a.rank ≤ b.rank) := by
  induction l with
  | nil => exact List.Pairwise.nil
  | cons a t ih =>
      refine List.Pairwise.cons ?_ (ih (fun e he => h e (List.mem_cons_of_mem a he)))
      intro b hb
      rw [h a (List.mem_cons_self a t), h b (List.mem_cons_of_mem a hb)]

theorem pairwise_rank_append (l1 l2 : List Event)
    (h1 : l1.Pairwise (fun a b => a.rank ≤ b.rank))
    (h2 : l2.Pairwise (fun a b => a.rank ≤ b.rank))
    (hcross : ∀ a ∈ l1, ∀ b ∈ l2, Event.rank a ≤ Event.rank b) :
    (l1 ++ l2).Pairwise (fun a b => a.rank ≤ b.rank) :=
  List.pairwise_append.mpr ⟨h1, h2, hcross⟩

theorem isFinal_iff_rank (e : Event) : e.isFinal = true ↔ e.rank = 3 := by
  cases e <;> simp [Event.isFinal, Event.rank]

theorem isToolResult_rank (e : Event) : e.rank = 0 ↔ (∃ s t cid o, e = .toolResult s t cid o) := by
  cases e <;> simp [Event.rank]

/-- **C4.**  For every provider chunk the normalizer accepts, the
returned event list follows the per-chunk emission order — ToolResult
(if the chunk carries one) first, then the Token events from
`delta.content`, then the ToolCall events from `delta.tool_calls`, then
the Final event (if a terminal finish reason triggers one) last: the
variant ranks (ToolResult 0, Token 1, ToolCall 2, Final 3) are
non-decreasing along the list, and the chunk contributes at most one
ToolResult and at most one Final. -/
theorem c4_chunk_order (st : NormState) (c : Chunk) (st' : NormState) (evs : List Event)
    (h : normalize_chunk st c = (st', .ok evs)) :
    evs.Pairwise (fun a b => a.rank ≤ b.rank) ∧
    (evs.filter (fun e => e.rank = 0)).length ≤ 1 ∧
    (evs.filter Event.isFinal).length ≤ 1 := by
  obtain ⟨tr, toks, calls, fin, hsplit, htr, htrlen, htoks, hcalls, hfin, hfinlen⟩ :=
    chunk_shape st c st' evs h
  subst hsplit
  refine ⟨?_, ?_, ?_⟩
  · refine pairwise_rank_append _ _ ?_ ?_ ?_
    · refine pairwise_rank_append _ _ (pairwise_rank_const 0 tr htr) ?_ ?_
      · refine pairwise_rank_append _ _ (pairwise_rank_const 1 toks htoks)
          (pairwise_rank_const 2 calls hcalls) ?_
        intro a ha b hb
        rw [htoks a ha, hcalls b hb]
        omega
      · intro a ha b hb
        rw [htr a ha]
        rcases List.mem_append.mp hb with h1 | h2
        · rw [htoks b h1]; omega
        · rw [hcalls b h2]; omega
    · exact pairwise_rank_const 3 fin hfin
    · intro a ha b hb
      rw [hfin b hb]
      rcases List.mem_append.mp ha with h1 | h2
      · rw [htr a h1]; omega
      · rcases List.mem_append.mp h2 with h3 | h4
        · rw [htoks a h3]; omega
        · rw [hcalls a h4]; omega
  · rw [List.filter_append, List.filter_append, List.filter_append]
    have e1 : (toks.filter (fun e => Event.rank e = 0)) = [] := by
      rw [List.filter_eq_nil_iff]
      intro a ha
      simp [htoks a ha]
    have e2 : (calls.filter (fun e => Event.rank e = 0)) = [] := by
      rw [List.filter_eq_nil_iff]
      intro a ha
      simp [hcalls a ha]
    have e3 : (fin.filter (fun e => Event.rank e = 0)) = [] := by
      rw [List.filter_eq_nil_iff]
      intro a ha
      simp [hfin a ha]
    rw [e1, e2, e3]
    simp only [List.append_nil, List.length_append, List.length_nil]
    have := List.length_filter_le (fun e => Event.rank e = 0) tr
    omega
  · rw [List.filter_append, List.filter_append, List.filter_append]
    have e1 : (tr.filter Event.isFinal) = [] := by
      rw [List.filter_eq_nil_iff]
      intro a ha
      simp [isFinal_iff_rank, htr a ha]
    have e2 : (toks.filter Event.isFinal) = [] := by
      rw [List.filter_eq_nil_iff]
      intro a ha
      simp [isFinal_iff_rank, htoks a ha]
    have e3 : (calls.filter Event.isFinal) = [] := by
      rw [List.filter_eq_nil_iff]
      intro a ha
      simp [isFinal_iff_rank, hcalls a ha]
    rw [e1, e2, e3]
    simp only [List.nil_append, List.length_append, List.length_nil]
    have := List.length_filter_le Event.isFinal fin
    omega

/-- Witness for C4 at a chunk carrying a tool result, a content
fragment and a terminal finish reason at once. -/
theorem c4_chunk_order_witness :
    ([.toolResult 0 0 "t1" "out", .token 1 1 "hi" 0,
        .final 2 2 "hi" (some "stop") none] : List Event).Pairwise
      (fun a b => a.rank ≤ b.rank) ∧
    (([.toolResult 0 0 "t1" "out", .token 1 1 "hi" 0,
        .final 2 2 "hi" (some "stop") none] : List Event).filter
      (fun e => e.rank = 0)).length ≤ 1 ∧
    (([.toolResult 0 0 "t1" "out", .token 1 1 "hi" 0,
        .final 2 2 "hi" (some "stop") none] : List Event).filter
      Event.isFinal).length ≤ 1 :=
  c4_chunk_order NormState.start
    ⟨some [⟨some ⟨some "hi", none⟩, some "stop"⟩], none,
      some ⟨some "t1", some "out"⟩⟩
    ⟨3, 3, 1, ["hi"], [], true, none, none⟩
    [.toolResult 0 0 "t1" "out", .token 1 1 "hi" 0,
      .final 2 2 "hi" (some "stop") none]
    (by rfl)

/-- **C6.**  A provider chunk whose `choices` member is present but an
empty sequence is rejected: `normalize_chunk` raises an
`AdapterStreamError` (modelled as `Except.error`) instead of treating
the chunk as contributing no events. -/
theorem c6_empty_choices (st : NormState) (c : Chunk) (h : c.choices = some []) :
    ∃ m, (normalize_chunk st c).2 = .error m := by
  have hex : extract_choice c = .error "OpenAI stream chunk choices cannot be empty" := by
    unfold extract_choice
    rw [h]
  unfold normalize_chunk
  cases htr : c.tool_result with
  | none =>
      simp only [htr, hex]
      exact ⟨_, rfl⟩
  | some p =>
      simp only [htr]
      rcases hres : normalize_tool_result st p with ⟨st1, r1⟩
      cases r1 with
      | error m =>
          simp only [hres]
          exact ⟨m, rfl⟩
      | ok ev =>
          simp only [hres, hex]
          exact ⟨_, rfl⟩

/-- Witness for C6 at the literal chunk `\x7b"choices": []\x7d`. -/
theorem c6_empty_choices_witness :
    ∃ m, (normalize_chunk NormState.start ⟨some [], none, none⟩).2 = .error m :=
  c6_empty_choices NormState.start ⟨some [], none, none⟩ (by rfl)

/-- Number of ToolCall events with `call_id = v` in a batch. -/
def tc_count (evs : List Event) (v : String) : Nat :=
  (evs.filter (Event.isToolCallFor v)).length

/-- ToolCall events with `call_id = v` delivered by one step (an error
discards the step's events). -/
def delivered_tc (r : Except String (List Event)) (v : String) : Nat :=
  match r with
  | .ok evs => tc_count evs v
  | .error _ => 0

/-- Contribution of one accumulator to the live count for `v`. -/
def tcs_contrib (s : ToolCallState) (v : String) : Nat :=
  if s.call_id = some v then 1 else 0

/-- Number of live accumulators announcing `call_id = v`. -/
def live_count (l : List (Int × ToolCallState)) (v : String) : Nat :=
  (l.filter (fun p => p.2.call_id = some v)).length

/-- The `_tool_states` keys are unique (always true of a Python dict). -/
def keys_nodup (l : List (Int × ToolCallState)) : Prop :=
  (l.map Prod.fst).Nodup

theorem keys_nodup_nil : keys_nodup [] := List.nodup_nil

theorem keys_nodup_eraseTS (l : List (Int × ToolCallState)) (i : Int)
    (h : keys_nodup l) : keys_nodup (eraseTS l i) := by
  unfold keys_nodup at h ⊢
  unfold eraseTS
  exact ((List.Sublist.map Prod.fst (List.filter_sublist l)).nodup h)

theorem not_mem_keys_eraseTS (l : List (Int × ToolCallState)) (i : Int) :
    i ∉ (eraseTS l i).map Prod.fst := by
  intro hmem
  obtain ⟨p, hp, hfst⟩ := List.mem_map.mp hmem
  have := List.of_mem_filter hp
  simp at this
  exact this hfst

theorem keys_nodup_putTS (l : List (Int × ToolCallState)) (i : Int) (s : ToolCallState)
    (h : keys_nodup l) : keys_nodup (putTS l i s) := by
  unfold keys_nodup putTS
  rw [List.map_append]
  rw [List.nodup_append]
  refine ⟨keys_nodup_eraseTS l i h, by simp, ?_⟩
  intro a ha hb
  simp at hb
  subst hb
  exact not_mem_keys_eraseTS _ _ ha

theorem lookup_putTS_self (l : List (Int × ToolCallState)) (i : Int) (s : ToolCallState) :
    lookupTS (putTS l i s) i = some s := by
  unfold lookupTS putTS
  rw [List.find?_append]
  have hnone : (eraseTS l i).find? (fun p => p.1 = i) = none := by
    rw [List.find?_eq_none]
    intro p hp
    have := List.of_mem_filter hp
    simpa using this
  rw [hnone]
  simp

theorem eraseTS_putTS (l : List (Int × ToolCallState)) (i : Int) (s : ToolCallState) :
    eraseTS (putTS l i s) i = eraseTS l i := by
  unfold eraseTS putTS
  rw [List.filter_append]
  have h1 : List.filter (fun p => ¬ p.1 = i) [(i, s)] = [] := by simp
  rw [show eraseTS l i = List.filter (fun p => decide ¬ p.1 = i) l from rfl]
  rw [List.filter_filter]
  simp

theorem live_count_putTS (l : List (Int × ToolCallState)) (i : Int) (s : ToolCallState)
    (v : String) :
    live_count (putTS l i s) v = live_count (eraseTS l i) v + tcs_contrib s v := by
  unfold live_count putTS tcs_contrib
  rw [List.filter_append, List.length_append]
  by_cases hid : s.call_id = some v
  · simp [hid]
  · simp [hid]

theorem live_count_erase_lookup (l : List (Int × ToolCallState)) (i : Int) (v : String)
    (hnd : keys_nodup l) :
    live_count l v =
      live_count (eraseTS l i) v +
        (match lookupTS l i with
          | some s => tcs_contrib s v
          | none => 0) := by
  induction l with
  | nil => rfl
  | cons p t ih =>
      obtain ⟨j, s⟩ := p
      have hnd' : keys_nodup t := by
        unfold keys_nodup at hnd ⊢
        simpa using (List.nodup_cons.mp (by simpa using hnd)).2
      by_cases hj : j = i
      · subst hj
        have hkey : j ∉ t.map Prod.fst := by
          unfold keys_nodup at hnd
          exact (List.nodup_cons.mp (by simpa using hnd)).1
        have herase : eraseTS ((j, s) :: t) j = t := by
          unfold eraseTS
          rw [List.filter_cons]
          rw [if_neg (by simp)]
          rw [List.filter_eq_self]
          intro p hp
          simp only [decide_eq_true_eq]
          intro hcontra
          exact hkey (hcontra ▸ List.mem_map_of_mem Prod.fst hp)
        have hlook : lookupTS ((j, s) :: t) j = some s := by
          unfold lookupTS
          rw [List.find?_cons]
          simp
        rw [herase, hlook]
        unfold live_count tcs_contrib
        rw [List.filter_cons]
        by_cases hid : s.call_id = some v
        · rw [if_pos (by simpa using hid), List.length_cons]
          simp [hid]
        · rw [if_neg (by simpa using hid)]
          simp [hid]
      · have herase : eraseTS ((j, s) :: t) i = (j, s) :: eraseTS t i := by
          unfold eraseTS
          rw [List.filter_cons]
          simp [hj]
        have hlook : lookupTS ((j, s) :: t) i = lookupTS t i := by
          unfold lookupTS
          rw [List.find?_cons]
          simp [hj]
        rw [herase, hlook]
        have ihx := ih hnd'
        unfold live_count at ihx ⊢
        rw [List.filter_cons, List.filter_cons]
        by_cases hid : s.call_id = some v
        · rw [if_pos (by simpa using hid), if_pos (by simpa using hid)]
          simp only [List.length_cons]
          omega
        · rw [if_neg (by simpa using hid), if_neg (by simpa using hid)]
          omega

theorem update_name_call_id (st1 : ToolCallState) (e : ToolDelta) :
    (update_from_payload.update_name st1 e).1.call_id = st1.call_id := by
  unfold update_from_payload.update_name
  split
  next f =>
    split
    next n =>
      split
      · rfl
      · rfl
    next => rfl
  next => rfl

theorem update_typ_call_id (st1 : ToolCallState) (e : ToolDelta) :
    (update_from_payload.update_typ st1 e).1.call_id = st1.call_id := by
  unfold update_from_payload.update_typ
  split
  next t =>
    split
    · exact update_name_call_id st1 e
    · rfl
  next => exact update_name_call_id st1 e

theorem update_call_id_cases (st0 : ToolCallState) (e : ToolDelta) (v : String)
    (h : (update_from_payload st0 e).1.call_id = some v) :
    st0.call_id = some v ∨ e.id = some v := by
  unfold update_from_payload at h
  cases hid : e.id with
  | none =>
      simp only [hid] at h
      rw [update_typ_call_id] at h
      exact Or.inl h
  | some cid =>
      simp only [hid] at h
      by_cases hce : cid = ""
      · rw [if_pos hce] at h
        exact Or.inl h
      · rw [if_neg hce] at h
        rw [update_typ_call_id] at h
        have h2 : some cid = some v := h
        injection h2 with h3
        subst h3
        exact Or.inr rfl

theorem contrib_update_le (l : List (Int × ToolCallState)) (i : Int) (e : ToolDelta)
    (v : String) :
    tcs_contrib (update_from_payload ((lookupTS l i).getD ToolCallState.fresh) e).1 v ≤
      (match lookupTS l i with
        | some s0 => tcs_contrib s0 v
        | none => 0) + (if e.id = some v then 1 else 0) := by
  by_cases hcv :
      (update_from_payload ((lookupTS l i).getD ToolCallState.fresh) e).1.call_id = some v
  · have h1 :
        tcs_contrib (update_from_payload ((lookupTS l i).getD ToolCallState.fresh) e).1 v
          = 1 := by
      unfold tcs_contrib
      rw [if_pos hcv]
    rw [h1]
    rcases update_call_id_cases _ e v hcv with h0 | hid
    · cases hl : lookupTS l i with
      | none =>
          rw [hl] at h0
          have h0x : (none : Option String) = some v := h0
          cases h0x
      | some s =>
          rw [hl] at h0
          have h0x : s.call_id = some v := h0
          have h2 : tcs_contrib s v = 1 := by
            unfold tcs_contrib
            rw [if_pos h0x]
          have h3 : (match (some s : Option ToolCallState) with
              | some s0 => tcs_contrib s0 v
              | none => 0) = tcs_contrib s v := rfl
          rw [h3, h2]
          omega
    · rw [if_pos hid]
      omega
  · have h1 :
        tcs_contrib (update_from_payload ((lookupTS l i).getD ToolCallState.fresh) e).1 v
          = 0 := by
      unfold tcs_contrib
      rw [if_neg hcv]
    rw [h1]
    omega

theorem live_put_le (l : List (Int × ToolCallState)) (i : Int) (s : ToolCallState)
    (v : String) (hnd : keys_nodup l) (a : Nat)
    (hc : tcs_contrib s v ≤
      (match lookupTS l i with
        | some s0 => tcs_contrib s0 v
        | none => 0) + a) :
    live_count (putTS l i s) v ≤ live_count l v + a := by
  have hput := live_count_putTS l i s v
  have herase := live_count_erase_lookup l i v hnd
  omega

theorem finish_live (st : NormState) (i : Int) (cur : ToolCallState) (fin : Option String)
    (st' : NormState) (r : Except String (List Event)) (v : String)
    (h : finish_tool_call st i cur fin = (st', r))
    (hself : lookupTS st.tool_states i = some cur)
    (hnd : keys_nodup st.tool_states) :
    keys_nodup st'.tool_states ∧
    delivered_tc r v + live_count st'.tool_states v ≤ live_count st.tool_states v := by
  unfold finish_tool_call at h
  by_cases hfin : fin = some "tool_calls"
  · rw [if_pos hfin] at h
    cases hcid : cur.call_id with
    | none =>
        simp only [hcid] at h
        cases h
        exact ⟨hnd, by simp [delivered_tc, tc_count]⟩
    | some cid =>
        simp only [hcid] at h
        cases hnm : cur.name with
        | none =>
            simp only [hnm] at h
            cases h
            exact ⟨hnd, by simp [delivered_tc, tc_count]⟩
        | some nm =>
            simp only [hnm] at h
            cases hargs : build_arguments cur.fragments with
            | error m =>
                simp only [hargs] at h
                cases h
                exact ⟨hnd, by simp [delivered_tc, tc_count]⟩
            | ok args =>
                simp only [hargs] at h
                cases h
                refine ⟨keys_nodup_eraseTS _ _ hnd, ?_⟩
                show delivered_tc (Except.ok
                    [Event.toolCall st.seqCounter st.tsCounter cid nm args]) v +
                  live_count (eraseTS st.tool_states i) v ≤ live_count st.tool_states v
                have herase2 : live_count st.tool_states v =
                    live_count (eraseTS st.tool_states i) v + tcs_contrib cur v := by
                  rw [live_count_erase_lookup st.tool_states i v hnd, hself]
                have hdelgen : ∀ sq tz : Nat,
                    delivered_tc (Except.ok [Event.toolCall sq tz cid nm args]) v =
                      tcs_contrib cur v := by
                  intro sq tz
                  show (List.filter (Event.isToolCallFor v)
                      [Event.toolCall sq tz cid nm args]).length = tcs_contrib cur v
                  unfold tcs_contrib
                  rw [hcid]
                  by_cases hcv : cid = v
                  · rw [List.filter_cons,
                      if_pos (by simp [Event.isToolCallFor, hcv]),
                      if_pos (by rw [hcv])]
                    simp
                  · rw [List.filter_cons,
                      if_neg (by simp [Event.isToolCallFor, hcv]),
                      if_neg (by simp [hcv])]
                    simp
                rw [hdelgen]
                omega
  · rw [if_neg hfin] at h
    cases h
    exact ⟨hnd, by simp [delivered_tc, tc_count]⟩

theorem entry_live (st : NormState) (e : ToolDelta) (fin : Option String)
    (st' : NormState) (r : Except String (List Event)) (v : String)
    (h : normalize_tool_call_entry st e fin = (st', r))
    (hnd : keys_nodup st.tool_states) :
    keys_nodup st'.tool_states ∧
    delivered_tc r v + live_count st'.tool_states v ≤
      live_count st.tool_states v + (if e.id = some v then 1 else 0) := by
  unfold normalize_tool_call_entry at h
  split at h
  · cases h
    refine ⟨hnd, ?_⟩
    have hz : delivered_tc (Except.error "tool call delta missing integer index") v = 0 :=
      rfl
    omega
  next i hidx =>
    have hput := live_put_le st.tool_states i
      ((update_from_payload ((lookupTS st.tool_states i).getD ToolCallState.fresh) e).1)
      v hnd (if e.id = some v then 1 else 0) (contrib_update_le st.tool_states i e v)
    cases hu2 :
        (update_from_payload ((lookupTS st.tool_states i).getD ToolCallState.fresh) e).2 with
    | some m =>
        simp only [hu2] at h
        cases h
        refine ⟨keys_nodup_putTS _ _ _ hnd, ?_⟩
        show delivered_tc (Except.error m) v + live_count (putTS st.tool_states i
            ((update_from_payload
              ((lookupTS st.tool_states i).getD ToolCallState.fresh) e).1)) v ≤
          live_count st.tool_states v + (if e.id = some v then 1 else 0)
        have hz : delivered_tc (Except.error m) v = 0 := rfl
        omega
    | none =>
        simp only [hu2] at h
        split at h
        next frag heqfrag =>
          split at h
          · obtain ⟨hnd', hle⟩ := finish_live _ i _ fin st' r v h
              (lookup_putTS_self st.tool_states i
                ((update_from_payload
                  ((lookupTS st.tool_states i).getD ToolCallState.fresh) e).1))
              (keys_nodup_putTS _ _ _ hnd)
            have hle2 : delivered_tc r v + live_count st'.tool_states v ≤
                live_count (putTS st.tool_states i
                  ((update_from_payload
                    ((lookupTS st.tool_states i).getD ToolCallState.fresh) e).1)) v := hle
            exact ⟨hnd', by omega⟩
          · obtain ⟨hnd', hle⟩ := finish_live _ i _ fin st' r v h
              (lookup_putTS_self
                (putTS st.tool_states i
                  ((update_from_payload
                    ((lookupTS st.tool_states i).getD ToolCallState.fresh) e).1)) i
                ({(update_from_payload
                    ((lookupTS st.tool_states i).getD ToolCallState.fresh) e).1 with
                  fragments := (update_from_payload
                    ((lookupTS st.tool_states i).getD ToolCallState.fresh) e).1.fragments
                    ++ [frag]}))
              (keys_nodup_putTS _ _ _ (keys_nodup_putTS _ _ _ hnd))
            have hle2 : delivered_tc r v + live_count st'.tool_states v ≤
                live_count (putTS
                  (putTS st.tool_states i
                    ((update_from_payload
                      ((lookupTS st.tool_states i).getD ToolCallState.fresh) e).1)) i
                  ({(update_from_payload
                      ((lookupTS st.tool_states i).getD ToolCallState.fresh) e).1 with
                    fragments := (update_from_payload
                      ((lookupTS st.tool_states i).getD ToolCallState.fresh) e).1.fragments
                      ++ [frag]})) v := hle
            have heq1 : live_count (putTS
                  (putTS st.tool_states i
                    ((update_from_payload
                      ((lookupTS st.tool_states i).getD ToolCallState.fresh) e).1)) i
                  ({(update_from_payload
                      ((lookupTS st.tool_states i).getD ToolCallState.fresh) e).1 with
                    fragments := (update_from_payload
                      ((lookupTS st.tool_states i).getD ToolCallState.fresh) e).1.fragments
                      ++ [frag]})) v =
                live_count (putTS st.tool_states i
                  ((update_from_payload
                    ((lookupTS st.tool_states i).getD ToolCallState.fresh) e).1)) v := by
              rw [live_count_putTS, live_count_putTS, eraseTS_putTS]
              have hcc : tcs_contrib
                  ({(update_from_payload
                      ((lookupTS st.tool_states i).getD ToolCallState.fresh) e).1 with
                    fragments := (update_from_payload
                      ((lookupTS st.tool_states i).getD ToolCallState.fresh) e).1.fragments
                      ++ [frag]}) v =
                  tcs_contrib ((update_from_payload
                    ((lookupTS st.tool_states i).getD ToolCallState.fresh) e).1) v := rfl
              rw [hcc]
            exact ⟨hnd', by omega⟩
        next =>
          obtain ⟨hnd', hle⟩ := finish_live _ i _ fin st' r v h
            (lookup_putTS_self st.tool_states i
              ((update_from_payload
                ((lookupTS st.tool_states i).getD ToolCallState.fresh) e).1))
            (keys_nodup_putTS _ _ _ hnd)
          have hle2 : delivered_tc r v + live_count st'.tool_states v ≤
              live_count (putTS st.tool_states i
                ((update_from_payload
                  ((lookupTS st.tool_states i).getD ToolCallState.fresh) e).1)) v := hle
          exact ⟨hnd', by omega⟩

theorem tc_count_nil (v : String) : tc_count [] v = 0 := rfl

theorem tc_count_append (a b : List Event) (v : String) :
    tc_count (a ++ b) v = tc_count a v + tc_count b v := by
  unfold tc_count
  rw [List.filter_append, List.length_append]

/-- Announcements of a `call_id` value inside one `tool_calls` payload. -/
def entries_announce (es : List ToolDelta) (v : String) : Nat :=
  (es.filter (fun e => e.id = some v)).length

/-- Announcements of a `call_id` value inside one delta. -/
def delta_announce (d : Delta) (v : String) : Nat :=
  match d.tool_calls with
  | some es => entries_announce es v
  | none => 0

/-- The `finish_reason` of the chunk's first choice. -/
def chunk_finish (c : Chunk) : Option String :=
  match c.choices with
  | some (ch :: _) => ch.finish_reason
  | _ => none

/-- Announcements of a `call_id` value inside one chunk. -/
def chunk_announce (c : Chunk) (v : String) : Nat :=
  match c.choices with
  | some (ch :: _) => delta_announce (ch.delta.getD ⟨none, none⟩) v
  | _ => 0

/-- Announcements of a `call_id` value across a whole stream. -/
def stream_announce (chunks : List Chunk) (v : String) : Nat :=
  (chunks.map (fun c => chunk_announce c v)).sum

theorem calls_live (es : List ToolDelta) :
    ∀ (st : NormState) (fin : Option String) (st' : NormState)
      (r : Except String (List Event)) (v : String),
      normalizer_tool_calls st es fin = (st', r) → keys_nodup st.tool_states →
      keys_nodup st'.tool_states ∧
      delivered_tc r v + live_count st'.tool_states v ≤
        live_count st.tool_states v + entries_announce es v := by
  induction es with
  | nil =>
      intro st fin st' r v h hnd
      cases h
      refine ⟨hnd, ?_⟩
      have hz : delivered_tc (Except.ok []) v = 0 := rfl
      omega
  | cons e rest ih =>
      intro st fin st' r v h hnd
      have hann : entries_announce (e :: rest) v =
          (if e.id = some v then 1 else 0) + entries_announce rest v := by
        unfold entries_announce
        rw [List.filter_cons]
        by_cases hid : e.id = some v
        · rw [if_pos (by simpa using hid), if_pos hid, List.length_cons]
          omega
        · rw [if_neg (by simpa using hid), if_neg hid]
          omega
      unfold normalizer_tool_calls at h
      split at h
      · rename_i x st1 m hfirst
        obtain ⟨hnd1, hle1⟩ := entry_live st e fin st1 (.error m) v hfirst hnd
        have hz1 : delivered_tc (Except.error m) v = 0 := rfl
        cases h
        refine ⟨hnd1, ?_⟩
        omega
      · rename_i x st1 evs1 hfirst
        obtain ⟨hnd1, hle1⟩ := entry_live st e fin st1 (.ok evs1) v hfirst hnd
        have hz1 : delivered_tc (Except.ok evs1) v = tc_count evs1 v := rfl
        split at h
        · rename_i x2 st2 m hrest
          obtain ⟨hnd2, hle2⟩ := ih st1 fin st2 (.error m) v hrest hnd1
          have hz2 : delivered_tc (Except.error m) v = 0 := rfl
          cases h
          refine ⟨hnd2, ?_⟩
          omega
        · rename_i x2 st2 evs2 hrest
          obtain ⟨hnd2, hle2⟩ := ih st1 fin st2 (.ok evs2) v hrest hnd1
          have hz2 : delivered_tc (Except.ok evs2) v = tc_count evs2 v := rfl
          have hz3 : delivered_tc (Except.ok (evs1 ++ evs2)) v =
              tc_count evs1 v + tc_count evs2 v := by
            have hx : delivered_tc (Except.ok (evs1 ++ evs2)) v =
                tc_count (evs1 ++ evs2) v := rfl
            rw [hx, tc_count_append]
          cases h
          refine ⟨hnd2, ?_⟩
          omega

theorem delta_live (st : NormState) (delta : Delta) (fin : Option String)
    (st' : NormState) (r : Except String (List Event)) (v : String)
    (h : normalize_delta st delta fin = (st', r)) (hnd : keys_nodup st.tool_states) :
    keys_nodup st'.tool_states ∧
    delivered_tc r v + live_count st'.tool_states v ≤
      live_count st.tool_states v + delta_announce delta v := by
  unfold normalize_delta at h
  have tail : ∀ (st1 : NormState) (evs1 : List Event),
      st1.tool_states = st.tool_states → tc_count evs1 v = 0 →
      (match delta.tool_calls with
        | some entries =>
            match normalizer_tool_calls st1 entries fin with
            | (st2, .error m) => (st2, .error m)
            | (st2, .ok evs2) => (st2, .ok (evs1 ++ evs2))
        | none => (st1, .ok evs1)) = (st', r) →
      keys_nodup st'.tool_states ∧
      delivered_tc r v + live_count st'.tool_states v ≤
        live_count st.tool_states v + delta_announce delta v := by
    intro st1 evs1 hts htc h
    cases htcs : delta.tool_calls with
    | none =>
        simp only [htcs] at h
        have hz : delivered_tc (Except.ok evs1) v = tc_count evs1 v := rfl
        have hnd1 : keys_nodup st1.tool_states := by
          rw [hts]
          exact hnd
        have hlv : live_count st1.tool_states v = live_count st.tool_states v := by
          rw [hts]
        cases h
        refine ⟨hnd1, ?_⟩
        omega
    | some entries =>
        simp only [htcs] at h
        have hda : delta_announce delta v = entries_announce entries v := by
          unfold delta_announce
          rw [htcs]
        have hnd1 : keys_nodup st1.tool_states := by
          rw [hts]
          exact hnd
        have hlv : live_count st1.tool_states v = live_count st.tool_states v := by
          rw [hts]
        split at h
        · rename_i x st2 m hcalls
          obtain ⟨hnd2, hle2⟩ := calls_live entries st1 fin st2 (.error m) v hcalls hnd1
          have hz : delivered_tc (Except.error m) v = 0 := rfl
          cases h
          refine ⟨hnd2, ?_⟩
          omega
        · rename_i x st2 evs2 hcalls
          obtain ⟨hnd2, hle2⟩ := calls_live entries st1 fin st2 (.ok evs2) v hcalls hnd1
          have hz2 : delivered_tc (Except.ok evs2) v = tc_count evs2 v := rfl
          have hz3 : delivered_tc (Except.ok (evs1 ++ evs2)) v =
              tc_count evs1 v + tc_count evs2 v := by
            have hx : delivered_tc (Except.ok (evs1 ++ evs2)) v =
                tc_count (evs1 ++ evs2) v := rfl
            rw [hx, tc_count_append]
          cases h
          refine ⟨hnd2, ?_⟩
          omega
  cases hc : delta.content with
  | none =>
      simp only [hc] at h
      exact tail st [] rfl rfl h
  | some f =>
      simp only [hc] at h
      by_cases hf : f = ""
      · rw [if_pos hf] at h
        exact tail st [] rfl rfl h
      · rw [if_neg hf] at h
        refine tail _ [.token st.seqCounter st.tsCounter f st.token_index] ?_ ?_ h
        · exact rfl
        · exact rfl

theorem tool_result_states (st : NormState) (p : ToolResultPayload) (st' : NormState)
    (re : Except String Event) (h : normalize_tool_result st p = (st', re)) :
    st'.tool_states = st.tool_states := by
  unfold normalize_tool_result at h
  split at h
  · cases h
    rfl
  · split at h
    · cases h
      rfl
    · split at h
      · cases h
        rfl
      · cases h
        rfl

theorem final_states (st : NormState) (c : Chunk) (fin : Option String) (st' : NormState)
    (ro : Except String (Option Event)) (h : maybe_build_final_event st c fin = (st', ro)) :
    st'.tool_states = st.tool_states := by
  unfold maybe_build_final_event at h
  split at h
  · cases h
    rfl
  · split at h
    · cases h
      rfl
    next tt hext =>
      cases htt : tt with
      | some t =>
          subst htt
          by_cases hfc : fin = some "stop" ∨ fin = some "length" ∨
              fin = some "content_filter"
          · rw [if_pos hfc] at h
            cases h
            rfl
          · rw [if_neg hfc] at h
            cases h
            rfl
      | none =>
          subst htt
          by_cases hfc : fin = some "stop" ∨ fin = some "length" ∨
              fin = some "content_filter"
          · rw [if_pos hfc] at h
            cases h
            rfl
          · rw [if_neg hfc] at h
            cases h
            rfl

theorem tc_count_single_rank (ev : Event) (v : String) (h : ev.rank ≠ 2) :
    tc_count [ev] v = 0 := by
  cases ev with
  | toolCall a b cid nm args => exact absurd rfl h
  | token a b cnt idx => rfl
  | toolResult a b cid o => rfl
  | final a b o f u => rfl

theorem chunk_live (st : NormState) (c : Chunk) (st' : NormState)
    (r : Except String (List Event)) (v : String)
    (h : normalize_chunk st c = (st', r)) (hnd : keys_nodup st.tool_states) :
    keys_nodup st'.tool_states ∧
    delivered_tc r v + live_count st'.tool_states v ≤
      live_count st.tool_states v + chunk_announce c v := by
  unfold normalize_chunk at h
  have tail : ∀ (st1 : NormState) (evs0 : List Event),
      st1.tool_states = st.tool_states → tc_count evs0 v = 0 →
      (match extract_choice c with
        | .error m => (st1, .error m)
        | .ok none => (st1, .ok evs0)
        | .ok (some choice) =>
            match normalize_delta st1 (choice.delta.getD ⟨none, none⟩)
                choice.finish_reason with
            | (st2, .error m) => (st2, .error m)
            | (st2, .ok evs1) =>
                match maybe_build_final_event
                    (if choice.finish_reason = some "tool_calls" then
                      {st2 with text_fragments := []} else st2) c
                    choice.finish_reason with
                | (st4, .error m) => (st4, .error m)
                | (st4, .ok none) => (st4, .ok (evs0 ++ evs1))
                | (st4, .ok (some fe)) => (st4, .ok (evs0 ++ evs1 ++ [fe]))) = (st', r) →
      keys_nodup st'.tool_states ∧
      delivered_tc r v + live_count st'.tool_states v ≤
        live_count st.tool_states v + chunk_announce c v := by
    intro st1 evs0 hts htc0 h
    have hnd1 : keys_nodup st1.tool_states := by
      rw [hts]
      exact hnd
    have hlv : live_count st1.tool_states v = live_count st.tool_states v := by
      rw [hts]
    cases hex : extract_choice c with
    | error m =>
        simp only [hex] at h
        have hz : delivered_tc (Except.error m) v = 0 := rfl
        cases h
        exact ⟨hnd1, by omega⟩
    | ok oc =>
      cases oc with
      | none =>
          simp only [hex] at h
          have hz : delivered_tc (Except.ok evs0) v = tc_count evs0 v := rfl
          cases h
          exact ⟨hnd1, by omega⟩
      | some choice =>
          simp only [hex] at h
          have hca : chunk_announce c v =
              delta_announce (choice.delta.getD ⟨none, none⟩) v := by
            unfold extract_choice at hex
            unfold chunk_announce
            cases hcs : c.choices with
            | none =>
                rw [hcs] at hex
                cases hex
            | some l =>
                cases l with
                | nil =>
                    rw [hcs] at hex
                    cases hex
                | cons ch0 restl =>
                    rw [hcs] at hex
                    cases hex
                    rfl
          split at h
          · rename_i x st2 m hdelta
            obtain ⟨hnd2, hle2⟩ := delta_live st1 _ _ st2 (.error m) v hdelta hnd1
            have hz : delivered_tc (Except.error m) v = 0 := rfl
            cases h
            exact ⟨hnd2, by omega⟩
          · rename_i x st2 evs1 hdelta
            obtain ⟨hnd2, hle2⟩ := delta_live st1 _ _ st2 (.ok evs1) v hdelta hnd1
            have hz1 : delivered_tc (Except.ok evs1) v = tc_count evs1 v := rfl
            have hst3 : (if choice.finish_reason = some "tool_calls" then
                ({st2 with text_fragments := []} : NormState) else st2).tool_states =
                st2.tool_states := by
              split
              · rfl
              · rfl
            split at h
            · rename_i x2 st4 m hfin
              have hst4 := final_states _ c choice.finish_reason st4 (.error m) hfin
              have hz : delivered_tc (Except.error m) v = 0 := rfl
              have hl4 : live_count st4.tool_states v = live_count st2.tool_states v := by
                rw [hst4, hst3]
              cases h
              refine ⟨?_, ?_⟩
              · rw [hst4, hst3]
                exact hnd2
              · omega
            · rename_i x2 st4 hfin
              have hst4 := final_states _ c choice.finish_reason st4 (.ok none) hfin
              have hl4 : live_count st4.tool_states v = live_count st2.tool_states v := by
                rw [hst4, hst3]
              have hz : delivered_tc (Except.ok (evs0 ++ evs1)) v =
                  tc_count evs0 v + tc_count evs1 v := by
                have hx : delivered_tc (Except.ok (evs0 ++ evs1)) v =
                    tc_count (evs0 ++ evs1) v := rfl
                rw [hx, tc_count_append]
              cases h
              refine ⟨?_, ?_⟩
              · rw [hst4, hst3]
                exact hnd2
              · omega
            · rename_i x2 st4 fe hfin
              have hst4 := final_states _ c choice.finish_reason st4 (.ok (some fe)) hfin
              have hl4 : live_count st4.tool_states v = live_count st2.tool_states v := by
                rw [hst4, hst3]
              have hfe3 : fe.rank = 3 := final_event_rank _ c choice.finish_reason st4 fe hfin
              have htcfe : tc_count [fe] v = 0 := by
                refine tc_count_single_rank fe v ?_
                rw [hfe3]
                decide
              have hz : delivered_tc (Except.ok (evs0 ++ evs1 ++ [fe])) v =
                  tc_count evs0 v + tc_count evs1 v + tc_count [fe] v := by
                have hx : delivered_tc (Except.ok (evs0 ++ evs1 ++ [fe])) v =
                    tc_count (evs0 ++ evs1 ++ [fe]) v := rfl
                rw [hx, tc_count_append, tc_count_append]
              cases h
              refine ⟨?_, ?_⟩
              · rw [hst4, hst3]
                exact hnd2
              · omega
  cases htr : c.tool_result with
  | none =>
      simp only [htr] at h
      exact tail st [] rfl rfl h
  | some p =>
      simp only [htr] at h
      split at h
      · rename_i x st1 m heq
        split at heq
        · rename_i x2 st0 m0 hres
          have hts0 := tool_result_states st p st0 (.error m0) hres
          have hz : delivered_tc (Except.error m0) v = 0 := rfl
          have hlv0 : live_count st0.tool_states v = live_count st.tool_states v := by
            rw [hts0]
          have hnd0 : keys_nodup st0.tool_states := by
            rw [hts0]
            exact hnd
          cases heq
          cases h
          exact ⟨hnd0, by omega⟩
        · rename_i x2 st0 ev hres
          cases heq
      · rename_i x st1 evs0 heq
        split at heq
        · rename_i x2 st0 m0 hres
          cases heq
        · rename_i x2 st0 ev hres
          have hts0 := tool_result_states st p st0 (.ok ev) hres
          have hev : tc_count [ev] v = 0 := by
            unfold normalize_tool_result at hres
            split at hres
            · cases hres
            · split at hres
              · cases hres
              · split at hres
                · cases hres
                · cases hres
                  rfl
          cases heq
          exact tail _ _ hts0 hev h

theorem run_live (chunks : List Chunk) :
    ∀ (st st' : NormState) (evs : List Event) (v : String),
      run_normalizer st chunks = (st', evs) → keys_nodup st.tool_states →
      keys_nodup st'.tool_states ∧
      tc_count evs v + live_count st'.tool_states v ≤
        live_count st.tool_states v + stream_announce chunks v := by
  induction chunks with
  | nil =>
      intro st st' evs v h hnd
      cases h
      refine ⟨hnd, ?_⟩
      have hz : tc_count ([] : List Event) v = 0 := rfl
      have hs : stream_announce [] v = 0 := rfl
      omega
  | cons c rest ih =>
      intro st st' evs v h hnd
      have hsa : stream_announce (c :: rest) v =
          chunk_announce c v + stream_announce rest v := by
        unfold stream_announce
        rw [List.map_cons, List.sum_cons]
      unfold run_normalizer at h
      split at h
      · rename_i x stc m hchunk
        obtain ⟨hndc, hlec⟩ := chunk_live st c stc (.error m) v hchunk hnd
        have hz : delivered_tc (Except.error m) v = 0 := rfl
        obtain ⟨hnd2, hle2⟩ := ih stc st' evs v h hndc
        refine ⟨hnd2, ?_⟩
        omega
      · rename_i x stc evs1 hchunk
        obtain ⟨hndc, hlec⟩ := chunk_live st c stc (.ok evs1) v hchunk hnd
        have hz : delivered_tc (Except.ok evs1) v = tc_count evs1 v := rfl
        split at h
        · rename_i x2 st2 evs2 hrest
          obtain ⟨hnd2, hle2⟩ := ih stc st2 evs2 v hrest hndc
          have hap : tc_count (evs1 ++ evs2) v = tc_count evs1 v + tc_count evs2 v :=
            tc_count_append evs1 evs2 v
          cases h
          refine ⟨hnd2, ?_⟩
          omega

theorem finish_no_emit (st : NormState) (i : Int) (cur : ToolCallState)
    (fin : Option String) (hf : fin ≠ some "tool_calls") :
    finish_tool_call st i cur fin = (st, .ok []) := by
  unfold finish_tool_call
  rw [if_neg hf]

theorem entry_no_emit (st : NormState) (e : ToolDelta) (fin : Option String)
    (st' : NormState) (evs : List Event) (hf : fin ≠ some "tool_calls")
    (h : normalize_tool_call_entry st e fin = (st', .ok evs)) : evs = [] := by
  unfold normalize_tool_call_entry at h
  split at h
  · cases h
  next i hidx =>
    cases hu2 :
        (update_from_payload ((lookupTS st.tool_states i).getD ToolCallState.fresh) e).2 with
    | some m =>
        simp only [hu2] at h
        cases h
    | none =>
        simp only [hu2] at h
        split at h
        next frag heqf =>
          split at h
          · rw [finish_no_emit _ i _ fin hf] at h
            cases h
            rfl
          · rw [finish_no_emit _ i _ fin hf] at h
            cases h
            rfl
        next =>
          rw [finish_no_emit _ i _ fin hf] at h
          cases h
          rfl

theorem calls_no_emit (es : List ToolDelta) :
    ∀ (st : NormState) (fin : Option String) (st' : NormState) (evs : List Event),
      fin ≠ some "tool_calls" → normalizer_tool_calls st es fin = (st', .ok evs) →
      evs = [] := by
  induction es with
  | nil =>
      intro st fin st' evs hf h
      cases h
      rfl
  | cons e rest ih =>
      intro st fin st' evs hf h
      unfold normalizer_tool_calls at h
      split at h
      · cases h
      · rename_i x st1 evs1 hfirst
        split at h
        · cases h
        · rename_i x2 st2 evs2 hrest
          have he1 : evs1 = [] := entry_no_emit st e fin st1 evs1 hf hfirst
          have he2 : evs2 = [] := ih st1 fin st2 evs2 hf hrest
          cases h
          rw [he1, he2]
          rfl

theorem delta_no_toolcall (st : NormState) (delta : Delta) (fin : Option String)
    (st' : NormState) (evs : List Event) (hf : fin ≠ some "tool_calls")
    (h : normalize_delta st delta fin = (st', .ok evs)) :
    ∀ ev ∈ evs, ev.rank ≠ 2 := by
  unfold normalize_delta at h
  have tail : ∀ (st1 : NormState) (evs1 : List Event), (∀ e ∈ evs1, e.rank = 1) →
      (match delta.tool_calls with
        | some entries =>
            match normalizer_tool_calls st1 entries fin with
            | (st2, Except.error m) => (st2, Except.error m)
            | (st2, Except.ok evs2) => (st2, Except.ok (evs1 ++ evs2))
        | none => (st1, Except.ok evs1)) = (st', Except.ok evs) →
      ∀ ev ∈ evs, ev.rank ≠ 2 := by
    intro st1 evs1 h1 h
    cases htc : delta.tool_calls with
    | none =>
        simp only [htc] at h
        cases h
        intro ev hev
        rw [h1 ev hev]
        decide
    | some entries =>
        simp only [htc] at h
        split at h
        · cases h
        · rename_i x st2 evs2 hcalls
          have he2 : evs2 = [] := calls_no_emit entries st1 fin st2 evs2 hf hcalls
          cases h
          intro ev hev
          rcases List.mem_append.mp hev with h1m | h2m
          · rw [h1 ev h1m]
            decide
          · rw [he2] at h2m
            cases h2m
  cases hc : delta.content with
  | none =>
      simp only [hc] at h
      exact tail st [] (by intro e he; cases he) h
  | some f =>
      simp only [hc] at h
      by_cases hfe : f = ""
      · rw [if_pos hfe] at h
        exact tail st [] (by intro e he; cases he) h
      · rw [if_neg hfe] at h
        refine tail _ [.token st.seqCounter st.tsCounter f st.token_index] ?_ h
        intro e he
        have he2 := List.mem_singleton.mp he
        rw [he2]
        rfl

theorem chunk_finish_some (c : Chunk) (ch : Choice)
    (hex : extract_choice c = .ok (some ch)) : chunk_finish c = ch.finish_reason := by
  unfold extract_choice at hex
  unfold chunk_finish
  cases hcs : c.choices with
  | none =>
      rw [hcs] at hex
      cases hex
  | some l =>
      cases l with
      | nil =>
          rw [hcs] at hex
          cases hex
      | cons ch0 restl =>
          rw [hcs] at hex
          cases hex
          rfl

theorem chunk_no_toolcall (st : NormState) (c : Chunk) (st' : NormState)
    (evs : List Event) (hf : chunk_finish c ≠ some "tool_calls")
    (h : normalize_chunk st c = (st', .ok evs)) :
    ∀ ev ∈ evs, ev.rank ≠ 2 := by
  unfold normalize_chunk at h
  have tail : ∀ (st1 : NormState) (evs0 : List Event), (∀ e ∈ evs0, e.rank = 0) →
      (match extract_choice c with
        | Except.error m => (st1, Except.error m)
        | Except.ok none => (st1, Except.ok evs0)
        | Except.ok (some choice) =>
            match normalize_delta st1 (choice.delta.getD ⟨none, none⟩)
                choice.finish_reason with
            | (st2, Except.error m) => (st2, Except.error m)
            | (st2, Except.ok evs1) =>
                match maybe_build_final_event
                    (if choice.finish_reason = some "tool_calls" then
                      {st2 with text_fragments := []} else st2) c
                    choice.finish_reason with
                | (st4, Except.error m) => (st4, Except.error m)
                | (st4, Except.ok none) => (st4, Except.ok (evs0 ++ evs1))
                | (st4, Except.ok (some fe)) =>
                    (st4, Except.ok (evs0 ++ evs1 ++ [fe]))) =
          (st', Except.ok evs) →
      ∀ ev ∈ evs, ev.rank ≠ 2 := by
    intro st1 evs0 h0 h
    cases hex : extract_choice c with
    | error m =>
        simp only [hex] at h
        cases h
    | ok oc =>
      cases oc with
      | none =>
          simp only [hex] at h
          cases h
          intro ev hev
          rw [h0 ev hev]
          decide
      | some choice =>
          simp only [hex] at h
          have hfc : choice.finish_reason ≠ some "tool_calls" := by
            rw [← chunk_finish_some c choice hex]
            exact hf
          split at h
          · cases h
          · rename_i x st2 evs1 hdelta
            have hd := delta_no_toolcall st1 _ _ st2 evs1 hfc hdelta
            split at h
            · cases h
            · rename_i x2 st4 hfin
              cases h
              intro ev hev
              rcases List.mem_append.mp hev with h1m | h2m
              · rw [h0 ev h1m]
                decide
              · exact hd ev h2m
            · rename_i x2 st4 fe hfin
              have hfe3 : fe.rank = 3 :=
                final_event_rank _ c choice.finish_reason st4 fe hfin
              cases h
              intro ev hev
              rcases List.mem_append.mp hev with h1m | h2m
              · rcases List.mem_append.mp h1m with h3 | h4
                · rw [h0 ev h3]
                  decide
                · exact hd ev h4
              · have hev2 := List.mem_singleton.mp h2m
                rw [hev2, hfe3]
                decide
  cases htr : c.tool_result with
  | none =>
      simp only [htr] at h
      exact tail st [] (by intro e he; cases he) h
  | some p =>
      simp only [htr] at h
      split at h
      · cases h
      · rename_i x st1 evs0 heq
        refine tail st1 evs0 ?_ h
        intro e he
        split at heq
        · cases heq
        · rename_i x2 st0 ev hres
          cases heq
          have he2 := List.mem_singleton.mp he
          subst he2
          unfold normalize_tool_result at hres
          split at hres
          · cases hres
          · split at hres
            · cases hres
            · split at hres
              · cases hres
              · cases hres
                rfl

theorem build_arguments_isDict (frags : List String) (args : PyVal)
    (h : build_arguments frags = .ok args) : args.isDict = true := by
  unfold build_arguments at h
  have h2 : (if String.join frags = "" then Except.ok (PyVal.pdict PyObj.nil)
      else match json_loads (String.join frags) with
        | none => Except.error "tool call returned invalid JSON arguments"
        | some parsed =>
            if parsed.isDict = true then Except.ok parsed
            else Except.error "tool call arguments must decode to an object") =
      Except.ok args := h
  clear h
  rename' h2 => h
  split at h
  · cases h
    rfl
  · split at h
    · cases h
    next parsed hj =>
      split at h
      next hd =>
        cases h
        exact hd
      next hd =>
        cases h

theorem finish_args_dict (st : NormState) (i : Int) (cur : ToolCallState)
    (fin : Option String) (st' : NormState) (evs : List Event)
    (h : finish_tool_call st i cur fin = (st', .ok evs)) :
    ∀ (sq tz : Nat) (cid nm : String) (args : PyVal),
      Event.toolCall sq tz cid nm args ∈ evs → args.isDict = true := by
  unfold finish_tool_call at h
  by_cases hfin : fin = some "tool_calls"
  · rw [if_pos hfin] at h
    cases hcid : cur.call_id with
    | none =>
        simp only [hcid] at h
        cases h
    | some cid0 =>
        simp only [hcid] at h
        cases hnm : cur.name with
        | none =>
            simp only [hnm] at h
            cases h
        | some nm0 =>
            simp only [hnm] at h
            cases hargs : build_arguments cur.fragments with
            | error m =>
                simp only [hargs] at h
                cases h
            | ok args0 =>
                simp only [hargs] at h
                cases h
                intro sq tz cid nm args hmem
                have hmem2 := List.mem_singleton.mp hmem
                injection hmem2 with h1 h2 h3 h4 h5
                rw [h5]
                exact build_arguments_isDict cur.fragments args0 hargs
  · rw [if_neg hfin] at h
    cases h
    intro sq tz cid nm args hmem
    cases hmem

theorem entry_args_dict (st : NormState) (e : ToolDelta) (fin : Option String)
    (st' : NormState) (evs : List Event)
    (h : normalize_tool_call_entry st e fin = (st', .ok evs)) :
    ∀ (sq tz : Nat) (cid nm : String) (args : PyVal),
      Event.toolCall sq tz cid nm args ∈ evs → args.isDict = true := by
  unfold normalize_tool_call_entry at h
  split at h
  · cases h
  next i hidx =>
    cases hu2 :
        (update_from_payload ((lookupTS st.tool_states i).getD ToolCallState.fresh) e).2 with
    | some m =>
        simp only [hu2] at h
        cases h
    | none =>
        simp only [hu2] at h
        split at h
        next frag heqf =>
          split at h
          · exact finish_args_dict _ i _ fin st' evs h
          · exact finish_args_dict _ i _ fin st' evs h
        next =>
          exact finish_args_dict _ i _ fin st' evs h

theorem calls_args_dict (es : List ToolDelta) :
    ∀ (st : NormState) (fin : Option String) (st' : NormState) (evs : List Event),
      normalizer_tool_calls st es fin = (st', .ok evs) →
      ∀ (sq tz : Nat) (cid nm : String) (args : PyVal),
        Event.toolCall sq tz cid nm args ∈ evs → args.isDict = true := by
  induction es with
  | nil =>
      intro st fin st' evs h
      cases h
      intro sq tz cid nm args hmem
      cases hmem
  | cons e rest ih =>
      intro st fin st' evs h
      unfold normalizer_tool_calls at h
      split at h
      · cases h
      · rename_i x st1 evs1 hfirst
        split at h
        · cases h
        · rename_i x2 st2 evs2 hrest
          cases h
          intro sq tz cid nm args hmem
          rcases List.mem_append.mp hmem with h1m | h2m
          · exact entry_args_dict st e fin st1 evs1 hfirst sq tz cid nm args h1m
          · exact ih st1 fin _ _ hrest sq tz cid nm args h2m

theorem delta_args_dict (st : NormState) (delta : Delta) (fin : Option String)
    (st' : NormState) (evs : List Event)
    (h : normalize_delta st delta fin = (st', .ok evs)) :
    ∀ (sq tz : Nat) (cid nm : String) (args : PyVal),
      Event.toolCall sq tz cid nm args ∈ evs → args.isDict = true := by
  unfold normalize_delta at h
  have tail : ∀ (st1 : NormState) (evs1 : List Event), (∀ e ∈ evs1, e.rank = 1) →
      (match delta.tool_calls with
        | some entries =>
            match normalizer_tool_calls st1 entries fin with
            | (st2, Except.error m) => (st2, Except.error m)
            | (st2, Except.ok evs2) => (st2, Except.ok (evs1 ++ evs2))
        | none => (st1, Except.ok evs1)) = (st', Except.ok evs) →
      ∀ (sq tz : Nat) (cid nm : String) (args : PyVal),
        Event.toolCall sq tz cid nm args ∈ evs → args.isDict = true := by
    intro st1 evs1 h1 h
    cases htc : delta.tool_calls with
    | none =>
        simp only [htc] at h
        cases h
        intro sq tz cid nm args hmem
        have := h1 _ hmem
        cases this
    | some entries =>
        simp only [htc] at h
        split at h
        · cases h
        · rename_i x st2 evs2 hcalls
          cases h
          intro sq tz cid nm args hmem
          rcases List.mem_append.mp hmem with h1m | h2m
          · have := h1 _ h1m
            cases this
          · exact calls_args_dict entries st1 fin _ _ hcalls sq tz cid nm args h2m
  cases hc : delta.content with
  | none =>
      simp only [hc] at h
      exact tail st [] (by intro e he; cases he) h
  | some f =>
      simp only [hc] at h
      by_cases hfe : f = ""
      · rw [if_pos hfe] at h
        exact tail st [] (by intro e he; cases he) h
      · rw [if_neg hfe] at h
        refine tail _ [.token st.seqCounter st.tsCounter f st.token_index] ?_ h
        intro e he
        have he2 := List.mem_singleton.mp he
        rw [he2]
        rfl

theorem chunk_args_dict (st : NormState) (c : Chunk) (st' : NormState)
    (evs : List Event) (h : normalize_chunk st c = (st', .ok evs)) :
    ∀ (sq tz : Nat) (cid nm : String) (args : PyVal),
      Event.toolCall sq tz cid nm args ∈ evs → args.isDict = true := by
  unfold normalize_chunk at h
  have tail : ∀ (st1 : NormState) (evs0 : List Event), (∀ e ∈ evs0, e.rank = 0) →
      (match extract_choice c with
        | Except.error m => (st1, Except.error m)
        | Except.ok none => (st1, Except.ok evs0)
        | Except.ok (some choice) =>
            match normalize_delta st1 (choice.delta.getD ⟨none, none⟩)
                choice.finish_reason with
            | (st2, Except.error m) => (st2, Except.error m)
            | (st2, Except.ok evs1) =>
                match maybe_build_final_event
                    (if choice.finish_reason = some "tool_calls" then
                      {st2 with text_fragments := []} else st2) c
                    choice.finish_reason with
                | (st4, Except.error m) => (st4, Except.error m)
                | (st4, Except.ok none) => (st4, Except.ok (evs0 ++ evs1))
                | (st4, Except.ok (some fe)) =>
                    (st4, Except.ok (evs0 ++ evs1 ++ [fe]))) =
          (st', Except.ok evs) →
      ∀ (sq tz : Nat) (cid nm : String) (args : PyVal),
        Event.toolCall sq tz cid nm args ∈ evs → args.isDict = true := by
    intro st1 evs0 h0 h
    cases hex : extract_choice c with
    | error m =>
        simp only [hex] at h
        cases h
    | ok oc =>
      cases oc with
      | none =>
          simp only [hex] at h
          cases h
          intro sq tz cid nm args hmem
          have := h0 _ hmem
          cases this
      | some choice =>
          simp only [hex] at h
          split at h
          · cases h
          · rename_i x st2 evs1 hdelta
            have hd := delta_args_dict st1 _ _ st2 evs1 hdelta
            split at h
            · cases h
            · rename_i x2 st4 hfin
              cases h
              intro sq tz cid nm args hmem
              rcases List.mem_append.mp hmem with h1m | h2m
              · have := h0 _ h1m
                cases this
              · exact hd sq tz cid nm args h2m
            · rename_i x2 st4 fe hfin
              have hfe3 : fe.rank = 3 :=
                final_event_rank _ c choice.finish_reason st4 fe hfin
              cases h
              intro sq tz cid nm args hmem
              rcases List.mem_append.mp hmem with h1m | h2m
              · rcases List.mem_append.mp h1m with h3 | h4
                · have := h0 _ h3
                  cases this
                · exact hd sq tz cid nm args h4
              · have hev2 := List.mem_singleton.mp h2m
                rw [← hev2] at hfe3
                cases hfe3
  cases htr : c.tool_result with
  | none =>
      simp only [htr] at h
      exact tail st [] (by intro e he; cases he) h
  | some p =>
      simp only [htr] at h
      split at h
      · cases h
      · rename_i x st1 evs0 heq
        refine tail st1 evs0 ?_ h
        intro e he
        split at heq
        · cases heq
        · rename_i x2 st0 ev hres
          cases heq
          have he2 := List.mem_singleton.mp he
          subst he2
          unfold normalize_tool_result at hres
          split at hres
          · cases hres
          · split at hres
            · cases hres
            · split at hres
              · cases hres
              · cases hres
                rfl

/-- C2, counterexample payload: one chunk that announces `call_id`
`"a"` at index 0 with `finish_reason == "tool_calls"`, repeated
twice. -/
def c2_chunk : Chunk :=
  ⟨some [⟨some ⟨none, some [⟨some 0, some "a", some "function", some ⟨some "f", none⟩⟩]⟩,
    some "tool_calls"⟩], none, none⟩

/-- C2, counterexample stream: the same announcing chunk twice. -/
def c2_chunks : List Chunk := [c2_chunk, c2_chunk]

/-- **C2, counterexample.**  The spec says a ToolCall is emitted at most
once per distinct `call_id`, but the accumulator is popped on emission
and keyed by provider index, not by `call_id`: a later chunk may
re-announce the same id and the normalizer emits a second ToolCall
event with the same `call_id`.  On `c2_chunks` the stream delivers two
ToolCall events with `call_id = "a"`. -/
theorem c2_counterexample :
    tc_count (run_normalizer NormState.start c2_chunks).2 "a" = 2 ∧
    ¬ tc_count (run_normalizer NormState.start c2_chunks).2 "a" ≤ 1 := by
  have h : tc_count (run_normalizer NormState.start c2_chunks).2 "a" = 2 := by rfl
  refine ⟨h, ?_⟩
  rw [h]
  omega

/-- **C2 (amended).**  For every stream in which each `call_id` value is
announced by at most one tool-call delta entry (`stream_announce ≤ 1`),
the normalizer emits at most one ToolCall event with that `call_id`,
and when it does, the accumulator for the call has been removed (the
sum of delivered ToolCalls and surviving accumulators for the id is at
most 1).  Moreover, a chunk whose `finish_reason` is not
`"tool_calls"` contributes no ToolCall events, and every emitted
ToolCall carries arguments that decode to a JSON object (the plain
`dict` produced by `json.loads` — the event dataclass is frozen but the
mapping itself is not). -/
theorem c2_amended (chunks : List Chunk) (v : String)
    (stA : NormState) (cA : Chunk) (stA2 : NormState) (evsA : List Event)
    (stB : NormState) (cB : Chunk) (stB2 : NormState) (evsB : List Event)
    (sq tz : Nat) (cid nm : String) (args : PyVal)
    (huniq : stream_announce chunks v ≤ 1)
    (hA : normalize_chunk stA cA = (stA2, Except.ok evsA))
    (hAfin : chunk_finish cA ≠ some "tool_calls")
    (hB : normalize_chunk stB cB = (stB2, Except.ok evsB))
    (hmem : Event.toolCall sq tz cid nm args ∈ evsB) :
    tc_count (run_normalizer NormState.start chunks).2 v +
      live_count (run_normalizer NormState.start chunks).1.tool_states v ≤ 1 ∧
    evsA.filter (fun ev => ev.rank = 2) = [] ∧
    args.isDict = true := by
  refine ⟨?_, ?_, ?_⟩
  · obtain ⟨hnd, hle⟩ := run_live chunks NormState.start
      (run_normalizer NormState.start chunks).1
      (run_normalizer NormState.start chunks).2 v rfl keys_nodup_nil
    have hz : live_count NormState.start.tool_states v = 0 := rfl
    omega
  · have hnt := chunk_no_toolcall stA cA stA2 evsA hAfin hA
    refine List.filter_eq_nil_iff.mpr ?_
    intro ev hev hcontra
    exact hnt ev hev (of_decide_eq_true hcontra)
  · exact chunk_args_dict stB cB stB2 evsB hB sq tz cid nm args hmem

/-- Witness for C2 (amended) at a single announcing chunk, an empty
chunk, and the ToolCall event the announcing chunk emits. -/
theorem c2_amended_witness :
    tc_count (run_normalizer NormState.start [c2_chunk]).2 "a" +
      live_count (run_normalizer NormState.start [c2_chunk]).1.tool_states "a" ≤ 1 ∧
    ([] : List Event).filter (fun ev => ev.rank = 2) = [] ∧
    (PyVal.pdict .nil).isDict = true :=
  c2_amended [c2_chunk] "a" NormState.start ⟨none, none, none⟩ NormState.start []
    NormState.start c2_chunk ⟨1, 1, 0, [], [], false, none, none⟩
    [Event.toolCall 0 0 "a" "f" (.pdict .nil)] 0 0 "a" "f" (.pdict .nil)
    (by decide) (by rfl) (by decide) (by rfl) (List.mem_singleton.mpr rfl)

/-- One pull on the underlying provider stream: a chunk, or a raised
transport error (`Except.error`); an exhausted source is the end of the
list (the iterator then sees `StopAsyncIteration`). -/
def SrcItem : Type := Except String Chunk

/-- The mutable state of `_OpenAIStream` (minus the chunk source, which
is threaded separately): the wrapped normalizer, the `deque` buffer,
the `_closed` and `_finalized` flags, and the number of times
`_close_stream` has run on the underlying source. -/
structure IterState where
  norm : NormState
  buffer : List Event
  closed : Bool
  finalized : Bool
  disposed : Nat
  deriving DecidableEq

/-- The state of a freshly constructed `_OpenAIStream`. -/
def iter_start : IterState :=
  ⟨NormState.start, [], false, false, 0⟩

/-- What one `__anext__` call produces: an event, `StopAsyncIteration`,
or a raised `AdapterStreamError` (`transport = true` when the error was
raised by the chunk source and wrapped, `false` when the normalizer
raised it). -/
inductive PullResult where
  | event (e : Event) : PullResult
  | stopIteration : PullResult
  | adapterError (m : String) (transport : Bool) : PullResult
  deriving DecidableEq

/-- `_OpenAIStream.aclose`: once closed, a no-op; otherwise set
`_closed`, clear the buffer, and dispose the underlying source. -/
def IterState.aclose (s : IterState) : IterState :=
  if s.closed then s
  else {s with closed := true, buffer := [], disposed := s.disposed + 1}

/-- `_OpenAIStream._finalize_if_needed`: returning a Final event marks
the stream finalized and, when the buffer is already drained, closes
it. -/
def finalize_if_needed (s : IterState) (e : Event) : IterState × PullResult :=
  if e.isFinal then
    let s1 := {s with finalized := true}
    if s1.buffer = [] then (s1.aclose, .event e)
    else (s1, .event e)
  else (s, .event e)

/-- The `while True` loop of `_OpenAIStream.__anext__` (entered with an
empty buffer): stop when closed; close and stop when finalized; pull a
chunk — an exhausted source or a source error closes the iterator
first, and a normalizer error propagates without closing; skip empty
batches; otherwise buffer the batch and hand out its first event. -/
def anext_loop : List SrcItem → IterState → (IterState × List SrcItem) × PullResult
  | src, s =>
    if s.closed then ((s, src), .stopIteration)
    else if s.finalized ∧ s.buffer = [] then ((s.aclose, src), .stopIteration)
    else
      match src with
      | [] => ((s.aclose, []), .stopIteration)
      | .error _ :: rest =>
          ((s.aclose, rest),
            .adapterError "OpenAI stream raised an unexpected error" true)
      | .ok c :: rest =>
          match normalize_chunk s.norm c with
          | (n', .error m) => (({s with norm := n'}, rest), .adapterError m false)
          | (n', .ok []) => anext_loop rest {s with norm := n'}
          | (n', .ok (e :: evs)) =>
              match finalize_if_needed {s with norm := n', buffer := evs} e with
              | (s2, pr) => ((s2, rest), pr)

/-- `_OpenAIStream.__anext__`. -/
def anext (s : IterState) (src : List SrcItem) : (IterState × List SrcItem) × PullResult :=
  if s.closed ∧ s.buffer = [] then ((s, src), .stopIteration)
  else
    match s.buffer with
    | e :: rest =>
        match finalize_if_needed {s with buffer := rest} e with
        | (s2, pr) => ((s2, src), pr)
    | [] => anext_loop src s

/-- Iterated pulls: the state and remaining source after `n` calls. -/
def pulls : IterState → List SrcItem → Nat → IterState × List SrcItem
  | s, src, 0 => (s, src)
  | s, src, n + 1 =>
      match anext s src with
      | ((s', src'), _) => pulls s' src' n

/-- The results of the first `n` pulls. -/
def pull_trace : IterState → List SrcItem → Nat → List PullResult
  | _, _, 0 => []
  | s, src, n + 1 =>
      match anext s src with
      | ((s', src'), pr) => pr :: pull_trace s' src' n

/-- The events among a list of pull results. -/
def eventsOf (t : List PullResult) : List Event :=
  t.filterMap (fun pr =>
    match pr with
    | .event e => some e
    | _ => none)

/-- Every final-variant event in the list is its last element. -/
def no_final_butlast (l : List Event) : Prop :=
  ∀ e ∈ l.dropLast, e.isFinal = false

/-- The reachable-state invariant of `_OpenAIStream`: a closed iterator
has an empty buffer, a Final event can only sit at the end of the
buffer, and the underlying source has been disposed exactly once iff
the iterator is closed. -/
def IterInv (s : IterState) : Prop :=
  (s.closed = true → s.buffer = []) ∧ no_final_butlast s.buffer ∧
  s.disposed = (if s.closed = true then 1 else 0)

theorem iter_start_inv : IterInv iter_start := by
  refine ⟨fun h => rfl, ?_, rfl⟩
  intro e he
  cases he

theorem nfb_nil : no_final_butlast [] := by
  intro e he
  cases he

theorem nfb_head (e : Event) (evs : List Event) (h : no_final_butlast (e :: evs))
    (hf : e.isFinal = true) : evs = [] := by
  cases evs with
  | nil => rfl
  | cons x t =>
      have hmem : e ∈ (e :: x :: t).dropLast := by
        rw [show (e :: x :: t).dropLast = e :: (x :: t).dropLast from rfl]
        exact List.mem_cons_self _ _
      have hfalse := h e hmem
      rw [hf] at hfalse
      exact Bool.noConfusion hfalse

theorem nfb_tail (e : Event) (evs : List Event) (h : no_final_butlast (e :: evs)) :
    no_final_butlast evs := by
  intro x hx
  apply h
  cases evs with
  | nil =>
      exact absurd hx (by simp)
  | cons y t =>
      rw [show (e :: y :: t).dropLast = e :: (y :: t).dropLast from rfl]
      exact List.mem_cons_of_mem e hx

theorem chunk_no_final_butlast (st : NormState) (c : Chunk) (st' : NormState)
    (evs : List Event) (h : normalize_chunk st c = (st', .ok evs)) :
    no_final_butlast evs := by
  obtain ⟨tr, toks, calls, fin, heq, htr, htrlen, htoks, hcalls, hfin, hfinlen⟩ :=
    chunk_shape st c st' evs h
  subst heq
  have hbody : ∀ e ∈ tr ++ (toks ++ calls), e.isFinal = false := by
    intro e he
    have hrank : e.rank ≠ 3 := by
      rcases List.mem_append.mp he with h1 | h2
      · rw [htr e h1]
        decide
      · rcases List.mem_append.mp h2 with h3 | h4
        · rw [htoks e h3]
          decide
        · rw [hcalls e h4]
          decide
    cases hb : e.isFinal
    · rfl
    · exact absurd ((isFinal_iff_rank e).mp hb) hrank
  cases fin with
  | nil =>
      intro e he
      rw [List.append_nil] at he
      exact hbody e ((List.dropLast_sublist _).subset he)
  | cons f fr =>
      cases fr with
      | cons f2 fr2 =>
          exact absurd hfinlen (by simp)
      | nil =>
          intro e he
          rw [List.dropLast_concat] at he
          exact hbody e he

theorem aclose_closed (s : IterState) : s.aclose.closed = true := by
  unfold IterState.aclose
  by_cases hc : s.closed = true
  · rw [if_pos hc]
    exact hc
  · rw [if_neg hc]

theorem aclose_inv (s : IterState) (h : IterInv s) : IterInv s.aclose := by
  unfold IterState.aclose
  by_cases hc : s.closed = true
  · rw [if_pos hc]
    exact h
  · rw [if_neg hc]
    refine ⟨fun _ => rfl, nfb_nil, ?_⟩
    have hd := h.2.2
    rw [if_neg hc] at hd
    rw [hd]
    rfl

theorem finalize_spec (s : IterState) (e : Event) (s2 : IterState) (pr : PullResult)
    (h : finalize_if_needed s e = (s2, pr)) (hInv : IterInv s)
    (hlast : e.isFinal = true → s.buffer = []) :
    IterInv s2 ∧ pr = .event e ∧ (e.isFinal = true → s2.closed = true) := by
  unfold finalize_if_needed at h
  by_cases hf : e.isFinal = true
  · rw [if_pos hf] at h
    have hbuf : s.buffer = [] := hlast hf
    have h2 : (if ({s with finalized := true} : IterState).buffer = [] then
          (({s with finalized := true} : IterState).aclose, PullResult.event e)
        else ({s with finalized := true}, PullResult.event e)) = (s2, pr) := h
    rw [if_pos (show ({s with finalized := true} : IterState).buffer = [] from hbuf)] at h2
    cases h2
    refine ⟨?_, rfl, fun _ => aclose_closed _⟩
    exact aclose_inv _ ⟨fun hcc => hInv.1 hcc, hInv.2.1, hInv.2.2⟩
  · rw [if_neg hf] at h
    cases h
    exact ⟨hInv, rfl, fun hff => absurd hff hf⟩

theorem anext_loop_spec (src : List SrcItem) :
    ∀ (s s' : IterState) (src' : List SrcItem) (pr : PullResult),
      IterInv s → anext_loop src s = ((s', src'), pr) →
      IterInv s' ∧
      (∀ f, pr = PullResult.event f → f.isFinal = true → s'.closed = true) ∧
      (∀ m, pr = PullResult.adapterError m true → s'.closed = true) := by
  induction src with
  | nil =>
      intro s s' src' pr hInv h
      unfold anext_loop at h
      by_cases hc : s.closed = true
      · rw [if_pos hc] at h
        cases h
        refine ⟨hInv, ?_, ?_⟩
        · intro f hf
          cases hf
        · intro m hm
          cases hm
      · rw [if_neg hc] at h
        by_cases hfb : s.finalized = true ∧ s.buffer = []
        · rw [if_pos hfb] at h
          cases h
          refine ⟨aclose_inv s hInv, ?_, ?_⟩
          · intro f hf
            cases hf
          · intro m hm
            cases hm
        · rw [if_neg hfb] at h
          cases h
          refine ⟨aclose_inv s hInv, ?_, ?_⟩
          · intro f hf
            cases hf
          · intro m hm
            cases hm
  | cons item rest ih =>
      intro s s' src' pr hInv h
      unfold anext_loop at h
      by_cases hc : s.closed = true
      · rw [if_pos hc] at h
        cases h
        refine ⟨hInv, ?_, ?_⟩
        · intro f hf
          cases hf
        · intro m hm
          cases hm
      · rw [if_neg hc] at h
        by_cases hfb : s.finalized = true ∧ s.buffer = []
        · rw [if_pos hfb] at h
          cases h
          refine ⟨aclose_inv s hInv, ?_, ?_⟩
          · intro f hf
            cases hf
          · intro m hm
            cases hm
        · rw [if_neg hfb] at h
          cases item with
          | error m0 =>
              cases h
              refine ⟨aclose_inv s hInv, ?_, ?_⟩
              · intro f hf
                cases hf
              · intro m hm
                exact aclose_closed s
          | ok c =>
              rcases hnc : normalize_chunk s.norm c with ⟨n', r⟩
              cases r with
              | error m0 =>
                  simp only [hnc] at h
                  cases h
                  refine ⟨⟨fun hcc => hInv.1 hcc, hInv.2.1, hInv.2.2⟩, ?_, ?_⟩
                  · intro f hf
                    cases hf
                  · intro m hm
                    injection hm with h1 h2
                    exact Bool.noConfusion h2
              | ok evs =>
                  cases evs with
                  | nil =>
                      simp only [hnc] at h
                      exact ih {s with norm := n'} s' src' pr
                        ⟨fun hcc => hInv.1 hcc, hInv.2.1, hInv.2.2⟩ h
                  | cons e evtail =>
                      simp only [hnc] at h
                      rcases hfz : finalize_if_needed {s with norm := n', buffer := evtail} e
                        with ⟨s2, pr2⟩
                      simp only [hfz] at h
                      cases h
                      have hnfb : no_final_butlast (e :: evtail) :=
                        chunk_no_final_butlast s.norm c n' (e :: evtail) hnc
                      obtain ⟨hInv2, hpr2, hcl2⟩ := finalize_spec _ e _ _ hfz
                        ⟨fun hcc => absurd hcc hc, nfb_tail e evtail hnfb, hInv.2.2⟩
                        (fun hff => nfb_head e evtail hnfb hff)
                      refine ⟨hInv2, ?_, ?_⟩
                      · intro f hf hff
                        rw [hpr2] at hf
                        injection hf with hfe
                        rw [← hfe] at hff
                        exact hcl2 hff
                      · intro m hm
                        rw [hpr2] at hm
                        cases hm

theorem anext_spec (s : IterState) (src : List SrcItem) (s' : IterState)
    (src' : List SrcItem) (pr : PullResult) (hInv : IterInv s)
    (h : anext s src = ((s', src'), pr)) :
    IterInv s' ∧
    (∀ f, pr = PullResult.event f → f.isFinal = true → s'.closed = true) ∧
    (∀ m, pr = PullResult.adapterError m true → s'.closed = true) := by
  unfold anext at h
  by_cases hcb : s.closed = true ∧ s.buffer = []
  · rw [if_pos hcb] at h
    cases h
    refine ⟨hInv, ?_, ?_⟩
    · intro f hf
      cases hf
    · intro m hm
      cases hm
  · rw [if_neg hcb] at h
    cases hbuf : s.buffer with
    | nil =>
        simp only [hbuf] at h
        exact anext_loop_spec src s s' src' pr hInv h
    | cons e brest =>
        simp only [hbuf] at h
        rcases hfz : finalize_if_needed {s with buffer := brest} e with ⟨s2, pr2⟩
        simp only [hfz] at h
        cases h
        have hnfb : no_final_butlast (e :: brest) := by
          rw [← hbuf]
          exact hInv.2.1
        obtain ⟨hInv2, hpr2, hcl2⟩ := finalize_spec _ e _ _ hfz
          ⟨by
            intro hcc
            rw [hInv.1 hcc] at hbuf
            exact List.noConfusion hbuf, nfb_tail e brest hnfb, hInv.2.2⟩
          (fun hff => nfb_head e brest hnfb hff)
        refine ⟨hInv2, ?_, ?_⟩
        · intro f hf hff
          rw [hpr2] at hf
          injection hf with hfe
          rw [← hfe] at hff
          exact hcl2 hff
        · intro m hm
          rw [hpr2] at hm
          cases hm

theorem closed_anext (s : IterState) (src : List SrcItem) (hc : s.closed = true)
    (hb : s.buffer = []) : anext s src = ((s, src), .stopIteration) := by
  unfold anext
  rw [if_pos ⟨hc, hb⟩]

theorem closed_trace (n : Nat) : ∀ (s : IterState) (src : List SrcItem),
    s.closed = true → s.buffer = [] →
    pull_trace s src n = List.replicate n PullResult.stopIteration ∧
    pulls s src n = (s, src) := by
  induction n with
  | zero =>
      intro s src hc hb
      exact ⟨rfl, rfl⟩
  | succ k ihn =>
      intro s src hc hb
      have ha := closed_anext s src hc hb
      constructor
      · unfold pull_trace
        rw [ha]
        show PullResult.stopIteration :: pull_trace s src k = _
        rw [(ihn s src hc hb).1, List.replicate_succ]
      · unfold pulls
        rw [ha]
        show pulls s src k = (s, src)
        exact (ihn s src hc hb).2

/-- `true` when, once an event of the final variant appears among the
pull results, every later pull result is `StopAsyncIteration`. -/
def after_final_stops : List PullResult → Bool
  | [] => true
  | PullResult.event e :: rest =>
      if e.isFinal then rest.all (fun pr => decide (pr = PullResult.stopIteration))
      else after_final_stops rest
  | _ :: rest => after_final_stops rest

theorem replicate_all_stop (n : Nat) :
    (List.replicate n PullResult.stopIteration).all
      (fun pr => decide (pr = PullResult.stopIteration)) = true := by
  induction n with
  | zero => rfl
  | succ k ih =>
      rw [List.replicate_succ, List.all_cons, ih]
      rfl

theorem trace_after_final_stops (n : Nat) : ∀ (s : IterState) (src : List SrcItem),
    IterInv s → after_final_stops (pull_trace s src n) = true := by
  induction n with
  | zero =>
      intro s src hInv
      rfl
  | succ k ihn =>
      intro s src hInv
      rcases ha : anext s src with ⟨⟨s2, src2⟩, pr⟩
      obtain ⟨hInv2, hfinal, htrans⟩ := anext_spec s src s2 src2 pr hInv ha
      unfold pull_trace
      rw [ha]
      show after_final_stops (pr :: pull_trace s2 src2 k) = true
      cases pr with
      | event f =>
          unfold after_final_stops
          by_cases hf : f.isFinal = true
          · rw [if_pos hf]
            have hc2 : s2.closed = true := hfinal f rfl hf
            have hb2 : s2.buffer = [] := hInv2.1 hc2
            rw [(closed_trace k s2 src2 hc2 hb2).1]
            exact replicate_all_stop k
          · rw [if_neg hf]
            exact ihn s2 src2 hInv2
      | stopIteration =>
          show after_final_stops (pull_trace s2 src2 k) = true
          exact ihn s2 src2 hInv2
      | adapterError m t =>
          show after_final_stops (pull_trace s2 src2 k) = true
          exact ihn s2 src2 hInv2

theorem all_stop_eventsOf (t : List PullResult)
    (h : t.all (fun pr => decide (pr = PullResult.stopIteration)) = true) :
    eventsOf t = [] := by
  induction t with
  | nil => rfl
  | cons pr rest ih =>
      rw [List.all_cons, Bool.and_eq_true] at h
      obtain ⟨h1, h2⟩ := h
      have hpr : pr = PullResult.stopIteration := of_decide_eq_true h1
      subst hpr
      show eventsOf rest = []
      exact ih h2

theorem afs_final_count (t : List PullResult) (h : after_final_stops t = true) :
    ((eventsOf t).filter Event.isFinal).length ≤ 1 := by
  induction t with
  | nil => decide
  | cons pr rest ih =>
      cases pr with
      | event e =>
          unfold after_final_stops at h
          have hev : eventsOf (PullResult.event e :: rest) = e :: eventsOf rest := rfl
          by_cases hf : e.isFinal = true
          · rw [if_pos hf] at h
            have hrest : eventsOf rest = [] := all_stop_eventsOf rest h
            rw [hev, hrest, List.filter_cons]
            by_cases hc : Event.isFinal e = true
            · rw [if_pos hc]
              simp
            · rw [if_neg hc]
              simp
          · rw [if_neg hf] at h
            rw [hev, List.filter_cons, if_neg hf]
            exact ih h
      | stopIteration =>
          unfold after_final_stops at h
          have hev : eventsOf (PullResult.stopIteration :: rest) = eventsOf rest := rfl
          rw [hev]
          exact ih h
      | adapterError m t2 =>
          unfold after_final_stops at h
          have hev : eventsOf (PullResult.adapterError m t2 :: rest) = eventsOf rest := rfl
          rw [hev]
          exact ih h

/-- **C3.**  For every chunk source and every number of pulls on a
freshly constructed `_OpenAIStream`, once a Final event has been handed
to the consumer every subsequent pull raises `StopAsyncIteration`
(Final is the last event of the stream), and at most one Final event is
handed out: handing out a Final marks the iterator finalized and — the
Final being the last event of its chunk's batch, so the buffer is
already drained — closes it, and a closed iterator answers every pull
with end-of-stream. -/
theorem c3_final_last (src : List SrcItem) (n : Nat) :
    after_final_stops (pull_trace iter_start src n) = true ∧
    ((eventsOf (pull_trace iter_start src n)).filter Event.isFinal).length ≤ 1 := by
  have h := trace_after_final_stops n iter_start src iter_start_inv
  exact ⟨h, afs_final_count _ h⟩

/-- **C5.**  When a pull on the iterator surfaces a transport error —
the chunk source raised something other than end-of-source, which
`_consume_chunk` wraps into `AdapterError` after calling `aclose()` —
the iterator is already closed and the underlying source has been
disposed exactly once by the time the error propagates, and every
subsequent pull yields end-of-stream without disposing again (the
state, including the disposal count, never changes after that). -/
theorem c5_source_error (s : IterState) (src src' : List SrcItem) (s' : IterState)
    (m : String) (n : Nat) (hInv : IterInv s)
    (h : anext s src = ((s', src'), PullResult.adapterError m true)) :
    s'.closed = true ∧ s'.disposed = 1 ∧
    pull_trace s' src' n = List.replicate n PullResult.stopIteration ∧
    pulls s' src' n = (s', src') := by
  obtain ⟨hInv2, hfin, htrans⟩ := anext_spec s src s' src' _ hInv h
  have hc : s'.closed = true := htrans m rfl
  have hb : s'.buffer = [] := hInv2.1 hc
  have hd : s'.disposed = 1 := by
    have hx := hInv2.2.2
    rw [if_pos hc] at hx
    exact hx
  obtain ⟨ht, hp⟩ := closed_trace n s' src' hc hb
  exact ⟨hc, hd, ht, hp⟩

/-- Witness for C5 at a fresh iterator over a source whose first pull
raises, followed by two further pulls. -/
theorem c5_source_error_witness :
    (⟨NormState.start, [], true, false, 1⟩ : IterState).closed = true ∧
    (⟨NormState.start, [], true, false, 1⟩ : IterState).disposed = 1 ∧
    pull_trace ⟨NormState.start, [], true, false, 1⟩ [] 2 =
      List.replicate 2 PullResult.stopIteration ∧
    pulls ⟨NormState.start, [], true, false, 1⟩ [] 2 =
      (⟨NormState.start, [], true, false, 1⟩, []) :=
  c5_source_error iter_start [Except.error "boom"] []
    ⟨NormState.start, [], true, false, 1⟩
    "OpenAI stream raised an unexpected error" 2 iter_start_inv (by rfl)

/-- `_ToolCallState` of `core/adapters/openai.py`: the legacy per-index
accumulator (no fragment buffer — fragments are re-emitted). -/
structure CoreToolCallState where
  call_id : Option String
  name : Option String
  deriving DecidableEq

/-- Legacy `_ToolCallState.update_from_payload`: validate and record
the entry's `id`, `type` and `function.name`; mutations made before a
raise persist. -/
def core_update (st0 : CoreToolCallState) (e : ToolDelta) :
    CoreToolCallState × Option String :=
  match e.id with
  | some cid =>
      if cid = "" then (st0, some "tool call is missing a valid id")
      else core_update_typ {st0 with call_id := some cid} e
  | none => core_update_typ st0 e
where
  /-- The `type` validation step. -/
  core_update_typ (st1 : CoreToolCallState) (e : ToolDelta) :
      CoreToolCallState × Option String :=
    match e.typ with
    | some t =>
        if t = "function" then core_update_name st1 e
        else (st1, some "tool call must have type 'function'")
    | none => core_update_name st1 e
  /-- The `function.name` validation step. -/
  core_update_name (st1 : CoreToolCallState) (e : ToolDelta) :
      CoreToolCallState × Option String :=
    match e.function with
    | some f =>
        match f.name with
        | some n =>
            if n = "" then (st1, some "tool call is missing a valid function name")
            else ({st1 with name := some n}, none)
        | none => (st1, none)
    | none => (st1, none)

/-- Legacy `_ToolCallState.extract_arguments`: `None` for an absent
function payload, absent arguments, or an empty fragment; the fragment
string otherwise. -/
def core_extract_arguments (f : Option ToolDeltaFunction) : Option String :=
  match f with
  | none => none
  | some fp =>
      match fp.arguments with
      | none => none
      | some frag => if frag = "" then none else some frag

/-- First-match lookup in the legacy `_tool_states` mapping. -/
def lookupCTS (l : List (Int × CoreToolCallState)) (i : Int) : Option CoreToolCallState :=
  (l.find? (fun p => p.1 = i)).map (·.2)

/-- Store under key `i` in the legacy `_tool_states` mapping. -/
def putCTS (l : List (Int × CoreToolCallState)) (i : Int) (v : CoreToolCallState) :
    List (Int × CoreToolCallState) :=
  l.filter (fun p => ¬ p.1 = i) ++ [(i, v)]

/-- Legacy fragment-level `ToolCallEvent` of `core/adapters/stream.py`:
it carries the raw `args_fragment` string and an `is_final` marker. -/
structure CoreToolCallEvent where
  id : String
  name : String
  args_fragment : String
  is_final : Bool
  deriving DecidableEq

/-- One iteration of the `for index, item in enumerate(payload)` loop
of the legacy `OpenAIStreamNormalizer._normalize_tool_calls`: upsert
and update the accumulator, extract the argument fragment, and — on
EVERY non-empty fragment, whatever the `finish_reason` — require a
known id and name before emitting the fragment event. -/
def core_tool_call_entry (ts : List (Int × CoreToolCallState)) (e : ToolDelta)
    (finish_reason : Option String) :
    List (Int × CoreToolCallState) × Except String (Option CoreToolCallEvent) :=
  match e.index with
  | none => (ts, .error "tool call delta missing integer index")
  | some i =>
      let cur0 := (lookupCTS ts i).getD ⟨none, none⟩
      match core_update cur0 e with
      | (cur1, some m) => (putCTS ts i cur1, .error m)
      | (cur1, none) =>
          let ts1 := putCTS ts i cur1
          match core_extract_arguments e.function with
          | none => (ts1, .ok none)
          | some frag =>
              match cur1.call_id with
              | none =>
                  (ts1, .error "tool call is missing an id before emitting arguments")
              | some cid =>
                  match cur1.name with
                  | none =>
                      (ts1,
                        .error
                          "tool call is missing a function name before emitting arguments")
                  | some nm =>
                      (ts1, .ok (some
                        ⟨cid, nm, frag, decide (finish_reason = some "tool_calls")⟩))

/-- **C10.**  In the legacy core normalizer, whenever a tool-call delta
entry carries a non-empty `function.arguments` fragment, the
accumulator for the entry's index must already hold a call id and a
function name once the entry's own payload has been applied; if either
is still unknown the entry raises `AdapterError` immediately — for
every `finish_reason`, not only `"tool_calls"`. -/
theorem c10_fragment_requires_id_name (ts : List (Int × CoreToolCallState))
    (e : ToolDelta) (fin : Option String) (i : Int) (frag : String)
    (cur1 : CoreToolCallState)
    (hidx : e.index = some i)
    (hfrag : core_extract_arguments e.function = some frag)
    (hupd : core_update ((lookupCTS ts i).getD ⟨none, none⟩) e = (cur1, none))
    (hmiss : cur1.call_id = none ∨ cur1.name = none) :
    ∃ m, (core_tool_call_entry ts e fin).2 = Except.error m := by
  unfold core_tool_call_entry
  simp only [hidx]
  simp only [hupd]
  simp only [hfrag]
  rcases hmiss with hm | hm
  · simp only [hm]
    exact ⟨_, rfl⟩
  · cases hcid : cur1.call_id with
    | none =>
        simp only [hcid]
        exact ⟨_, rfl⟩
    | some cid =>
        simp only [hcid, hm]
        exact ⟨_, rfl⟩

/-- Witness for C10: a first-chunk entry carrying only an argument
fragment (no id, no name announced yet), with `finish_reason = None`. -/
theorem c10_fragment_requires_id_name_witness :
    ∃ m, (core_tool_call_entry []
        ⟨some 0, none, none, some ⟨none, some "x"⟩⟩ none).2 = Except.error m :=
  c10_fragment_requires_id_name [] ⟨some 0, none, none, some ⟨none, some "x"⟩⟩ none 0 "x"
    ⟨none, none⟩ rfl rfl rfl (Or.inl rfl)

/-- `key in params` on the defaults dict. -/
def dict_contains (l : List (String × PyVal)) (k : String) : Bool :=
  (l.find? (fun p => p.1 = k)).isSome

/-- `params.get(key)` on the defaults dict. -/
def dict_lookup (l : List (String × PyVal)) (k : String) : Option PyVal :=
  (l.find? (fun p => p.1 = k)).map (·.2)

/-- Key removal, the residue of `params.pop(key)`. -/
def dict_erase (l : List (String × PyVal)) (k : String) : List (String × PyVal) :=
  l.filter (fun p => ¬ p.1 = k)

/-- `str(model_value)`: faithful on the atoms the adapter is meant to
receive (strings, ints, bools, None); the rendering of container
values is abstracted, and no theorem depends on it. -/
def pyStrOf : PyVal → String
  | .pstr s => s
  | .pint n => toString n
  | .pbool true => "True"
  | .pbool false => "False"
  | .pnone => "None"
  | _ => "<value>"

/-- The fields of a constructed `OpenAIAdapter` relevant here. -/
structure OpenAIAdapterState where
  default_model : Option String
  default_params : List (String × PyVal)
  deriving DecidableEq

/-- The `model`-stripping step of `OpenAIAdapter.__init__`: only when
the defaults contain `"model"` AND no explicit `default_model` was
given is the key popped and coerced with `str`. -/
def strip_model (dm : Option String) (params : List (String × PyVal)) :
    Option String × List (String × PyVal) :=
  if dict_contains params "model" = true ∧ dm = none then
    match dict_lookup params "model" with
    | some v => (some (pyStrOf v), dict_erase params "model")
    | none => (dm, params)
  else (dm, params)

/-- `sorted(reserved.intersection(self._default_params))` with
`reserved = \x7b"messages", "stream"\x7d` — the reserved set of the
source does NOT contain `"tools"`. -/
def init_conflict (p1 : List (String × PyVal)) : List String :=
  ["messages", "stream"].filter (fun k => dict_contains p1 k)

/-- `OpenAIAdapter.__init__`: strip `model`, then reject the reserved
keys. -/
def openai_adapter_init (dm : Option String) (params : List (String × PyVal)) :
    Except String OpenAIAdapterState :=
  match strip_model dm params with
  | (dm1, p1) =>
      if init_conflict p1 = [] then .ok ⟨dm1, p1⟩
      else .error ("default parameters cannot include reserved keys: " ++
        String.intercalate ", " (init_conflict p1))

theorem dict_contains_iff (l : List (String × PyVal)) (k : String) :
    dict_contains l k = true ↔ ∃ p ∈ l, p.1 = k := by
  unfold dict_contains
  rw [List.find?_isSome]
  constructor
  · rintro ⟨p, hp, hpk⟩
    exact ⟨p, hp, of_decide_eq_true hpk⟩
  · rintro ⟨p, hp, hpk⟩
    exact ⟨p, hp, decide_eq_true hpk⟩

theorem dict_contains_erase_false (l : List (String × PyVal)) (k k2 : String)
    (h : dict_contains l k = false) : dict_contains (dict_erase l k2) k = false := by
  cases hc : dict_contains (dict_erase l k2) k
  · rfl
  · obtain ⟨p, hp, hpk⟩ := (dict_contains_iff _ k).mp hc
    have hmem := List.mem_of_mem_filter hp
    have : dict_contains l k = true := (dict_contains_iff l k).mpr ⟨p, hmem, hpk⟩
    rw [this] at h
    exact Bool.noConfusion h

theorem dict_contains_erase_true (l : List (String × PyVal)) (k k2 : String)
    (h : dict_contains l k = true) (hne : k ≠ k2) :
    dict_contains (dict_erase l k2) k = true := by
  obtain ⟨p, hp, hpk⟩ := (dict_contains_iff l k).mp h
  refine (dict_contains_iff _ k).mpr ⟨p, ?_, hpk⟩
  refine List.mem_filter.mpr ⟨hp, ?_⟩
  simp only [decide_eq_true_eq]
  rw [hpk]
  exact hne

theorem strip_model_contains (dm : Option String) (params : List (String × PyVal))
    (dm1 : Option String) (p1 : List (String × PyVal)) (k : String)
    (h : strip_model dm params = (dm1, p1)) (hk : k ≠ "model") :
    dict_contains p1 k = dict_contains params k := by
  unfold strip_model at h
  by_cases hcond : dict_contains params "model" = true ∧ dm = none
  · rw [if_pos hcond] at h
    cases hl : dict_lookup params "model" with
    | none =>
        simp only [hl] at h
        cases h
        rfl
    | some v0 =>
        simp only [hl] at h
        cases h
        cases hck : dict_contains params k with
        | false => exact dict_contains_erase_false _ _ _ hck
        | true => exact dict_contains_erase_true _ _ _ hck hk
  · rw [if_neg hcond] at h
    cases h
    rfl

theorem init_ok_of (dm : Option String) (params : List (String × PyVal))
    (dm1 : Option String) (p1 : List (String × PyVal))
    (hstrip : strip_model dm params = (dm1, p1))
    (hm : dict_contains p1 "messages" = false)
    (hs : dict_contains p1 "stream" = false) :
    openai_adapter_init dm params = Except.ok ⟨dm1, p1⟩ := by
  unfold openai_adapter_init
  rw [hstrip]
  have hconf : init_conflict p1 = [] := by
    unfold init_conflict
    simp [hm, hs]
  show (if init_conflict p1 = [] then
      (Except.ok ⟨dm1, p1⟩ : Except String OpenAIAdapterState)
    else Except.error ("default parameters cannot include reserved keys: " ++
      String.intercalate ", " (init_conflict p1))) = Except.ok ⟨dm1, p1⟩
  rw [if_pos hconf]

theorem init_error_of (dm : Option String) (params : List (String × PyVal))
    (dm1 : Option String) (p1 : List (String × PyVal))
    (hstrip : strip_model dm params = (dm1, p1))
    (hbad : dict_contains p1 "messages" = true ∨ dict_contains p1 "stream" = true) :
    ∃ m, openai_adapter_init dm params = Except.error m := by
  unfold openai_adapter_init
  rw [hstrip]
  have hne : init_conflict p1 ≠ [] := by
    unfold init_conflict
    rcases hbad with hb | hb
    · exact List.ne_nil_of_mem (List.mem_filter.mpr ⟨by simp, hb⟩)
    · exact List.ne_nil_of_mem (List.mem_filter.mpr ⟨by simp, hb⟩)
  refine ⟨"default parameters cannot include reserved keys: " ++
    String.intercalate ", " (init_conflict p1), ?_⟩
  show (if init_conflict p1 = [] then
      (Except.ok ⟨dm1, p1⟩ : Except String OpenAIAdapterState)
    else Except.error ("default parameters cannot include reserved keys: " ++
      String.intercalate ", " (init_conflict p1))) = _
  rw [if_neg hne]

/-- **C8, counterexample.**  The spec lists `tools` among the reserved
default-option keys and says a `model` default is always stripped, but
the source's reserved set is only `\x7b"messages", "stream"\x7d`, and
`model` is popped only when no explicit `default_model` was given:
defaults containing `tools` are accepted, and with an explicit
`default_model` the `model` key stays in the defaults. -/
theorem c8_counterexample :
    openai_adapter_init none [("tools", PyVal.pnone)] =
      Except.ok ⟨none, [("tools", PyVal.pnone)]⟩ ∧
    openai_adapter_init (some "gpt-4o") [("model", PyVal.pstr "gpt-3.5-turbo")] =
      Except.ok ⟨some "gpt-4o", [("model", PyVal.pstr "gpt-3.5-turbo")]⟩ :=
  ⟨rfl, rfl⟩

/-- **C8 (amended).**  Adapter construction rejects exactly the default
bags containing `messages` or `stream` (after model-stripping); `tools`
is not reserved.  When no explicit `default_model` is given and the
defaults carry `model`, that key is stripped out of the defaults and
`str(value)` becomes the default model name; with an explicit
`default_model` the defaults are kept unchanged. -/
theorem c8_amended (dm2 : Option String) (params2 : List (String × PyVal))
    (v : PyVal) (m0 : String) (paramsA paramsB : List (String × PyVal))
    (hcleanA : dict_contains paramsA "messages" = false ∧
      dict_contains paramsA "stream" = false)
    (hmodelA : dict_lookup paramsA "model" = some v)
    (hcleanB : dict_contains paramsB "messages" = false ∧
      dict_contains paramsB "stream" = false)
    (hbad : dict_contains params2 "messages" = true ∨
      dict_contains params2 "stream" = true) :
    openai_adapter_init none paramsA =
      Except.ok ⟨some (pyStrOf v), dict_erase paramsA "model"⟩ ∧
    openai_adapter_init (some m0) paramsB = Except.ok ⟨some m0, paramsB⟩ ∧
    (∃ m, openai_adapter_init dm2 params2 = Except.error m) := by
  have hcontA : dict_contains paramsA "model" = true := by
    unfold dict_lookup at hmodelA
    cases hmap : paramsA.find? (fun p => p.1 = "model") with
    | none =>
        rw [hmap] at hmodelA
        cases hmodelA
    | some q =>
        unfold dict_contains
        rw [hmap]
        rfl
  have hstripA : strip_model none paramsA =
      (some (pyStrOf v), dict_erase paramsA "model") := by
    unfold strip_model
    rw [if_pos ⟨hcontA, rfl⟩]
    simp only [hmodelA]
  have hstripB : strip_model (some m0) paramsB = (some m0, paramsB) := by
    unfold strip_model
    rw [if_neg (fun hc => Option.noConfusion hc.2)]
  refine ⟨?_, ?_, ?_⟩
  · exact init_ok_of none paramsA _ _ hstripA
      (dict_contains_erase_false _ _ _ hcleanA.1)
      (dict_contains_erase_false _ _ _ hcleanA.2)
  · exact init_ok_of (some m0) paramsB _ _ hstripB hcleanB.1 hcleanB.2
  · rcases hstrip2 : strip_model dm2 params2 with ⟨dm1, p1⟩
    refine init_error_of dm2 params2 dm1 p1 hstrip2 ?_
    rcases hbad with hb | hb
    · exact Or.inl (by
        rw [strip_model_contains dm2 params2 dm1 p1 "messages" hstrip2 (by decide)]
        exact hb)
    · exact Or.inr (by
        rw [strip_model_contains dm2 params2 dm1 p1 "stream" hstrip2 (by decide)]
        exact hb)

/-- Witness for C8 (amended): a defaults bag carrying `model` and
`tools` (accepted, model stripped), a bag alongside an explicit model
name (accepted unchanged), and a bag carrying `stream` (rejected). -/
theorem c8_amended_witness :
    openai_adapter_init none [("model", PyVal.pstr "gpt-4o"), ("tools", PyVal.pnone)] =
      Except.ok ⟨some (pyStrOf (PyVal.pstr "gpt-4o")),
        dict_erase [("model", PyVal.pstr "gpt-4o"), ("tools", PyVal.pnone)] "model"⟩ ∧
    openai_adapter_init (some "m") [("tools", PyVal.pnone)] =
      Except.ok ⟨some "m", [("tools", PyVal.pnone)]⟩ ∧
    (∃ m, openai_adapter_init none [("stream", PyVal.pbool true)] = Except.error m) :=
  c8_amended none [("stream", PyVal.pbool true)] (PyVal.pstr "gpt-4o") "m"
    [("model", PyVal.pstr "gpt-4o"), ("tools", PyVal.pnone)] [("tools", PyVal.pnone)]
    ⟨rfl, rfl⟩ rfl ⟨rfl, rfl⟩ (Or.inr rfl)

end Foundry
